import Mathlib

/-!
byfood-library: URL normalisation and book handlers

A shallow embedding of `backend/handlers/url_handler.go` and
`backend/handlers/book_handler.go`.

Go strings are byte sequences.  They are modelled as lists of natural numbers,
each below 256 for a real string.  The handlers call into Go's `net/url`
(`Parse`, `URL.Query`, `Values.Del`, `Values.Encode`, `URL.String`), `strings`
and `encoding/json` packages; those library functions are transcribed here from
the Go standard library (the `net/url` of Go 1.19 to 1.24) so that the handler
can be evaluated on concrete inputs.  The database and the UUID parser are external
collaborators whose behaviour the handlers only branch on; they are parameters.
-/

namespace Byfood

/-- A Go string: its bytes. -/
abbrev Bytes := List Nat

/-- UTF-8 encoding of one code point. -/
def utf8EncodeNat (n : Nat) : Bytes :=
  if n < 0x80 then [n]
  else if n < 0x800 then [0xC0 + n / 64, 0x80 + n % 64]
  else if n < 0x10000 then [0xE0 + n / 4096, 0x80 + n / 64 % 64, 0x80 + n % 64]
  else [0xF0 + n / 262144, 0x80 + n / 4096 % 64, 0x80 + n / 64 % 64, 0x80 + n % 64]

/-- The bytes of a string literal (UTF-8, as Go source does). -/
def bytes (s : String) : Bytes := s.toList.flatMap (fun c => utf8EncodeNat c.toNat)

/-- Every element is a byte. -/
def IsBytes (s : Bytes) : Prop := ∀ b ∈ s, b < 256

instance IsBytes.decidable (s : Bytes) : Decidable (IsBytes s) :=
  inferInstanceAs (Decidable (∀ b ∈ s, b < 256))

/-! ## Package `strings` -/

/-- Go `strings.HasPrefix`. -/
def hasPrefix (s pre : Bytes) : Bool := pre.isPrefixOf s

/-- Go `strings.HasSuffix`. -/
def hasSuffix (s suf : Bytes) : Bool := suf.isSuffixOf s

/-- Go `strings.TrimSuffix`: `s[:len(s)-len(suffix)]` when `s` ends with `suffix`. -/
def trimSuffix (s suf : Bytes) : Bytes :=
  if hasSuffix s suf then s.take (s.length - suf.length) else s

/-- Go `strings.Index`: the index of the first instance of `sub` in `s`. -/
def index : Bytes → Bytes → Option Nat
  | [], sub => if sub = [] then some 0 else none
  | c :: t, sub =>
    if sub.isPrefixOf (c :: t) then some 0 else (index t sub).map (· + 1)

/-- Go `strings.LastIndex`: the index of the last instance of `sub` in `s`. -/
def lastIndex : Bytes → Bytes → Option Nat
  | [], sub => if sub = [] then some 0 else none
  | c :: t, sub =>
    match lastIndex t sub with
    | some i => some (i + 1)
    | none => if sub.isPrefixOf (c :: t) then some 0 else none

/-- Go `strings.Contains`. -/
def contains (s sub : Bytes) : Bool := (index s sub).isSome

/-- Go `strings.Cut`: slices `s` around the first instance of `sep`. -/
def cut (s sep : Bytes) : Bytes × Bytes × Bool :=
  match index s sep with
  | some i => (s.take i, s.drop (i + sep.length), true)
  | none => (s, [], false)

/-- Go `strings.ToLower` on one ASCII byte. -/
def lowerByte (c : Nat) : Nat := if 65 ≤ c ∧ c ≤ 90 then c + 32 else c

/-- Go `strings.ToLower`, for the ASCII strings it is applied to (a URL scheme,
which `getScheme` restricts to ASCII letters, digits, `+`, `-` and `.`). -/
def toLower (s : Bytes) : Bytes := s.map lowerByte

/-! ## Package `net/url`: escaping -/

/-- The `encoding` modes of `net/url`. -/
inductive Encoding where
  | encodePath
  | encodePathSegment
  | encodeHost
  | encodeZone
  | encodeUserPassword
  | encodeQueryComponent
  | encodeFragment
  deriving DecidableEq, Repr

open Encoding

/-- Go `ishex`. -/
def ishex (c : Nat) : Bool :=
  (48 ≤ c && c ≤ 57) || (97 ≤ c && c ≤ 102) || (65 ≤ c && c ≤ 70)

/-- Go `unhex`. -/
def unhex (c : Nat) : Nat :=
  if 48 ≤ c ∧ c ≤ 57 then c - 48
  else if 97 ≤ c ∧ c ≤ 102 then c - 97 + 10
  else if 65 ≤ c ∧ c ≤ 70 then c - 65 + 10
  else 0

/-- Go `upperhex[i]`, the digits of `"0123456789ABCDEF"`. -/
def upperhex (i : Nat) : Nat := if i < 10 then 48 + i else 55 + i

/-- ASCII letter or digit. -/
def isAlnum (c : Nat) : Bool :=
  (97 ≤ c && c ≤ 122) || (65 ≤ c && c ≤ 90) || (48 ≤ c && c ≤ 57)

/-- Go `shouldEscape`: whether byte `c` must be percent-escaped in `mode`. -/
def shouldEscape (c : Nat) (mode : Encoding) : Bool :=
  -- unreserved characters (alphanum)
  if isAlnum c then false
  -- host allows  ! $ & ' ( ) * + , ; = : [ ] < > "
  else if (mode = encodeHost ∨ mode = encodeZone) ∧
      c ∈ [33, 36, 38, 39, 40, 41, 42, 43, 44, 59, 61, 58, 91, 93, 60, 62, 34] then false
  -- unreserved characters (mark)  - _ . ~
  else if c ∈ [45, 95, 46, 126] then false
  -- reserved characters  $ & + , / : ; = ? @
  else if c ∈ [36, 38, 43, 44, 47, 58, 59, 61, 63, 64] ∧ mode = encodePath then
    c = 63
  else if c ∈ [36, 38, 43, 44, 47, 58, 59, 61, 63, 64] ∧ mode = encodePathSegment then
    c = 47 ∨ c = 59 ∨ c = 44 ∨ c = 63
  else if c ∈ [36, 38, 43, 44, 47, 58, 59, 61, 63, 64] ∧ mode = encodeUserPassword then
    c = 64 ∨ c = 47 ∨ c = 63 ∨ c = 58
  else if c ∈ [36, 38, 43, 44, 47, 58, 59, 61, 63, 64] ∧ mode = encodeQueryComponent then
    true
  else if c ∈ [36, 38, 43, 44, 47, 58, 59, 61, 63, 64] ∧ mode = encodeFragment then
    false
  -- fragment leaves the sub-delims  ! ( ) *  alone
  else if mode = encodeFragment ∧ c ∈ [33, 40, 41, 42] then false
  -- everything else must be escaped
  else true

/-- Go `escape`: a byte that need not be escaped is kept, a space becomes `+`
in a query component, every other byte becomes `%XX` in upper-case hex. -/
def escape (s : Bytes) (mode : Encoding) : Bytes :=
  s.flatMap fun c =>
    if !shouldEscape c mode then [c]
    else if c = 32 ∧ mode = encodeQueryComponent then [43]
    else [37, upperhex (c / 16 % 16), upperhex (c % 16)]

/-- Go `unescape`: `none` stands for the `EscapeError` / `InvalidHostError`
results.  The checking pass and the decoding pass of the Go function are fused:
the result is an error exactly when the checking pass finds one. -/
def unescape : Bytes → Encoding → Option Bytes
  | [], _ => some []
  | c :: s, mode =>
    if c = 37 then
      match s with
      | a :: b :: rest =>
        if !ishex a || !ishex b then none
        -- in the host, %-encoding is only for non-ASCII bytes, and for %25
        else if mode = encodeHost ∧ unhex a < 8 ∧ [c, a, b] ≠ [37, 50, 53] then none
        -- in the zone, only bytes that a host may hold, a space, and %25
        else if mode = encodeZone ∧ [c, a, b] ≠ [37, 50, 53] ∧
            unhex a * 16 + unhex b ≠ 32 ∧
            shouldEscape (unhex a * 16 + unhex b) encodeHost then none
        else (unescape rest mode).map ((unhex a * 16 + unhex b) :: ·)
      | _ => none
    else if c = 43 then
      (unescape s mode).map ((if mode = encodeQueryComponent then 32 else 43) :: ·)
    else if (mode = encodeHost ∨ mode = encodeZone) ∧ c < 0x80 ∧ shouldEscape c encodeHost then
      none
    else (unescape s mode).map (c :: ·)

/-- Go `QueryEscape`. -/
def QueryEscape (s : Bytes) : Bytes := escape s encodeQueryComponent

/-- Go `QueryUnescape`. -/
def QueryUnescape (s : Bytes) : Option Bytes := unescape s encodeQueryComponent

/-! ## Package `net/url`: the URL type and `Parse` -/

/-- Go `url.Userinfo`. -/
structure Userinfo where
  username : Bytes := []
  password : Bytes := []
  passwordSet : Bool := false
  deriving DecidableEq, Repr

/-- Go `url.URL`. -/
structure URL where
  Scheme : Bytes := []
  Opaque : Bytes := []
  User : Option Userinfo := none
  Host : Bytes := []
  Path : Bytes := []
  RawPath : Bytes := []
  OmitHost : Bool := false
  ForceQuery : Bool := false
  RawQuery : Bytes := []
  Fragment : Bytes := []
  RawFragment : Bytes := []
  deriving DecidableEq, Repr

/-- Go `stringContainsCTLByte`: some byte is below 0x20 or is 0x7f. -/
def stringContainsCTLByte (s : Bytes) : Bool := s.any fun b => b < 32 || b == 127

/-- The loop of Go `getScheme`, at index `i` with `s = rawURL[i:]`. -/
def getSchemeLoop (rawURL : Bytes) : Nat → Bytes → Option (Bytes × Bytes)
  | _, [] => some ([], rawURL)
  | i, c :: s =>
    if (97 ≤ c ∧ c ≤ 122) ∨ (65 ≤ c ∧ c ≤ 90) then getSchemeLoop rawURL (i + 1) s
    else if (48 ≤ c ∧ c ≤ 57) ∨ c = 43 ∨ c = 45 ∨ c = 46 then
      if i = 0 then some ([], rawURL) else getSchemeLoop rawURL (i + 1) s
    else if c = 58 then
      -- "missing protocol scheme" when the colon comes first
      if i = 0 then none else some (rawURL.take i, rawURL.drop (i + 1))
    else some ([], rawURL)

/-- Go `getScheme`: splits off a leading `scheme:`; `none` is its error. -/
def getScheme (rawURL : Bytes) : Option (Bytes × Bytes) := getSchemeLoop rawURL 0 rawURL

/-- Go `validOptionalPort`: empty, or a colon followed by digits. -/
def validOptionalPort : Bytes → Bool
  | [] => true
  | c :: rest => c == 58 && rest.all fun b => 48 ≤ b && b ≤ 57

/-- Go `parseHost`. -/
def parseHost (host : Bytes) : Option Bytes :=
  if hasPrefix host [91] then
    -- an IP-literal such as [fe80::1], [fe80::1%25en0], [fe80::1]:80
    match lastIndex host [93] with
    | none => none
    | some i =>
      if !validOptionalPort (host.drop (i + 1)) then none
      else
        match index (host.take i) [37, 50, 53] with
        | some zone =>
          (unescape (host.take zone) encodeHost).bind fun host1 =>
          (unescape ((host.take i).drop zone) encodeZone).bind fun host2 =>
          (unescape (host.drop i) encodeHost).bind fun host3 =>
          some (host1 ++ host2 ++ host3)
        | none => unescape host encodeHost
  else
    match lastIndex host [58] with
    | some i =>
      if !validOptionalPort (host.drop i) then none else unescape host encodeHost
    | none => unescape host encodeHost

/-- Go `validUserinfo`: only ASCII letters, digits and
`- . _ : ~ ! $ & ' ( ) * + , ; = % @` (a non-ASCII rune is refused, so every
byte at or above 0x80 is). -/
def validUserinfo (s : Bytes) : Bool :=
  s.all fun r => isAlnum r ||
    decide (r ∈ [45, 46, 95, 58, 126, 33, 36, 38, 39, 40, 41, 42, 43, 44, 59, 61, 37, 64])

/-- Go `parseAuthority`: the user information and the host of `authority`. -/
def parseAuthority (authority : Bytes) : Option (Option Userinfo × Bytes) :=
  let i := lastIndex authority [64]
  let hostPart := match i with
    | none => authority
    | some i => authority.drop (i + 1)
  match parseHost hostPart with
  | none => none
  | some host =>
    match i with
    | none => some (none, host)
    | some i =>
      let userinfo := authority.take i
      if !validUserinfo userinfo then none
      else if !contains userinfo [58] then
        (unescape userinfo encodeUserPassword).map fun username =>
          (some { username := username }, host)
      else
        (unescape (cut userinfo [58]).1 encodeUserPassword).bind fun username =>
        (unescape (cut userinfo [58]).2.1 encodeUserPassword).map fun password =>
          (some { username := username, password := password, passwordSet := true }, host)

/-- Go `URL.setPath`: sets `Path`, and `RawPath` when the default escaping of
the path is not the given text. -/
def URL.setPath (u : URL) (p : Bytes) : Option URL :=
  (unescape p encodePath).map fun path =>
    { u with Path := path, RawPath := if p = escape path encodePath then [] else p }

/-- Go `URL.setFragment`. -/
def URL.setFragment (u : URL) (f : Bytes) : Option URL :=
  (unescape f encodeFragment).map fun frag =>
    { u with Fragment := frag, RawFragment := if f = escape frag encodeFragment then [] else f }

/-- The second half of Go `parse`: `url` holds the scheme and the query that
were split off, `rest` is the text between them. -/
def parseAfterQuery (url : URL) (rest : Bytes) (viaRequest : Bool) : Option URL :=
  if !hasPrefix rest [47] ∧ url.Scheme ≠ [] then
    -- rootless paths are opaque
    some { url with Opaque := rest }
  else if !hasPrefix rest [47] ∧ viaRequest = true then none
  else if !hasPrefix rest [47] ∧ contains (cut rest [47]).1 [58] then
    -- first path segment in URL cannot contain colon
    none
  else if (url.Scheme ≠ [] ∨ (viaRequest = false ∧ !hasPrefix rest [47, 47, 47])) ∧
      hasPrefix rest [47, 47] then
    -- authority, rest = rest[2:], ""; cut at the first slash when there is one
    let i := index (rest.drop 2) [47]
    let authority := match i with
      | some i => (rest.drop 2).take i
      | none => rest.drop 2
    let rest := match i with
      | some i => (rest.drop 2).drop i
      | none => []
    match parseAuthority authority with
    | none => none
    | some (user, host) => URL.setPath { url with User := user, Host := host } rest
  else if url.Scheme ≠ [] ∧ hasPrefix rest [47] then
    URL.setPath { url with OmitHost := true } rest
  else URL.setPath url rest

/-- Go `parse`: a URL without its fragment; `none` is its error. -/
def parse (rawURL : Bytes) (viaRequest : Bool) : Option URL :=
  if stringContainsCTLByte rawURL then none
  else if rawURL = [] ∧ viaRequest = true then none
  else if rawURL = [42] then some { Path := [42] }
  else
    match getScheme rawURL with
    | none => none
    | some (scheme, rest) =>
      -- a lone trailing "?" forces an empty query; otherwise cut at the first "?"
      let forceQuery := hasSuffix rest [63] && rest.count 63 == 1
      parseAfterQuery
        { Scheme := toLower scheme
          ForceQuery := forceQuery
          RawQuery := if forceQuery then [] else (cut rest [63]).2.1 }
        (if forceQuery then rest.take (rest.length - 1) else (cut rest [63]).1)
        viaRequest

/-- Go `url.Parse`: cuts off the fragment, parses the rest, then sets the
fragment; `none` is its error. -/
def Parse (rawURL : Bytes) : Option URL :=
  match parse (cut rawURL [35]).1 false with
  | none => none
  | some url =>
    if (cut rawURL [35]).2.1 = [] then some url else URL.setFragment url (cut rawURL [35]).2.1

/-! ## Package `net/url`: `URL.String` -/

/-- Go `validEncoded`. -/
def validEncoded (s : Bytes) (mode : Encoding) : Bool :=
  s.all fun c =>
    -- ! $ & ' ( ) * + , ; = : @ [ ] %
    decide (c ∈ [33, 36, 38, 39, 40, 41, 42, 43, 44, 59, 61, 58, 64, 91, 93, 37]) ||
      !shouldEscape c mode

/-- Go `URL.EscapedPath`. -/
def URL.EscapedPath (u : URL) : Bytes :=
  if u.RawPath ≠ [] ∧ validEncoded u.RawPath encodePath ∧
      unescape u.RawPath encodePath = some u.Path then u.RawPath
  else if u.Path = [42] then [42]
  else escape u.Path encodePath

/-- Go `URL.EscapedFragment`. -/
def URL.EscapedFragment (u : URL) : Bytes :=
  if u.RawFragment ≠ [] ∧ validEncoded u.RawFragment encodeFragment ∧
      unescape u.RawFragment encodeFragment = some u.Fragment then u.RawFragment
  else escape u.Fragment encodeFragment

/-- Go `Userinfo.String`. -/
def Userinfo.String (ui : Userinfo) : Bytes :=
  escape ui.username encodeUserPassword ++
    (if ui.passwordSet then [58] ++ escape ui.password encodeUserPassword else [])

/-- The part of Go `URL.String` that writes the authority after the scheme. -/
def URL.writeAuthority (u : URL) (buf : Bytes) : Bytes :=
  if u.Scheme ≠ [] ∨ u.Host ≠ [] ∨ u.User.isSome then
    if u.OmitHost = true ∧ u.Host = [] ∧ u.User.isNone then buf
    else
      let buf := if u.Host ≠ [] ∨ u.Path ≠ [] ∨ u.User.isSome then buf ++ [47, 47] else buf
      let buf := match u.User with
        | some ui => buf ++ ui.String ++ [64]
        | none => buf
      if u.Host ≠ [] then buf ++ escape u.Host encodeHost else buf
  else buf

/-- The part of Go `URL.String` that writes the path. -/
def URL.writePath (u : URL) (buf : Bytes) : Bytes :=
  let path := u.EscapedPath
  let buf := if path ≠ [] ∧ path.head? ≠ some 47 ∧ u.Host ≠ [] then buf ++ [47] else buf
  -- a first segment with a colon would read as a scheme: prefix "./"
  let buf := if buf = [] ∧ contains (cut path [47]).1 [58] then buf ++ [46, 47] else buf
  buf ++ path

/-- Go `URL.String`: reassembles the URL into a string. -/
def URL.String (u : URL) : Bytes :=
  let buf : Bytes := if u.Scheme ≠ [] then u.Scheme ++ [58] else []
  let buf := if u.Opaque ≠ [] then buf ++ u.Opaque else u.writePath (u.writeAuthority buf)
  let buf := if u.ForceQuery = true ∨ u.RawQuery ≠ [] then buf ++ [63] ++ u.RawQuery else buf
  if u.Fragment ≠ [] then buf ++ [35] ++ u.EscapedFragment else buf

/-! ## Package `net/url`: `Values` -/

/-- Go `url.Values`, a `map[string][]string`: an association list with one
entry per key, in the order the keys were first set. -/
abbrev Values := List (Bytes × List Bytes)

/-- The map lookup `v[key]` with its presence flag. -/
def Values.lookup (v : Values) (key : Bytes) : Option (List Bytes) :=
  match v with
  | [] => none
  | (k, xs) :: t => if k = key then some xs else Values.lookup t key

/-- The statement `m[key] = append(m[key], value)`. -/
def Values.add (v : Values) (key value : Bytes) : Values :=
  match v with
  | [] => [(key, [value])]
  | (k, xs) :: t => if k = key then (k, xs ++ [value]) :: t else (k, xs) :: Values.add t key value

/-- Go `Values.Del`: `delete(v, key)`. -/
def Values.Del (v : Values) (key : Bytes) : Values := v.filter fun e => decide (e.1 ≠ key)

/-- Go `parseQuery`, the loop `for query != ""`, with the number of bytes of
the query as its fuel: every round removes at least one byte.  The error value
of the Go function is left out: it never changes the map, and `URL.Query`
discards it. -/
def parseQueryLoop : Nat → Values → Bytes → Values
  | 0, m, _ => m
  | fuel + 1, m, query =>
    if query = [] then m
    else
      let key := (cut query [38]).1
      let query := (cut query [38]).2.1
      -- invalid semicolon separator in query
      if contains key [59] then parseQueryLoop fuel m query
      else if key = [] then parseQueryLoop fuel m query
      else
        match QueryUnescape (cut key [61]).1 with
        | none => parseQueryLoop fuel m query
        | some k =>
          match QueryUnescape (cut key [61]).2.1 with
          | none => parseQueryLoop fuel m query
          | some value => parseQueryLoop fuel (Values.add m k value) query

/-- Go `ParseQuery`, without its error value. -/
def ParseQuery (query : Bytes) : Values := parseQueryLoop query.length [] query

/-- Go `URL.Query`: parses `RawQuery`, silently discarding malformed pairs. -/
def URL.Query (u : URL) : Values := ParseQuery u.RawQuery

/-- Go string comparison `a <= b`: bytewise lexicographic. -/
def strLE : Bytes → Bytes → Bool
  | [], _ => true
  | _ :: _, [] => false
  | a :: s, b :: t => decide (a < b) || (a == b && strLE s t)

/-- Go `slices.Sort` on strings. -/
def sortStrings (keys : List Bytes) : List Bytes :=
  keys.insertionSort fun a b => strLE a b = true

/-- Go `Values.Encode`: the pairs `key=value`, both query-escaped, joined with
`&`, sorted by key. -/
def Values.Encode (v : Values) : Bytes :=
  if v = [] then []
  else
    (sortStrings (v.map Prod.fst)).foldl
      (fun buf k =>
        ((Values.lookup v k).getD []).foldl
          (fun buf x =>
            (if buf ≠ [] then buf ++ [38] else buf) ++ QueryEscape k ++ [61] ++ QueryEscape x)
          buf)
      []

/-! ## Packages `unicode/utf8` and `encoding/json`: the strings of a JSON document -/

/-- Go `utf8.RuneError`, the replacement character U+FFFD. -/
def RuneError : Nat := 0xFFFD

/-- Go `utf8.first`, the table indexed by the first byte of a sequence: `as`
(0xF0) for an ASCII byte, `xx` (0xF1) for a byte that starts no sequence, and
otherwise the size of the sequence in the low three bits and the index into
`acceptRanges` in the high four. -/
def first (b : Nat) : Nat :=
  if b < 0x80 then 0xF0 -- as
  else if b < 0xC2 then 0xF1 -- xx
  else if b < 0xE0 then 0x02 -- s1
  else if b = 0xE0 then 0x13 -- s2
  else if b < 0xED then 0x03 -- s3
  else if b = 0xED then 0x23 -- s4
  else if b < 0xF0 then 0x03 -- s3
  else if b = 0xF0 then 0x34 -- s5
  else if b < 0xF4 then 0x04 -- s6
  else if b = 0xF4 then 0x44 -- s7
  else 0xF1 -- xx

/-- Go `utf8.acceptRanges`: the lowest and highest valid second byte. -/
def acceptRanges (i : Nat) : Nat × Nat :=
  match i with
  | 0 => (0x80, 0xBF)
  | 1 => (0xA0, 0xBF)
  | 2 => (0x80, 0x9F)
  | 3 => (0x90, 0xBF)
  | 4 => (0x80, 0x8F)
  | _ => (0, 0)

/-- Go `utf8.DecodeRuneInString`: the rune at the front of `s` and its width in
bytes; `(RuneError, 0)` for the empty string and `(RuneError, 1)` for an
invalid encoding. -/
def DecodeRuneInString (s : Bytes) : Nat × Nat :=
  match s with
  | [] => (RuneError, 0)
  | s0 :: t =>
    let x := first s0
    if x ≥ 0xF0 then
      -- `as` gives the byte itself, `xx` gives RuneError
      (if x % 2 = 1 then RuneError else s0, 1)
    else
      let sz := x % 8
      let accept := acceptRanges (x / 16)
      if s.length < sz then (RuneError, 1)
      else
        match t with
        | [] => (RuneError, 1)
        | s1 :: t1 =>
          if s1 < accept.1 ∨ accept.2 < s1 then (RuneError, 1)
          else if sz ≤ 2 then (s0 % 32 * 64 + s1 % 64, 2)
          else
            match t1 with
            | [] => (RuneError, 1)
            | s2 :: t2 =>
              if s2 < 0x80 ∨ 0xBF < s2 then (RuneError, 1)
              else if sz ≤ 3 then (s0 % 16 * 4096 + s1 % 64 * 64 + s2 % 64, 3)
              else
                match t2 with
                | [] => (RuneError, 1)
                | s3 :: _ =>
                  if s3 < 0x80 ∨ 0xBF < s3 then (RuneError, 1)
                  else (s0 % 8 * 262144 + s1 % 64 * 4096 + s2 % 64 * 64 + s3 % 64, 4)

/-- The loop of Go `encoding/json.appendString` (the string encoder of
`Encoder.Encode`), giving the string that the written literal denotes, with the
number of bytes of the source as its fuel.  An ASCII byte is written as itself
or as an escape sequence that denotes it; a valid multi-byte sequence is copied
(U+2028 and U+2029 as escapes that denote them); a byte at which
`DecodeRuneInString` reports `(RuneError, 1)` is written as the escape for
U+FFFD, whose UTF-8 encoding is `EF BF BD`. -/
def jsonStringLoop : Nat → Bytes → Bytes
  | 0, _ => []
  | fuel + 1, src =>
    match src with
    | [] => []
    | b :: rest =>
      if b < 0x80 then b :: jsonStringLoop fuel rest
      else
        let c := (DecodeRuneInString (src.take 4)).1
        let size := (DecodeRuneInString (src.take 4)).2
        if c = RuneError ∧ size = 1 then 0xEF :: 0xBF :: 0xBD :: jsonStringLoop fuel rest
        else src.take size ++ jsonStringLoop fuel (src.drop size)

/-- The string that a reader of the JSON document finds where
`Encoder.Encode` wrote the Go string `s`: `s` itself when it is valid UTF-8,
and otherwise `s` with U+FFFD in place of each invalid byte. -/
def jsonString (s : Bytes) : Bytes := jsonStringLoop s.length s

/-! ## `handlers/url_handler.go` -/

/-- An HTTP response: `http.Error` writes a status and a plain-text message,
`json.NewEncoder(w).Encode` a status and a JSON value, `w.WriteHeader` alone a
status and an empty body. -/
inductive Response (α : Type) where
  | error (status : Nat) (msg : String)
  | json (status : Nat) (value : α)
  | empty (status : Nat)
  deriving DecidableEq, Repr

/-- The status code of a response. -/
def Response.status {α : Type} : Response α → Nat
  | .error s _ => s
  | .json s _ => s
  | .empty s => s

/-- Go `models.URLProcessRequest`. -/
structure URLProcessRequest where
  URL : Bytes
  deriving DecidableEq, Repr

/-- Go `handlers.URLProcessResponse`. -/
structure URLProcessResponse where
  OriginalURL : Bytes
  CleanedURL : Bytes
  Domain : Bytes
  Path : Bytes
  Query : Bytes
  deriving DecidableEq, Repr

/-- The statement `json.NewEncoder(w).Encode(response)` on a
`URLProcessResponse`: the JSON object written, as the string that each of its
five members (`original_url`, `cleaned_url`, `domain`, `path`, `query`) holds
for a reader of the document. -/
def URLProcessResponse.Encode (r : URLProcessResponse) : URLProcessResponse :=
  { OriginalURL := jsonString r.OriginalURL
    CleanedURL := jsonString r.CleanedURL
    Domain := jsonString r.Domain
    Path := jsonString r.Path
    Query := jsonString r.Query }

/-- The `trackingParams` of `ProcessURL`. -/
def trackingParams : List Bytes :=
  [bytes "utm_source", bytes "utm_medium", bytes "utm_campaign", bytes "utm_term",
   bytes "utm_content", bytes "fbclid", bytes "gclid", bytes "ref", bytes "source",
   bytes "campaign_id"]

/-- The `query` of `ProcessURL` after the loop `for _, param := range
trackingParams { query.Del(param) }`. -/
def filteredQuery (parsedURL : URL) : Values :=
  trackingParams.foldl Values.Del parsedURL.Query

/-- The `cleanedURL` of `ProcessURL` at the time it is serialised: built from
the scheme, host, path and filtered query only, then one trailing slash
trimmed. -/
def cleanedURL (parsedURL : URL) : URL :=
  let cleaned : URL :=
    { Scheme := parsedURL.Scheme
      Host := parsedURL.Host
      Path := parsedURL.Path
      RawQuery := (filteredQuery parsedURL).Encode }
  if cleaned.Path ≠ [47] ∧ hasSuffix cleaned.Path [47] then
    { cleaned with Path := trimSuffix cleaned.Path [47] }
  else cleaned

/-- Go `URLHandler.ProcessURL`.  The argument is the outcome of
`json.NewDecoder(r.Body).Decode(&req)`: `none` when decoding fails.  The value
of a 200 response is the JSON object that `Encode` writes for `response`. -/
def ProcessURL (body : Option URLProcessRequest) : Response URLProcessResponse :=
  match body with
  | none => .error 400 "Invalid JSON"
  | some req =>
    if req.URL = [] then .error 400 "URL is required"
    else
      match Parse req.URL with
      | none => .error 400 "Invalid URL format"
      | some parsedURL =>
        let response : URLProcessResponse :=
          { OriginalURL := req.URL
            CleanedURL := (cleanedURL parsedURL).String
            Domain := parsedURL.Host
            Path := parsedURL.Path
            Query := (filteredQuery parsedURL).Encode }
        .json 200 response.Encode

/-- The `cleaned_url` that `ProcessURL` returns for input `u`, when it accepts
`u` (status 200). -/
def cleanedOf (u : Bytes) : Option Bytes :=
  match ProcessURL (some { URL := u }) with
  | .json 200 r => some r.CleanedURL
  | _ => none

/-! ## `models/book.go` and `handlers/book_handler.go` -/

/-- Go `uuid.UUID`: sixteen bytes. -/
abbrev UUID := List Nat

/-- Go `models.Book`; the timestamps are instants of an abstract clock. -/
structure Book where
  ID : UUID
  Title : String
  Author : String
  Year : Int
  CreatedAt : Nat
  UpdatedAt : Nat
  deriving DecidableEq, Repr

/-- Go `models.CreateBookRequest`. -/
structure CreateBookRequest where
  Title : String
  Author : String
  Year : Int
  deriving DecidableEq, Repr

/-- Go `models.UpdateBookRequest`. -/
structure UpdateBookRequest where
  Title : String
  Author : String
  Year : Int
  deriving DecidableEq, Repr

/-- An error value of `database/sql`: `sql.ErrNoRows`, or any other error. -/
inductive DBError where
  | errNoRows
  | other (msg : String)
  deriving DecidableEq, Repr

/-- A call on `h.db`, with the arguments bound to the statement. -/
inductive DBCall where
  | queryBooks
  | selectBook (id : UUID)
  | insertBook (title author : String) (year : Int) (createdAt updatedAt : Nat)
  | updateBook (title author : String) (year : Int) (updatedAt : Nat) (id : UUID)
  | deleteBook (id : UUID)
  deriving DecidableEq, Repr

/-- What the database answers to each statement of the handlers.
`queryBooks` is `db.Query` of the list statement: an error, or the rows, each
with the outcome of its `rows.Scan`.  `selectBook`, `insertBook` and
`updateBook` are `db.QueryRow(...).Scan(...)`.  `deleteBook` is `db.Exec`: an
error, or a result whose `RowsAffected()` is an error or a count. -/
structure DB where
  queryBooks : Except DBError (List (Except DBError Book))
  selectBook : UUID → Except DBError Book
  insertBook : String → String → Int → Nat → Nat → Except DBError (UUID × Nat × Nat)
  updateBook : String → String → Int → Nat → UUID → Except DBError Book
  deleteBook : UUID → Except DBError (Except DBError Int)

/-- The collaborators of a `BookHandler`: the database, `uuid.Parse` (`none`
is its error) and the reading of `time.Now()`. -/
structure Env where
  db : DB
  parseUUID : String → Option UUID
  now : Nat

/-- The payload check shared by `CreateBook` and `UpdateBook`:
`req.Title == "" || req.Author == "" || req.Year < 1000 || req.Year > 2034`. -/
def invalidBookData (title author : String) (year : Int) : Bool :=
  title == "" || author == "" || decide (year < 1000) || decide (year > 2034)

/-- Go `append(books, book)` on a slice that may be nil (`none`). -/
def appendBook (books : Option (List Book)) (book : Book) : Option (List Book) :=
  match books with
  | none => some [book]
  | some bs => some (bs ++ [book])

/-- The loop `for rows.Next()` of `GetBooks`: a row whose scan fails is
skipped. -/
def scanBooks (books : Option (List Book)) : List (Except DBError Book) → Option (List Book)
  | [] => books
  | .error _ :: rows => scanBooks books rows
  | .ok book :: rows => scanBooks (appendBook books book) rows

/-- Go `BookHandler.GetBooks`.  The JSON body is `none` for `null` and
`some bs` for an array.  The second component lists the database calls made. -/
def GetBooks (env : Env) : Response (Option (List Book)) × List DBCall :=
  match env.db.queryBooks with
  | .error _ => (.error 500 "Internal server error", [.queryBooks])
  | .ok rows =>
    let books := scanBooks none rows
    let books := if books = none then some [] else books
    (.json 200 books, [.queryBooks])

/-- Go `BookHandler.GetBook`; `id` is `mux.Vars(r)["id"]`. -/
def GetBook (env : Env) (id : String) : Response Book × List DBCall :=
  match env.parseUUID id with
  | none => (.error 400 "Invalid book ID", [])
  | some uid =>
    match env.db.selectBook uid with
    | .error .errNoRows => (.error 404 "Book not found", [.selectBook uid])
    | .error _ => (.error 500 "Internal server error", [.selectBook uid])
    | .ok book => (.json 200 book, [.selectBook uid])

/-- Go `BookHandler.CreateBook`; `body` is the outcome of decoding the request
body, `none` when decoding fails. -/
def CreateBook (env : Env) (body : Option CreateBookRequest) : Response Book × List DBCall :=
  match body with
  | none => (.error 400 "Invalid JSON", [])
  | some req =>
    if invalidBookData req.Title req.Author req.Year then (.error 400 "Invalid book data", [])
    else
      let call := DBCall.insertBook req.Title req.Author req.Year env.now env.now
      match env.db.insertBook req.Title req.Author req.Year env.now env.now with
      | .error _ => (.error 500 "Internal server error", [call])
      | .ok (id, createdAt, updatedAt) =>
        (.json 201
          { ID := id, Title := req.Title, Author := req.Author, Year := req.Year,
            CreatedAt := createdAt, UpdatedAt := updatedAt }, [call])

/-- Go `BookHandler.UpdateBook`. -/
def UpdateBook (env : Env) (id : String) (body : Option UpdateBookRequest) :
    Response Book × List DBCall :=
  match env.parseUUID id with
  | none => (.error 400 "Invalid book ID", [])
  | some uid =>
    match body with
    | none => (.error 400 "Invalid JSON", [])
    | some req =>
      if invalidBookData req.Title req.Author req.Year then (.error 400 "Invalid book data", [])
      else
        let call := DBCall.updateBook req.Title req.Author req.Year env.now uid
        match env.db.updateBook req.Title req.Author req.Year env.now uid with
        | .error .errNoRows => (.error 404 "Book not found", [call])
        | .error _ => (.error 500 "Internal server error", [call])
        | .ok book => (.json 200 book, [call])

/-- Go `BookHandler.DeleteBook`. -/
def DeleteBook (env : Env) (id : String) : Response Unit × List DBCall :=
  match env.parseUUID id with
  | none => (.error 400 "Invalid book ID", [])
  | some uid =>
    match env.db.deleteBook uid with
    | .error _ => (.error 500 "Internal server error", [.deleteBook uid])
    | .ok (.error _) => (.error 500 "Internal server error", [.deleteBook uid])
    | .ok (.ok rowsAffected) =>
      if rowsAffected = 0 then (.error 404 "Book not found", [.deleteBook uid])
      else (.empty 204, [.deleteBook uid])

/-! ### Example collaborators, for evaluating the handlers -/

/-- A sample book. -/
def sampleBook : Book :=
  { ID := [1], Title := "Dune", Author := "Frank Herbert", Year := 1965,
    CreatedAt := 10, UpdatedAt := 10 }

/-- A sample database: it holds `sampleBook` under the identifier `[1]`, and
its list query returns one unreadable row and then `sampleBook`. -/
def sampleDB : DB :=
  { queryBooks := .ok [.error (.other "scan"), .ok sampleBook]
    selectBook := fun id => if id = [1] then .ok sampleBook else .error .errNoRows
    insertBook := fun _ _ _ c u => .ok ([2], c, u)
    updateBook := fun t a y u id =>
      if id = [1] then .ok { sampleBook with Title := t, Author := a, Year := y, UpdatedAt := u }
      else .error .errNoRows
    deleteBook := fun id => .ok (.ok (if id = [1] then 1 else 0)) }

/-- A sample environment: the identifier `"1"` parses, every other text is
malformed. -/
def sampleEnv : Env :=
  { db := sampleDB, parseUUID := fun s => if s = "1" then some [1] else none, now := 20 }

/-! ## Auxiliary definitions used in the proofs -/

/-- The text `key=value` that `Values.Encode` writes for one pair. -/
def pairText (p : Bytes × Bytes) : Bytes := QueryEscape p.1 ++ 61 :: QueryEscape p.2

/-- The pairs of a `Values` in the order `Values.Encode` writes them: by sorted
key, and for one key in the order of its values. -/
def encodedPairs (v : Values) : List (Bytes × Bytes) :=
  (sortStrings (v.map Prod.fst)).flatMap fun k =>
    ((Values.lookup v k).getD []).map fun x => (k, x)

/-- Texts joined with `&`. -/
def joinAmp : List Bytes → Bytes
  | [] => []
  | [a] => a
  | a :: b :: t => a ++ 38 :: joinAmp (b :: t)

/-- The same map with its entries in sorted key order. -/
def Values.sorted (v : Values) : Values :=
  (sortStrings (v.map Prod.fst)).map fun k => (k, (Values.lookup v k).getD [])

/-- A well-formed map: one entry per key, no entry with an empty list of
values (the Go functions used here never store one), all texts made of bytes. -/
def Values.WF (v : Values) : Prop :=
  (v.map Prod.fst).Nodup ∧ ∀ e ∈ v, e.2 ≠ [] ∧ IsBytes e.1 ∧ ∀ x ∈ e.2, IsBytes x

/-- A byte that `getScheme` accepts inside a scheme. -/
def isSchemeByte (c : Nat) : Bool := isAlnum c || c == 43 || c == 45 || c == 46

/-- An ASCII letter. -/
def isLetter (c : Nat) : Bool := (97 ≤ c && c ≤ 122) || (65 ≤ c && c ≤ 90)

/-- The shape of a scheme found by `getScheme`: scheme bytes only, a letter
first. -/
def SchemeShape (s : Bytes) : Prop :=
  (∀ c ∈ s, isSchemeByte c = true) ∧ ∀ c, s.head? = some c → isLetter c = true

/-- No scheme can be read off the front of `s`: before every colon there is a
byte that a scheme cannot hold. -/
def NoSchemeTail (s : Bytes) : Prop :=
  ∀ a b, s = a ++ 58 :: b → ∃ x ∈ a, isSchemeByte x = false

/-- What `Parse` guarantees about the fields of the URL that `ProcessURL`
reads, for an input made of bytes. -/
structure ParsedOK (p : URL) : Prop where
  scheme : SchemeShape p.Scheme
  lower : toLower p.Scheme = p.Scheme
  rawQuery : IsBytes p.RawQuery
  host : ∃ raw, IsBytes raw ∧ parseHost raw = some p.Host
  path : IsBytes p.Path
  rooted : p.Scheme ≠ [] ∨ p.Host ≠ [] → p.Path = [] ∨ p.Path.head? = some 47

/-- The bytes that a host text decoded in host mode holds: bytes that `escape`
keeps in a host, non-ASCII bytes, and `%`. -/
def HostBytes (h : Bytes) : Prop :=
  ∀ x ∈ h, x < 256 ∧ (shouldEscape x encodeHost = false ∨ 128 ≤ x ∨ x = 37)

/-- The bytes of a zone that survive escaping and parsing again: bytes that
`escape` keeps in a host, `%` and the space. -/
def ZoneBytes (z : Bytes) : Prop :=
  ∀ x ∈ z, shouldEscape x encodeHost = false ∨ x = 37 ∨ x = 32

/-- In a bracketed host (an IP literal), every byte from the first `%` on, that
is the zone, is ASCII. -/
def ZoneASCII (h : Bytes) : Prop :=
  hasPrefix h [91] = true → ∀ b ∈ h.dropWhile (fun x => x != 37), b < 128

instance ZoneASCII.decidable (h : Bytes) : Decidable (ZoneASCII h) :=
  inferInstanceAs (Decidable (hasPrefix h [91] = true →
    ∀ b ∈ h.dropWhile (fun x => x != 37), b < 128))

/-- A URL with a scheme, a host, a path and a query only: what `ProcessURL`
serialises. -/
def plainURL (scheme host path query : Bytes) : URL :=
  { Scheme := scheme, Host := host, Path := path, RawQuery := query }


/-- A continuation byte of UTF-8, `80` to `BF`. -/
def isCont (b : Nat) : Bool := 0x80 ≤ b && b ≤ 0xBF

/-- Well-formed UTF-8 (the Unicode Standard, table 3-7): a sequence of ASCII
bytes, two-byte sequences `C2..DF 80..BF`, three-byte sequences
`E0 A0..BF`, `E1..EC 80..BF`, `ED 80..9F` or `EE..EF 80..BF` followed by one
continuation byte, and four-byte sequences `F0 90..BF`, `F1..F3 80..BF` or
`F4 80..8F` followed by two continuation bytes. -/
def validUTF8 : Bytes → Bool
  | [] => true
  | b0 :: t =>
    if b0 < 0x80 then validUTF8 t
    else
      match t with
      | [] => false
      | b1 :: t1 =>
        if 0xC2 ≤ b0 ∧ b0 ≤ 0xDF then isCont b1 && validUTF8 t1
        else
          match t1 with
          | [] => false
          | b2 :: t2 =>
            if b0 = 0xE0 then 0xA0 ≤ b1 && b1 ≤ 0xBF && isCont b2 && validUTF8 t2
            else if (0xE1 ≤ b0 ∧ b0 ≤ 0xEC) ∨ b0 = 0xEE ∨ b0 = 0xEF then
              isCont b1 && isCont b2 && validUTF8 t2
            else if b0 = 0xED then 0x80 ≤ b1 && b1 ≤ 0x9F && isCont b2 && validUTF8 t2
            else
              match t2 with
              | [] => false
              | b3 :: t3 =>
                if b0 = 0xF0 then
                  0x90 ≤ b1 && b1 ≤ 0xBF && isCont b2 && isCont b3 && validUTF8 t3
                else if 0xF1 ≤ b0 ∧ b0 ≤ 0xF3 then
                  isCont b1 && isCont b2 && isCont b3 && validUTF8 t3
                else if b0 = 0xF4 then
                  0x80 ≤ b1 && b1 ≤ 0x8F && isCont b2 && isCont b3 && validUTF8 t3
                else false

/-- The segments of a query text between its `&` separators. -/
def segments : Bytes → List Bytes
  | [] => [[]]
  | c :: s =>
    if c = 38 then [] :: segments s
    else
      match segments s with
      | [] => [[c]]
      | seg :: r => (c :: seg) :: r

/-- A segment of a query text read as a parameter: the name is the text before
the first `=` and the value the text after it, both percent-decoded with `+`
for a space.  A segment that is empty, contains `;`, or whose name or value
is not a valid percent-encoding is no parameter. -/
def segmentPair (seg : Bytes) : Option (Bytes × Bytes) :=
  if seg = [] ∨ 59 ∈ seg then none
  else
    match QueryUnescape (cut seg [61]).1, QueryUnescape (cut seg [61]).2.1 with
    | some k, some v => some (k, v)
    | _, _ => none

/-- The parameters of a query text, in the order they are written. -/
def inputParams (rawQuery : Bytes) : List (Bytes × Bytes) :=
  (segments rawQuery).filterMap segmentPair

/-- The values that a list of parameters gives to the name `k`, in order. -/
def valuesOf (k : Bytes) (ps : List (Bytes × Bytes)) : List Bytes :=
  (ps.filter fun e => decide (e.1 = k)).map Prod.snd

/-! # Theorems -/

/-! ## Book handlers -/

theorem invalidBookData_eq_false (title author : String) (year : Int) :
    invalidBookData title author year = false ↔
      title ≠ "" ∧ author ≠ "" ∧ 1000 ≤ year ∧ year ≤ 2034 := by
  simp [invalidBookData, not_or, and_assoc]

theorem scanBooks_some (bs : List Book) (rows : List (Except DBError Book)) :
    scanBooks (some bs) rows =
      some (bs ++ rows.filterMap fun r => match r with | .ok b => some b | .error _ => none) := by
  induction rows generalizing bs with
  | nil => simp [scanBooks]
  | cons r rows ih =>
    cases r with
    | error e => simpa [scanBooks] using ih bs
    | ok b => simp [scanBooks, appendBook, ih]

theorem scanBooks_none (rows : List (Except DBError Book)) :
    (if scanBooks none rows = none then some [] else scanBooks none rows) =
      some (rows.filterMap fun r => match r with | .ok b => some b | .error _ => none) := by
  induction rows with
  | nil => simp [scanBooks]
  | cons r rows ih =>
    cases r with
    | error e => simpa [scanBooks] using ih
    | ok b => simp [scanBooks, appendBook, scanBooks_some]

/-- C3: `CreateBook` and `UpdateBook` apply the same payload check.  A decoded
payload is passed to the store (exactly one insert, respectively update, call
carrying its fields) if and only if the title is non-empty, the author is
non-empty and 1000 <= year <= 2034; otherwise the response is 400 with no store
call.  Years 999 and 2035 are rejected and 1000 and 2034 accepted by both. -/
theorem C3_create_update_validation (env : Env) (id : String) (uid : UUID)
    (hid : env.parseUUID id = some uid) (title author : String) (year : Int) :
    ((title ≠ "" ∧ author ≠ "" ∧ 1000 ≤ year ∧ year ≤ 2034) →
      (CreateBook env (some ⟨title, author, year⟩)).2 =
          [DBCall.insertBook title author year env.now env.now] ∧
        (CreateBook env (some ⟨title, author, year⟩)).1.status ≠ 400 ∧
        (UpdateBook env id (some ⟨title, author, year⟩)).2 =
          [DBCall.updateBook title author year env.now uid] ∧
        (UpdateBook env id (some ⟨title, author, year⟩)).1.status ≠ 400) ∧
    (¬ (title ≠ "" ∧ author ≠ "" ∧ 1000 ≤ year ∧ year ≤ 2034) →
      CreateBook env (some ⟨title, author, year⟩) = (.error 400 "Invalid book data", []) ∧
        UpdateBook env id (some ⟨title, author, year⟩) = (.error 400 "Invalid book data", [])) ∧
    invalidBookData "t" "a" 999 = true ∧ invalidBookData "t" "a" 2035 = true ∧
    invalidBookData "t" "a" 1000 = false ∧ invalidBookData "t" "a" 2034 = false := by
  refine ⟨fun h => ?_, fun h => ?_, by decide, by decide, by decide, by decide⟩
  · have hv := (invalidBookData_eq_false title author year).2 h
    simp only [CreateBook, UpdateBook, hid, hv]
    refine ⟨?_, ?_, ?_, ?_⟩
    · cases env.db.insertBook title author year env.now env.now <;> simp
    · cases env.db.insertBook title author year env.now env.now <;> simp [Response.status]
    · cases h' : env.db.updateBook title author year env.now uid with
      | error e => cases e <;> simp
      | ok b => simp
    · cases h' : env.db.updateBook title author year env.now uid with
      | error e => cases e <;> simp [Response.status]
      | ok b => simp [Response.status]
  · have hv : invalidBookData title author year = true := by
      cases hb : invalidBookData title author year with
      | true => rfl
      | false => exact absurd ((invalidBookData_eq_false title author year).1 hb) h
    simp [CreateBook, UpdateBook, hid, hv]

/-- Witness for C3 on the sample environment. -/
theorem C3_create_update_validation_witness :
    (CreateBook sampleEnv (some ⟨"Dune", "Frank Herbert", 1000⟩)).2 =
        [DBCall.insertBook "Dune" "Frank Herbert" 1000 20 20] ∧
      UpdateBook sampleEnv "1" (some ⟨"Dune", "", 1000⟩) = (.error 400 "Invalid book data", []) :=
  ⟨((C3_create_update_validation sampleEnv "1" [1] (by decide) "Dune" "Frank Herbert" 1000).1
      (by decide)).1,
   ((C3_create_update_validation sampleEnv "1" [1] (by decide) "Dune" "" 1000).2.1
      (by decide)).2⟩

/-- C6: a request to `GetBook`, `UpdateBook` or `DeleteBook` whose id is not a
well-formed UUID is answered 400 with no database call, whatever the database
and whatever the request body. -/
theorem C6_malformed_id_is_400 (env : Env) (id : String) (h : env.parseUUID id = none)
    (body : Option UpdateBookRequest) :
    GetBook env id = (.error 400 "Invalid book ID", []) ∧
    UpdateBook env id body = (.error 400 "Invalid book ID", []) ∧
    DeleteBook env id = (.error 400 "Invalid book ID", []) ∧
    (GetBook env id).1.status = 400 ∧ (UpdateBook env id body).1.status = 400 ∧
    (DeleteBook env id).1.status = 400 := by
  simp [GetBook, UpdateBook, DeleteBook, h, Response.status]

/-- Witness for C6: the id `not-a-uuid` on the sample environment. -/
theorem C6_malformed_id_is_400_witness :
    GetBook sampleEnv "not-a-uuid" = (.error 400 "Invalid book ID", []) ∧
    UpdateBook sampleEnv "not-a-uuid" (some ⟨"Dune", "Frank Herbert", 1965⟩) =
      (.error 400 "Invalid book ID", []) ∧
    DeleteBook sampleEnv "not-a-uuid" = (.error 400 "Invalid book ID", []) :=
  have h := C6_malformed_id_is_400 sampleEnv "not-a-uuid" (by decide)
    (some ⟨"Dune", "Frank Herbert", 1965⟩)
  ⟨h.1, h.2.1, h.2.2.1⟩

/-- C7: for a well-formed id and a valid payload, `GetBook` and `UpdateBook`
answer 404 exactly when the store reports `sql.ErrNoRows`, 500 exactly when it
reports another error, and 200 with the book otherwise; `DeleteBook` answers
500 when the delete or the rows-affected query fails, 404 exactly when it
succeeds with zero rows affected, and 204 with an empty body otherwise. -/
theorem C7_not_found_distinguished (env : Env) (id : String) (uid : UUID)
    (hid : env.parseUUID id = some uid) (req : UpdateBookRequest)
    (hreq : invalidBookData req.Title req.Author req.Year = false) :
    -- GetBook
    ((GetBook env id).1.status = 404 ↔ env.db.selectBook uid = .error .errNoRows) ∧
    ((GetBook env id).1.status = 500 ↔
      ∃ e, env.db.selectBook uid = .error e ∧ e ≠ .errNoRows) ∧
    (∀ b, env.db.selectBook uid = .ok b → (GetBook env id).1 = .json 200 b) ∧
    -- UpdateBook
    ((UpdateBook env id (some req)).1.status = 404 ↔
      env.db.updateBook req.Title req.Author req.Year env.now uid = .error .errNoRows) ∧
    ((UpdateBook env id (some req)).1.status = 500 ↔
      ∃ e, env.db.updateBook req.Title req.Author req.Year env.now uid = .error e ∧
        e ≠ .errNoRows) ∧
    (∀ b, env.db.updateBook req.Title req.Author req.Year env.now uid = .ok b →
      (UpdateBook env id (some req)).1 = .json 200 b) ∧
    -- DeleteBook
    ((DeleteBook env id).1.status = 500 ↔
      (∃ e, env.db.deleteBook uid = .error e) ∨ ∃ e, env.db.deleteBook uid = .ok (.error e)) ∧
    ((DeleteBook env id).1.status = 404 ↔ env.db.deleteBook uid = .ok (.ok 0)) ∧
    (∀ n, env.db.deleteBook uid = .ok (.ok n) → n ≠ 0 → (DeleteBook env id).1 = .empty 204) := by
  refine ⟨?_, ?_, ?_, ?_, ?_, ?_, ?_, ?_, ?_⟩
  · simp only [GetBook, hid]
    cases h : env.db.selectBook uid with
    | error e => cases e <;> simp [Response.status]
    | ok b => simp [Response.status]
  · simp only [GetBook, hid]
    cases h : env.db.selectBook uid with
    | error e => cases e <;> simp [Response.status]
    | ok b => simp [Response.status]
  · intro b h
    simp [GetBook, hid, h]
  · simp only [UpdateBook, hid, hreq]
    cases h : env.db.updateBook req.Title req.Author req.Year env.now uid with
    | error e => cases e <;> simp [Response.status]
    | ok b => simp [Response.status]
  · simp only [UpdateBook, hid, hreq]
    cases h : env.db.updateBook req.Title req.Author req.Year env.now uid with
    | error e => cases e <;> simp [Response.status]
    | ok b => simp [Response.status]
  · intro b h
    simp [UpdateBook, hid, hreq, h]
  · simp only [DeleteBook, hid]
    cases h : env.db.deleteBook uid with
    | error e => simp [Response.status]
    | ok r =>
      cases r with
      | error e => simp [Response.status]
      | ok n => by_cases hn : n = 0 <;> simp [Response.status, hn]
  · simp only [DeleteBook, hid]
    cases h : env.db.deleteBook uid with
    | error e => simp [Response.status]
    | ok r =>
      cases r with
      | error e => simp [Response.status]
      | ok n => by_cases hn : n = 0 <;> simp [Response.status, hn]
  · intro n h hn
    simp [DeleteBook, hid, h, hn]

/-- Witness for C7 on the sample environment: the stored book is found. -/
theorem C7_not_found_distinguished_witness :
    (GetBook sampleEnv "1").1 = .json 200 sampleBook :=
  (C7_not_found_distinguished sampleEnv "1" [1] (by decide) ⟨"Dune", "Frank Herbert", 1965⟩
    (by decide)).2.2.1 sampleBook rfl

/-- C8: when the list query succeeds, `GetBooks` answers 200 with the array of
exactly the rows that scan successfully, in the order the store returned them;
the body is an array (never null), also when no row remains. -/
theorem C8_getBooks_rows (env : Env) (rows : List (Except DBError Book))
    (h : env.db.queryBooks = .ok rows) :
    (GetBooks env).1 =
      .json 200 (some (rows.filterMap fun r =>
        match r with
        | .ok b => some b
        | .error _ => none)) ∧
    ((∀ r ∈ rows, ∃ e, r = .error e) → (GetBooks env).1 = .json 200 (some [])) := by
  have key : (GetBooks env).1 =
      .json 200 (some (rows.filterMap fun r =>
        match r with
        | .ok b => some b
        | .error _ => none)) := by
    simp only [GetBooks, h]
    exact congrArg (Response.json 200) (scanBooks_none rows)
  refine ⟨key, fun hall => ?_⟩
  rw [key]
  have : (rows.filterMap fun r => match r with | .ok b => some b | .error _ => none) = [] := by
    rw [List.filterMap_eq_nil_iff]
    intro r hr
    obtain ⟨e, rfl⟩ := hall r hr
    rfl
  rw [this]

/-- Witness for C8: the sample database returns an unreadable row and a book. -/
theorem C8_getBooks_rows_witness : (GetBooks sampleEnv).1 = .json 200 (some [sampleBook]) :=
  (C8_getBooks_rows sampleEnv [.error (.other "scan"), .ok sampleBook] rfl).1

/-- C9, as stated, fails: a payload with an empty title, one with an empty
author and one with an out-of-range year receive the very same response from
`CreateBook` and from `UpdateBook`, so the caller cannot tell the offending
field. -/
theorem C9_fields_not_distinguished :
    CreateBook sampleEnv (some ⟨"", "Frank Herbert", 1965⟩) =
        CreateBook sampleEnv (some ⟨"Dune", "", 1965⟩) ∧
      CreateBook sampleEnv (some ⟨"Dune", "", 1965⟩) =
        CreateBook sampleEnv (some ⟨"Dune", "Frank Herbert", 999⟩) ∧
      UpdateBook sampleEnv "1" (some ⟨"", "Frank Herbert", 1965⟩) =
        UpdateBook sampleEnv "1" (some ⟨"Dune", "", 1965⟩) ∧
      UpdateBook sampleEnv "1" (some ⟨"Dune", "", 1965⟩) =
        UpdateBook sampleEnv "1" (some ⟨"Dune", "Frank Herbert", 2035⟩) := by
  decide

/-- C9 amended: a payload with an empty title, an empty author, or a year
below 1000 or above 2034 is answered 400 with the one message
`Invalid book data`, by `CreateBook` and (for a well-formed id) `UpdateBook`,
and no store call is made. -/
theorem C9_validation_failure_generic (env : Env) (id : String) (uid : UUID)
    (hid : env.parseUUID id = some uid) (title author : String) (year : Int)
    (h : title = "" ∨ author = "" ∨ year < 1000 ∨ year > 2034) :
    CreateBook env (some ⟨title, author, year⟩) = (.error 400 "Invalid book data", []) ∧
    UpdateBook env id (some ⟨title, author, year⟩) = (.error 400 "Invalid book data", []) := by
  have hv : invalidBookData title author year = true := by
    simpa [invalidBookData, or_assoc] using h
  simp [CreateBook, UpdateBook, hid, hv]

/-- Witness for C9 amended: an empty title on the sample environment. -/
theorem C9_validation_failure_generic_witness :
    CreateBook sampleEnv (some ⟨"", "Frank Herbert", 1965⟩) =
        (.error 400 "Invalid book data", []) ∧
      UpdateBook sampleEnv "1" (some ⟨"", "Frank Herbert", 1965⟩) =
        (.error 400 "Invalid book data", []) :=
  C9_validation_failure_generic sampleEnv "1" [1] (by decide) "" "Frank Herbert" 1965
    (Or.inl rfl)

/-! ## Package `strings`: lemmas -/

theorem index_single_of_not_mem (c : Nat) (s : Bytes) (h : c ∉ s) : index s [c] = none := by
  induction s with
  | nil => simp [index]
  | cons a t ih =>
    have h1 : c ≠ a := fun e => h (by simp [e])
    have h2 : c ∉ t := fun e => h (by simp [e])
    simp [index, List.isPrefixOf, h1, ih h2]

theorem index_single_append (c : Nat) (a b : Bytes) (h : c ∉ a) :
    index (a ++ c :: b) [c] = some a.length := by
  induction a with
  | nil => simp [index, List.isPrefixOf]
  | cons x t ih =>
    have h1 : c ≠ x := fun e => h (by simp [e])
    have h2 : c ∉ t := fun e => h (by simp [e])
    simp [index, List.isPrefixOf, h1, ih h2]

theorem index_single_eq_none (c : Nat) (s : Bytes) (h : index s [c] = none) : c ∉ s := by
  intro hm
  obtain ⟨a, b, rfl, ha⟩ := List.eq_append_cons_of_mem hm
  rw [index_single_append c a b ha] at h
  cases h

theorem cut_of_not_mem (c : Nat) (s : Bytes) (h : c ∉ s) : cut s [c] = (s, [], false) := by
  simp [cut, index_single_of_not_mem c s h]

theorem cut_append (c : Nat) (a b : Bytes) (h : c ∉ a) : cut (a ++ c :: b) [c] = (a, b, true) := by
  simp [cut, index_single_append c a b h]

theorem contains_single (c : Nat) (s : Bytes) : contains s [c] = true ↔ c ∈ s := by
  constructor
  · intro h
    by_contra hn
    simp [contains, index_single_of_not_mem c s hn] at h
  · intro h
    obtain ⟨a, b, rfl, ha⟩ := List.eq_append_cons_of_mem h
    simp [contains, index_single_append c a b ha]

theorem contains_single_false (c : Nat) (s : Bytes) : contains s [c] = false ↔ c ∉ s := by
  rw [← contains_single]; simp

theorem lastIndex_single_of_not_mem (c : Nat) (s : Bytes) (h : c ∉ s) : lastIndex s [c] = none := by
  induction s with
  | nil => simp [lastIndex]
  | cons a t ih =>
    have h1 : c ≠ a := fun e => h (by simp [e])
    have h2 : c ∉ t := fun e => h (by simp [e])
    simp [lastIndex, List.isPrefixOf, h1, ih h2]

theorem lastIndex_single_append (c : Nat) (a b : Bytes) (h : c ∉ b) :
    lastIndex (a ++ c :: b) [c] = some a.length := by
  induction a with
  | nil => simp [lastIndex, List.isPrefixOf, lastIndex_single_of_not_mem c b h]
  | cons x t ih => simp [lastIndex, ih]

theorem exists_last_occurrence (c : Nat) (s : Bytes) (hm : c ∈ s) :
    ∃ a b, s = a ++ c :: b ∧ c ∉ b := by
  obtain ⟨a, b, hab, ha⟩ := List.eq_append_cons_of_mem (List.mem_reverse.2 hm)
  refine ⟨b.reverse, a.reverse, ?_, by simpa using ha⟩
  have := congrArg List.reverse hab
  simpa using this

theorem lastIndex_single_eq_none (c : Nat) (s : Bytes) (h : lastIndex s [c] = none) : c ∉ s := by
  intro hm
  obtain ⟨a, b, rfl, hb⟩ := exists_last_occurrence c s hm
  rw [lastIndex_single_append c _ _ hb] at h
  cases h

theorem lastIndex_single_some (c : Nat) (s : Bytes) (i : Nat) (h : lastIndex s [c] = some i) :
    ∃ a b, s = a ++ c :: b ∧ c ∉ b ∧ a.length = i := by
  have hm : c ∈ s := by
    by_contra hn
    rw [lastIndex_single_of_not_mem c s hn] at h
    cases h
  obtain ⟨a, b, hs, hb⟩ := exists_last_occurrence c s hm
  refine ⟨a, b, hs, hb, ?_⟩
  rw [hs, lastIndex_single_append c _ _ hb] at h
  exact Option.some.inj h

theorem index_single_some (c : Nat) (s : Bytes) (i : Nat) (h : index s [c] = some i) :
    ∃ a b, s = a ++ c :: b ∧ c ∉ a ∧ a.length = i := by
  have hm : c ∈ s := by
    by_contra hn
    rw [index_single_of_not_mem c s hn] at h
    cases h
  obtain ⟨a, b, hs, ha⟩ := List.eq_append_cons_of_mem hm
  refine ⟨a, b, hs, ha, ?_⟩
  rw [hs, index_single_append c a b ha] at h
  exact Option.some.inj h

theorem hasPrefix_single (c : Nat) (s : Bytes) : hasPrefix s [c] = true ↔ s.head? = some c := by
  cases s with
  | nil => simp [hasPrefix]
  | cons a t =>
    simp only [hasPrefix, List.isPrefixOf_iff_prefix, List.head?_cons, Option.some.injEq]
    constructor
    · rintro ⟨r, hr⟩
      simp at hr
      exact hr.1.symm
    · rintro rfl
      exact ⟨t, rfl⟩

theorem hasSuffix_single (c : Nat) (s : Bytes) : hasSuffix s [c] = true ↔ ∃ t, s = t ++ [c] := by
  simp only [hasSuffix, List.isSuffixOf_iff_suffix]
  constructor
  · rintro ⟨t, rfl⟩; exact ⟨t, rfl⟩
  · rintro ⟨t, rfl⟩; exact ⟨t, rfl⟩

theorem trimSuffix_single_append (c : Nat) (t : Bytes) : trimSuffix (t ++ [c]) [c] = t := by
  have h : hasSuffix (t ++ [c]) [c] = true := (hasSuffix_single c _).2 ⟨t, rfl⟩
  simp [trimSuffix, h]

/-! ## Package `net/url`: escaping lemmas -/

theorem unhex_upperhex (n : Nat) (h : n < 16) : unhex (upperhex n) = n := by
  unfold unhex upperhex
  split_ifs <;> omega

theorem ishex_upperhex (n : Nat) (h : n < 16) : ishex (upperhex n) = true := by
  unfold ishex upperhex
  split_ifs <;> simp <;> omega

theorem upperhex_range (n : Nat) (h : n < 16) :
    (48 ≤ upperhex n ∧ upperhex n ≤ 57) ∨ (65 ≤ upperhex n ∧ upperhex n ≤ 70) := by
  unfold upperhex
  split_ifs <;> omega

/-- A byte that some mode keeps unescaped is a printable ASCII byte other than
`#` and `%`. -/
theorem shouldEscape_false_printable (x : Nat) (m : Encoding) (h : shouldEscape x m = false) :
    33 ≤ x ∧ x ≤ 126 ∧ x ≠ 35 ∧ x ≠ 37 := by
  cases m <;> simp [shouldEscape, isAlnum] at h <;> omega

theorem shouldEscape_query_false (x : Nat) (h : shouldEscape x encodeQueryComponent = false) :
    isAlnum x = true ∨ x = 45 ∨ x = 95 ∨ x = 46 ∨ x = 126 := by
  simp [shouldEscape] at h
  by_cases ha : isAlnum x = true
  · exact Or.inl ha
  · right
    simp [ha] at h
    omega

theorem shouldEscape_path_false (x : Nat) (h : shouldEscape x encodePath = false) :
    33 ≤ x ∧ x ≤ 126 ∧ x ≠ 35 ∧ x ≠ 37 ∧ x ≠ 63 := by
  simp [shouldEscape, isAlnum] at h
  omega

theorem shouldEscape_host_false (x : Nat) (h : shouldEscape x encodeHost = false) :
    33 ≤ x ∧ x ≤ 126 ∧ x ≠ 35 ∧ x ≠ 37 ∧ x ≠ 63 ∧ x ≠ 47 ∧ x ≠ 64 := by
  simp [shouldEscape, isAlnum] at h
  omega

theorem escape_nil (m : Encoding) : escape [] m = [] := rfl

theorem escape_cons (c : Nat) (s : Bytes) (m : Encoding) :
    escape (c :: s) m = escape [c] m ++ escape s m := by
  simp [escape]

theorem escape_append (a b : Bytes) (m : Encoding) :
    escape (a ++ b) m = escape a m ++ escape b m := by
  simp [escape]

theorem escape_single_keep (c : Nat) (m : Encoding) (h : shouldEscape c m = false) :
    escape [c] m = [c] := by
  simp [escape, h]

theorem escape_keep (s : Bytes) (m : Encoding) (h : ∀ c ∈ s, shouldEscape c m = false) :
    escape s m = s := by
  induction s with
  | nil => rfl
  | cons c t ih =>
    rw [escape_cons, escape_single_keep c m (h c (by simp)), ih fun x hx => h x (by simp [hx])]
    rfl

/-- Every byte that `escape` writes is a kept byte of the input, a `%`, a `+`
(query component only) or an upper-case hex digit. -/
theorem mem_escape (b : Nat) (s : Bytes) (m : Encoding) (h : b ∈ escape s m) :
    (b ∈ s ∧ shouldEscape b m = false) ∨ b = 37 ∨ (b = 43 ∧ m = encodeQueryComponent) ∨
      (48 ≤ b ∧ b ≤ 57) ∨ (65 ≤ b ∧ b ≤ 70) := by
  simp only [escape, List.mem_flatMap] at h
  obtain ⟨c, hc, hb⟩ := h
  by_cases h1 : shouldEscape c m = false
  · simp [h1] at hb
    subst hb
    exact Or.inl ⟨hc, h1⟩
  · simp only [Bool.not_eq_false] at h1
    by_cases h2 : c = 32 ∧ m = encodeQueryComponent
    · obtain ⟨rfl, rfl⟩ := h2
      have he : shouldEscape 32 encodeQueryComponent = true := by decide
      simp only [he, Bool.not_true, Bool.false_eq_true, if_false, and_self, if_true,
        List.mem_singleton] at hb
      exact Or.inr (Or.inr (Or.inl ⟨hb, rfl⟩))
    · simp only [h1, Bool.not_true, Bool.false_eq_true, if_false, h2, List.mem_cons,
        List.mem_singleton, List.not_mem_nil, or_false] at hb
      rcases hb with hb | hb | hb
      · exact Or.inr (Or.inl hb)
      · have := upperhex_range (c / 16 % 16) (Nat.mod_lt _ (by norm_num))
        rw [← hb] at this
        exact Or.inr (Or.inr (Or.inr this))
      · have := upperhex_range (c % 16) (Nat.mod_lt _ (by norm_num))
        rw [← hb] at this
        exact Or.inr (Or.inr (Or.inr this))

/-- Escaped text is printable ASCII without `#`. -/
theorem escape_printable (b : Nat) (s : Bytes) (m : Encoding) (h : b ∈ escape s m) :
    33 ≤ b ∧ b ≤ 126 ∧ b ≠ 35 := by
  rcases mem_escape b s m h with ⟨_, h1⟩ | h1 | ⟨h1, _⟩ | h1 | h1
  · have := shouldEscape_false_printable b m h1
    omega
  all_goals omega

theorem not_mem_escape_query (b : Nat) (s : Bytes)
    (hb : b = 38 ∨ b = 61 ∨ b = 59 ∨ b = 63 ∨ b = 35 ∨ b = 47 ∨ b = 58) :
    b ∉ escape s encodeQueryComponent := by
  intro h
  rcases mem_escape b s _ h with ⟨_, h1⟩ | h1 | ⟨h1, _⟩ | h1 | h1
  · rcases shouldEscape_query_false b h1 with h2 | h2
    · simp [isAlnum] at h2
      omega
    · omega
  all_goals omega

theorem not_mem_escape_path (b : Nat) (s : Bytes) (hb : b = 63 ∨ b = 35) :
    b ∉ escape s encodePath := by
  intro h
  rcases mem_escape b s _ h with ⟨_, h1⟩ | h1 | ⟨h1, _⟩ | h1 | h1
  · have := shouldEscape_path_false b h1
    omega
  all_goals omega

theorem not_mem_escape_host (b : Nat) (s : Bytes) (hb : b = 63 ∨ b = 35 ∨ b = 47 ∨ b = 64) :
    b ∉ escape s encodeHost := by
  intro h
  rcases mem_escape b s _ h with ⟨_, h1⟩ | h1 | ⟨h1, _⟩ | h1 | h1
  · have := shouldEscape_host_false b h1
    omega
  all_goals omega

theorem unescape_cons_ne (c : Nat) (s : Bytes) (mode : Encoding) (h : c ≠ 37) :
    unescape (c :: s) mode =
      if c = 43 then
        (unescape s mode).map ((if mode = encodeQueryComponent then 32 else 43) :: ·)
      else if (mode = encodeHost ∨ mode = encodeZone) ∧ c < 0x80 ∧ shouldEscape c encodeHost then
        none
      else (unescape s mode).map (c :: ·) := by
  rcases s with _ | ⟨a, _ | ⟨b, rest⟩⟩ <;> simp [unescape, h]

theorem unescape_pct (a b : Nat) (rest : Bytes) (mode : Encoding) :
    unescape (37 :: a :: b :: rest) mode =
      if !ishex a || !ishex b then none
      else if mode = encodeHost ∧ unhex a < 8 ∧ [37, a, b] ≠ [37, 50, 53] then none
      else if mode = encodeZone ∧ [37, a, b] ≠ [37, 50, 53] ∧
          unhex a * 16 + unhex b ≠ 32 ∧
          shouldEscape (unhex a * 16 + unhex b) encodeHost then none
      else (unescape rest mode).map ((unhex a * 16 + unhex b) :: ·) := by
  simp [unescape]

/-- A byte kept by `escape` in path or query-component mode decodes to itself. -/
theorem unescape_cons_keep (c : Nat) (s : Bytes) (m : Encoding)
    (hm : m = encodePath ∨ m = encodeQueryComponent) (h1 : shouldEscape c m = false) :
    unescape (c :: s) m = (unescape s m).map (c :: ·) := by
  have hp := shouldEscape_false_printable c m h1
  rw [unescape_cons_ne c s m hp.2.2.2]
  rcases hm with hm | hm <;> subst hm
  · by_cases e : c = 43 <;> simp [e]
  · have e : c ≠ 43 := by
      rintro rfl
      simp [shouldEscape, isAlnum] at h1
    simp [e]

/-- In path and query-component mode, `unescape` undoes `escape`. -/
theorem unescape_escape (s : Bytes) (m : Encoding) (hm : m = encodePath ∨ m = encodeQueryComponent)
    (hs : IsBytes s) : unescape (escape s m) m = some s := by
  induction s with
  | nil => rfl
  | cons c t ih =>
    have ht : IsBytes t := fun b hb => hs b (by simp [hb])
    have hc : c < 256 := hs c (by simp)
    rw [escape_cons]
    by_cases h1 : shouldEscape c m = false
    · rw [escape_single_keep c m h1]
      simp [unescape_cons_keep c _ m hm h1, ih ht]
    · simp only [Bool.not_eq_false] at h1
      by_cases h2 : c = 32 ∧ m = encodeQueryComponent
      · obtain ⟨rfl, rfl⟩ := h2
        have he : escape [32] encodeQueryComponent = [43] := by decide
        rw [he]
        simp [unescape_cons_ne, ih ht]
      · have he : escape [c] m = [37, upperhex (c / 16 % 16), upperhex (c % 16)] := by
          simp [escape, h1, h2]
        have hdiv : c / 16 % 16 = c / 16 := Nat.mod_eq_of_lt (by omega)
        rw [he, hdiv]
        have e1 := unhex_upperhex (c / 16) (by omega)
        have e2 := unhex_upperhex (c % 16) (Nat.mod_lt _ (by norm_num))
        have i1 := ishex_upperhex (c / 16) (by omega)
        have i2 := ishex_upperhex (c % 16) (Nat.mod_lt _ (by norm_num))
        have hv : c / 16 * 16 + c % 16 = c := by omega
        rcases hm with hm | hm <;> subst hm <;>
          simp [unescape_pct, e1, e2, i1, i2, hv, ih ht]

/-! ## `Values`: lemmas -/

theorem Values.lookup_eq_none (v : Values) (k : Bytes) :
    Values.lookup v k = none ↔ k ∉ v.map Prod.fst := by
  induction v with
  | nil => simp [Values.lookup]
  | cons e t ih =>
    obtain ⟨k', xs⟩ := e
    by_cases h : k' = k
    · simp [Values.lookup, h]
    · have h' : ¬ k = k' := fun e => h e.symm
      simp only [Values.lookup, h, if_false, ih, List.map_cons, List.mem_cons, h', false_or]

theorem Values.lookup_mem (v : Values) (k : Bytes) (xs : List Bytes)
    (h : Values.lookup v k = some xs) : (k, xs) ∈ v := by
  induction v with
  | nil => simp [Values.lookup] at h
  | cons e t ih =>
    obtain ⟨k', ys⟩ := e
    by_cases hk : k' = k
    · simp [Values.lookup, hk] at h
      simp [hk, h]
    · simp [Values.lookup, hk] at h
      exact List.mem_cons_of_mem _ (ih h)

theorem Values.lookup_Del (v : Values) (k key : Bytes) :
    Values.lookup (Values.Del v key) k = if k = key then none else Values.lookup v k := by
  induction v with
  | nil => simp [Values.Del, Values.lookup]
  | cons e t ih =>
    obtain ⟨k', xs⟩ := e
    simp only [Values.Del] at ih ⊢
    by_cases h1 : k' = key
    · subst h1
      by_cases h2 : k = k'
      · subst h2
        simpa [List.filter, Values.lookup] using ih
      · have h3 : ¬ k' = k := fun e => h2 e.symm
        simpa [List.filter, Values.lookup, h2, h3] using ih
    · by_cases h2 : k' = k
      · subst h2
        simp [List.filter, Values.lookup, h1]
      · simpa [List.filter, Values.lookup, h1, h2] using ih

theorem Values.lookup_foldl_Del (keys : List Bytes) (v : Values) (k : Bytes) :
    Values.lookup (keys.foldl Values.Del v) k = if k ∈ keys then none else Values.lookup v k := by
  induction keys generalizing v with
  | nil => simp
  | cons a t ih =>
    rw [List.foldl_cons, ih, Values.lookup_Del]
    by_cases h1 : k ∈ t
    · simp [h1]
    · by_cases h2 : k = a <;> simp [h1, h2]

theorem Values.Del_keys_sublist (v : Values) (key : Bytes) :
    ((Values.Del v key).map Prod.fst).Sublist (v.map Prod.fst) :=
  (List.filter_sublist v).map _

theorem Values.WF_Del (v : Values) (key : Bytes) (h : Values.WF v) : Values.WF (Values.Del v key) :=
  ⟨h.1.sublist (Values.Del_keys_sublist v key), fun e he => h.2 e (List.mem_of_mem_filter he)⟩

theorem Values.WF_foldl_Del (keys : List Bytes) (v : Values) (h : Values.WF v) :
    Values.WF (keys.foldl Values.Del v) := by
  induction keys generalizing v with
  | nil => exact h
  | cons a t ih => exact ih _ (Values.WF_Del v a h)

theorem Values.add_keys (v : Values) (k x : Bytes) :
    (Values.add v k x).map Prod.fst =
      if k ∈ v.map Prod.fst then v.map Prod.fst else v.map Prod.fst ++ [k] := by
  induction v with
  | nil => simp [Values.add]
  | cons e t ih =>
    obtain ⟨k', xs⟩ := e
    by_cases h : k' = k
    · simp [Values.add, h]
    · have h' : ¬ k = k' := fun e => h e.symm
      by_cases hm : k ∈ t.map Prod.fst
      · simp only [Values.add, h, if_false, List.map_cons, ih, hm, if_true, List.mem_cons, or_true]
      · simp only [Values.add, h, if_false, List.map_cons, ih, hm, List.mem_cons, h', or_self,
          List.cons_append]

theorem Values.mem_add (v : Values) (k x : Bytes) (e : Bytes × List Bytes)
    (he : e ∈ Values.add v k x) :
    e ∈ v ∨ (e.1 = k ∧ ∃ ys, e.2 = ys ++ [x] ∧ (ys = [] ∨ (k, ys) ∈ v)) := by
  induction v with
  | nil =>
    simp [Values.add] at he
    subst he
    exact Or.inr ⟨rfl, [], rfl, Or.inl rfl⟩
  | cons e' t ih =>
    obtain ⟨k', xs⟩ := e'
    by_cases h : k' = k
    · subst h
      simp only [Values.add, if_true, List.mem_cons] at he
      rcases he with he | he
      · subst he
        exact Or.inr ⟨rfl, xs, rfl, Or.inr (by simp)⟩
      · exact Or.inl (by simp [he])
    · simp only [Values.add, h, if_false, List.mem_cons] at he
      rcases he with he | he
      · exact Or.inl (by simp [he])
      · rcases ih he with h1 | ⟨h1, ys, h2, h3⟩
        · exact Or.inl (by simp [h1])
        · refine Or.inr ⟨h1, ys, h2, ?_⟩
          rcases h3 with h3 | h3
          · exact Or.inl h3
          · exact Or.inr (by simp [h3])

theorem Values.WF_add (v : Values) (k x : Bytes) (h : Values.WF v) (hk : IsBytes k)
    (hx : IsBytes x) : Values.WF (Values.add v k x) := by
  constructor
  · rw [Values.add_keys]
    split_ifs with hm
    · exact h.1
    · exact List.Nodup.append h.1 (by simp) (by simpa using hm)
  · intro e he
    rcases Values.mem_add v k x e he with h1 | ⟨h1, ys, h2, h3⟩
    · exact h.2 e h1
    · refine ⟨by simp [h2], h1 ▸ hk, ?_⟩
      intro y hy
      rw [h2] at hy
      rcases List.mem_append.1 hy with hy | hy
      · rcases h3 with h3 | h3
        · simp [h3] at hy
        · exact (h.2 _ h3).2.2 y hy
      · simp at hy
        exact hy ▸ hx

/-! ## `Values.Encode` and `ParseQuery` -/

theorem IsBytes.take {s : Bytes} (h : IsBytes s) (n : Nat) : IsBytes (s.take n) :=
  fun b hb => h b (List.mem_of_mem_take hb)

theorem IsBytes.drop {s : Bytes} (h : IsBytes s) (n : Nat) : IsBytes (s.drop n) :=
  fun b hb => h b (List.mem_of_mem_drop hb)

theorem IsBytes.cut_fst {s : Bytes} (h : IsBytes s) (sep : Bytes) : IsBytes (cut s sep).1 := by
  unfold cut
  cases index s sep with
  | none => exact h
  | some i => exact h.take i

theorem IsBytes.cut_snd {s : Bytes} (h : IsBytes s) (sep : Bytes) : IsBytes (cut s sep).2.1 := by
  unfold cut
  cases index s sep with
  | none => intro b hb; cases hb
  | some i => exact h.drop _

theorem unhex_le (c : Nat) : unhex c ≤ 15 := by
  unfold unhex
  split_ifs <;> omega

/-- Induction along the tokens of `unescape`: a `%XX` triple, a `%` too close
to the end, or any other byte. -/
theorem unescape_tokens_induction (P : Bytes → Prop) (hnil : P [])
    (hpct : ∀ a b rest, P rest → P (37 :: a :: b :: rest))
    (hshort1 : P [37]) (hshort2 : ∀ a, P [37, a])
    (hother : ∀ c s, c ≠ 37 → P s → P (c :: s)) : ∀ s, P s := by
  have key : ∀ n (s : Bytes), s.length = n → P s := by
    intro n
    induction n using Nat.strong_induction_on with
    | _ n ih =>
      intro s hn
      rcases s with _ | ⟨c, s⟩
      · exact hnil
      · by_cases hc : c = 37
        · subst hc
          rcases s with _ | ⟨a, _ | ⟨b, rest⟩⟩
          · exact hshort1
          · exact hshort2 a
          · exact hpct a b rest (ih rest.length (by simp at hn; omega) rest rfl)
        · exact hother c s hc (ih s.length (by simp at hn; omega) s rfl)
  exact fun s => key s.length s rfl

theorem unescape_short1 (m : Encoding) : unescape [37] m = none := by simp [unescape]

theorem unescape_short2 (a : Nat) (m : Encoding) : unescape [37, a] m = none := by
  simp [unescape]

theorem IsBytes.unescape {s t : Bytes} {m : Encoding} (hs : IsBytes s)
    (h : unescape s m = some t) : IsBytes t := by
  induction s using unescape_tokens_induction generalizing t with
  | hnil =>
    simp [Byfood.unescape] at h
    subst h
    exact hs
  | hpct a b rest ih =>
    rw [unescape_pct] at h
    split_ifs at h
    obtain ⟨r, hr, rfl⟩ := Option.map_eq_some'.1 h
    have hrest : IsBytes rest := fun x hx => hs x (by simp [hx])
    intro x hx
    rcases List.mem_cons.1 hx with hx | hx
    · have := unhex_le a
      have := unhex_le b
      omega
    · exact ih hrest hr x hx
  | hshort1 => simp [unescape_short1] at h
  | hshort2 a => simp [unescape_short2] at h
  | hother c s hc ih =>
    rw [unescape_cons_ne c s m hc] at h
    have hs' : IsBytes s := fun x hx => hs x (by simp [hx])
    have hc256 : c < 256 := hs c (by simp)
    split_ifs at h
    · obtain ⟨r, hr, rfl⟩ := Option.map_eq_some'.1 h
      intro x hx
      rcases List.mem_cons.1 hx with hx | hx
      · subst hx; norm_num
      · exact ih hs' hr x hx
    · obtain ⟨r, hr, rfl⟩ := Option.map_eq_some'.1 h
      intro x hx
      rcases List.mem_cons.1 hx with hx | hx
      · subst hx; norm_num
      · exact ih hs' hr x hx
    · obtain ⟨r, hr, rfl⟩ := Option.map_eq_some'.1 h
      intro x hx
      rcases List.mem_cons.1 hx with hx | hx
      · subst hx; exact hc256
      · exact ih hs' hr x hx

/-! ### `Values.Encode` as a join of pair texts -/

theorem joinAmp_cons (a : Bytes) (l : List Bytes) :
    joinAmp (a :: l) = a ++ l.flatMap fun b => 38 :: b := by
  induction l generalizing a with
  | nil => simp [joinAmp]
  | cons b t ih => simp [joinAmp, ih b]

theorem pairText_ne_nil (p : Bytes × Bytes) : pairText p ≠ [] := by
  simp [pairText]

theorem foldl_encode_step (ps : List (Bytes × Bytes)) (buf : Bytes) (hbuf : buf ≠ []) :
    ps.foldl (fun buf p =>
        (if buf ≠ [] then buf ++ [38] else buf) ++ QueryEscape p.1 ++ [61] ++ QueryEscape p.2) buf
      = buf ++ ps.flatMap fun p => 38 :: pairText p := by
  induction ps generalizing buf with
  | nil => simp
  | cons p t ih =>
    rw [List.foldl_cons, ih _ (by simp [hbuf])]
    simp [hbuf, pairText]

theorem foldl_encode_nil (ps : List (Bytes × Bytes)) :
    ps.foldl (fun buf p =>
        (if buf ≠ [] then buf ++ [38] else buf) ++ QueryEscape p.1 ++ [61] ++ QueryEscape p.2) []
      = joinAmp (ps.map pairText) := by
  cases ps with
  | nil => rfl
  | cons p t =>
    rw [List.foldl_cons, foldl_encode_step t _ (by simp), List.map_cons, joinAmp_cons]
    simp [pairText, List.flatMap_map]

theorem foldl_foldl_eq_flatMap {κ β γ : Type} (keys : List κ) (f : κ → List β)
    (g : γ → κ → β → γ) (init : γ) :
    keys.foldl (fun acc k => (f k).foldl (fun acc x => g acc k x) acc) init =
      (keys.flatMap fun k => (f k).map fun x => (k, x)).foldl (fun acc p => g acc p.1 p.2) init := by
  induction keys generalizing init with
  | nil => rfl
  | cons k t ih =>
    rw [List.foldl_cons, ih, List.flatMap_cons, List.foldl_append, List.foldl_map]

/-- `Values.Encode` writes the texts of its pairs joined with `&`. -/
theorem Values.Encode_eq_joinAmp (v : Values) :
    Values.Encode v = joinAmp ((encodedPairs v).map pairText) := by
  unfold Values.Encode
  split_ifs with hv
  · subst hv
    rfl
  · rw [foldl_foldl_eq_flatMap (sortStrings (v.map Prod.fst))
      (fun k => (Values.lookup v k).getD [])
      (fun buf k x =>
        (if buf ≠ [] then buf ++ [38] else buf) ++ QueryEscape k ++ [61] ++ QueryEscape x)]
    exact foldl_encode_nil _

/-! ### `ParseQuery` on the output of `Values.Encode` -/

theorem parseQueryLoop_nil (fuel : Nat) (m : Values) : parseQueryLoop fuel m [] = m := by
  cases fuel <;> simp [parseQueryLoop]

theorem not_mem_pairText (b : Nat) (p : Bytes × Bytes)
    (hb : b = 38 ∨ b = 59 ∨ b = 63 ∨ b = 35 ∨ b = 47 ∨ b = 58) : b ∉ pairText p := by
  intro h
  simp only [pairText, List.mem_append, List.mem_cons] at h
  rcases h with h | h | h
  · exact not_mem_escape_query b p.1 (by omega) h
  · omega
  · exact not_mem_escape_query b p.2 (by omega) h

theorem cut_pairText (p : Bytes × Bytes) :
    cut (pairText p) [61] = (QueryEscape p.1, QueryEscape p.2, true) :=
  cut_append 61 _ _ (not_mem_escape_query 61 p.1 (by omega))

/-- One round of the `parseQuery` loop on a pair text written by `Encode`. -/
theorem parseQueryLoop_pair (fuel : Nat) (m : Values) (p : Bytes × Bytes) (rest : Bytes)
    (hp1 : IsBytes p.1) (hp2 : IsBytes p.2) (query : Bytes)
    (hq : cut query [38] = (pairText p, rest, true) ∨ cut query [38] = (pairText p, rest, false)) :
    parseQueryLoop (fuel + 1) m query = parseQueryLoop fuel (Values.add m p.1 p.2) rest := by
  have hne : query ≠ [] := by
    rintro rfl
    rcases hq with hq | hq
    · simp [cut, index] at hq
    · simp [cut, index] at hq
      exact pairText_ne_nil p hq.1
  have hc1 : (cut query [38]).1 = pairText p := by rcases hq with hq | hq <;> rw [hq]
  have hc2 : (cut query [38]).2.1 = rest := by rcases hq with hq | hq <;> rw [hq]
  have h59 : contains (pairText p) [59] = false :=
    (contains_single_false 59 _).2 (not_mem_pairText 59 p (by omega))
  have hk : QueryUnescape (QueryEscape p.1) = some p.1 :=
    unescape_escape p.1 _ (Or.inr rfl) hp1
  have hx : QueryUnescape (QueryEscape p.2) = some p.2 :=
    unescape_escape p.2 _ (Or.inr rfl) hp2
  rw [parseQueryLoop]
  simp only [hne, if_false, hc1, hc2, h59, Bool.false_eq_true, pairText_ne_nil p, cut_pairText,
    hk, hx]

theorem length_joinAmp_cons (a : Bytes) (b : Bytes) (l : List Bytes) :
    (joinAmp (a :: b :: l)).length = a.length + 1 + (joinAmp (b :: l)).length := by
  simp [joinAmp]
  omega

/-- `parseQuery` reads back the pairs that `Encode` wrote. -/
theorem parseQueryLoop_joinAmp (ps : List (Bytes × Bytes))
    (hps : ∀ p ∈ ps, IsBytes p.1 ∧ IsBytes p.2) (fuel : Nat) (m : Values)
    (hfuel : (joinAmp (ps.map pairText)).length ≤ fuel) :
    parseQueryLoop fuel m (joinAmp (ps.map pairText)) =
      ps.foldl (fun m p => Values.add m p.1 p.2) m := by
  induction ps generalizing fuel m with
  | nil => simp [joinAmp, parseQueryLoop_nil]
  | cons p t ih =>
    have hp := hps p (by simp)
    have ht : ∀ q ∈ t, IsBytes q.1 ∧ IsBytes q.2 := fun q hq => hps q (by simp [hq])
    cases t with
    | nil =>
      simp only [List.map_cons, List.map_nil, joinAmp] at hfuel ⊢
      obtain ⟨f, rfl⟩ : ∃ f, fuel = f + 1 := by
        have : (pairText p).length ≠ 0 := by simpa using pairText_ne_nil p
        exact ⟨fuel - 1, by omega⟩
      rw [parseQueryLoop_pair f m p [] hp.1 hp.2 _
        (Or.inr (cut_of_not_mem 38 _ (not_mem_pairText 38 p (by omega))))]
      simp [parseQueryLoop_nil]
    | cons q t' =>
      simp only [List.map_cons] at hfuel ⊢
      rw [length_joinAmp_cons] at hfuel
      obtain ⟨f, rfl⟩ : ∃ f, fuel = f + 1 := ⟨fuel - 1, by omega⟩
      have hcut : cut (joinAmp (pairText p :: pairText q :: t'.map pairText)) [38] =
          (pairText p, joinAmp (pairText q :: t'.map pairText), true) := by
        simp only [joinAmp]
        exact cut_append 38 _ _ (not_mem_pairText 38 p (by omega))
      rw [parseQueryLoop_pair f m p _ hp.1 hp.2 _ (Or.inl hcut)]
      have := ih ht f (Values.add m p.1 p.2) (by simp only [List.map_cons]; omega)
      simpa using this

/-! ### Adding the pairs of a map in key order rebuilds the map -/

theorem Values.add_new (m : Values) (k x : Bytes) (hk : k ∉ m.map Prod.fst) :
    Values.add m k x = m ++ [(k, [x])] := by
  induction m with
  | nil => rfl
  | cons e t ih =>
    obtain ⟨k', xs⟩ := e
    have h1 : ¬ k' = k := fun e => hk (by simp [e])
    have h2 : k ∉ t.map Prod.fst := fun e => hk (by simp at e ⊢; exact Or.inr e)
    simp [Values.add, h1, ih h2]

theorem Values.add_last (m : Values) (k x : Bytes) (ys : List Bytes) (hk : k ∉ m.map Prod.fst) :
    Values.add (m ++ [(k, ys)]) k x = m ++ [(k, ys ++ [x])] := by
  induction m with
  | nil => simp [Values.add]
  | cons e t ih =>
    obtain ⟨k', xs⟩ := e
    have h1 : ¬ k' = k := fun e => hk (by simp [e])
    have h2 : k ∉ t.map Prod.fst := fun e => hk (by simp at e ⊢; exact Or.inr e)
    simp [Values.add, h1, ih h2]

theorem foldl_add_values (m : Values) (k : Bytes) (ys xs : List Bytes)
    (hk : k ∉ m.map Prod.fst) :
    (xs.map fun x => (k, x)).foldl (fun m p => Values.add m p.1 p.2) (m ++ [(k, ys)]) =
      m ++ [(k, ys ++ xs)] := by
  induction xs generalizing ys with
  | nil => simp
  | cons x t ih =>
    rw [List.map_cons, List.foldl_cons, Values.add_last m k x ys hk, ih]
    simp

theorem foldl_add_key (m : Values) (k : Bytes) (xs : List Bytes) (hxs : xs ≠ [])
    (hk : k ∉ m.map Prod.fst) :
    (xs.map fun x => (k, x)).foldl (fun m p => Values.add m p.1 p.2) m = m ++ [(k, xs)] := by
  cases xs with
  | nil => exact absurd rfl hxs
  | cons x t =>
    rw [List.map_cons, List.foldl_cons, Values.add_new m k x hk, foldl_add_values m k [x] t hk]
    simp

theorem foldl_add_keys (keys : List Bytes) (f : Bytes → List Bytes) (m : Values)
    (hnd : keys.Nodup) (hf : ∀ k ∈ keys, f k ≠ [])
    (hdisj : ∀ k ∈ keys, k ∉ m.map Prod.fst) :
    (keys.flatMap fun k => (f k).map fun x => (k, x)).foldl
        (fun m p => Values.add m p.1 p.2) m =
      m ++ keys.map fun k => (k, f k) := by
  induction keys generalizing m with
  | nil => simp
  | cons k t ih =>
    rw [List.flatMap_cons, List.foldl_append,
      foldl_add_key m k (f k) (hf k (by simp)) (hdisj k (by simp))]
    rw [ih (m ++ [(k, f k)]) (List.nodup_cons.1 hnd).2 (fun k' hk' => hf k' (by simp [hk']))]
    · simp
    · intro k' hk'
      have h1 := hdisj k' (by simp [hk'])
      have h2 : k' ≠ k := fun e => (List.nodup_cons.1 hnd).1 (e ▸ hk')
      simp only [List.map_append, List.map_cons, List.map_nil, List.mem_append,
        List.mem_singleton, not_or]
      exact ⟨h1, h2⟩

theorem sortStrings_perm (keys : List Bytes) : (sortStrings keys).Perm keys :=
  List.perm_insertionSort _ keys

theorem mem_sortStrings (keys : List Bytes) (k : Bytes) : k ∈ sortStrings keys ↔ k ∈ keys :=
  (sortStrings_perm keys).mem_iff

theorem Values.lookup_ne_nil (v : Values) (hv : Values.WF v) (k : Bytes)
    (hk : k ∈ v.map Prod.fst) : (Values.lookup v k).getD [] ≠ [] := by
  cases h : Values.lookup v k with
  | none => exact absurd hk ((Values.lookup_eq_none v k).1 h)
  | some xs => exact (hv.2 _ (Values.lookup_mem v k xs h)).1

/-- `ParseQuery` of what `Encode` wrote is the map itself, in sorted key
order. -/
theorem ParseQuery_Encode (v : Values) (hv : Values.WF v) :
    ParseQuery (Values.Encode v) = Values.sorted v := by
  unfold ParseQuery
  rw [Values.Encode_eq_joinAmp]
  rw [parseQueryLoop_joinAmp (encodedPairs v) _ _ [] le_rfl]
  · unfold encodedPairs Values.sorted
    rw [foldl_add_keys (sortStrings (v.map Prod.fst)) (fun k => (Values.lookup v k).getD []) []
      ((sortStrings_perm _).nodup_iff.2 hv.1)
      (fun k hk => Values.lookup_ne_nil v hv k ((mem_sortStrings _ k).1 hk))
      (fun k _ => by simp)]
    simp
  · intro p hp
    simp only [encodedPairs, List.mem_flatMap, List.mem_map] at hp
    obtain ⟨k, hk, x, hx, rfl⟩ := hp
    cases h : Values.lookup v k with
    | none => simp [h] at hx
    | some xs =>
      simp only [h, Option.getD_some] at hx
      have := hv.2 _ (Values.lookup_mem v k xs h)
      exact ⟨this.2.1, this.2.2 x hx⟩

/-! ### Well-formedness of parsed queries, and the sorted form of a map -/

theorem Values.WF_nil : Values.WF [] := ⟨by simp, by simp⟩

theorem parseQueryLoop_WF (fuel : Nat) (m : Values) (query : Bytes) (hm : Values.WF m)
    (hq : IsBytes query) : Values.WF (parseQueryLoop fuel m query) := by
  induction fuel generalizing m query with
  | zero => simpa [parseQueryLoop] using hm
  | succ f ih =>
    rw [parseQueryLoop]
    have hrest : IsBytes (cut query [38]).2.1 := hq.cut_snd _
    have hkey : IsBytes (cut query [38]).1 := hq.cut_fst _
    simp only []
    split_ifs
    · exact hm
    · exact ih m _ hm hrest
    · exact ih m _ hm hrest
    · cases h1 : QueryUnescape (cut (cut query [38]).1 [61]).1 with
      | none => simpa [h1] using ih m _ hm hrest
      | some k =>
        cases h2 : QueryUnescape (cut (cut query [38]).1 [61]).2.1 with
        | none => simpa [h1, h2] using ih m _ hm hrest
        | some x =>
          simp only [h1, h2]
          exact ih _ _ (Values.WF_add m k x hm (IsBytes.unescape (hkey.cut_fst _) h1)
            (IsBytes.unescape (hkey.cut_snd _) h2)) hrest

theorem ParseQuery_WF (query : Bytes) (hq : IsBytes query) : Values.WF (ParseQuery query) :=
  parseQueryLoop_WF _ _ _ Values.WF_nil hq

theorem Values.lookup_map_keys (ks : List Bytes) (g : Bytes → List Bytes) (k : Bytes) :
    Values.lookup (ks.map fun k => (k, g k)) k = if k ∈ ks then some (g k) else none := by
  induction ks with
  | nil => simp [Values.lookup]
  | cons a t ih =>
    by_cases h : a = k
    · subst h
      simp [Values.lookup]
    · have h' : ¬ k = a := fun e => h e.symm
      simp [Values.lookup, h, h', ih]

/-- Sorting the entries of a map does not change what a key maps to. -/
theorem Values.lookup_sorted (v : Values) (k : Bytes) :
    Values.lookup (Values.sorted v) k = Values.lookup v k := by
  unfold Values.sorted
  rw [Values.lookup_map_keys]
  simp only [mem_sortStrings]
  split_ifs with h
  · cases h' : Values.lookup v k with
    | none => exact absurd h ((Values.lookup_eq_none v k).1 h')
    | some xs => rfl
  · exact ((Values.lookup_eq_none v k).2 h).symm

theorem Values.keys_sorted (v : Values) :
    (Values.sorted v).map Prod.fst = sortStrings (v.map Prod.fst) := by
  simp [Values.sorted, Function.comp_def]

theorem strLE_total (a b : Bytes) : strLE a b = true ∨ strLE b a = true := by
  induction a generalizing b with
  | nil => simp [strLE]
  | cons x s ih =>
    cases b with
    | nil => simp [strLE]
    | cons y t =>
      simp only [strLE, Bool.or_eq_true, decide_eq_true_eq, Bool.and_eq_true, beq_iff_eq]
      rcases Nat.lt_trichotomy x y with h | h | h
      · exact Or.inl (Or.inl h)
      · rcases ih t with h' | h'
        · exact Or.inl (Or.inr ⟨h, h'⟩)
        · exact Or.inr (Or.inr ⟨h.symm, h'⟩)
      · exact Or.inr (Or.inl h)

theorem strLE_trans (a b c : Bytes) (h1 : strLE a b = true) (h2 : strLE b c = true) :
    strLE a c = true := by
  induction a generalizing b c with
  | nil => simp [strLE]
  | cons x s ih =>
    cases b with
    | nil => simp [strLE] at h1
    | cons y t =>
      cases c with
      | nil => simp [strLE] at h2
      | cons z r =>
        simp only [strLE, Bool.or_eq_true, decide_eq_true_eq, Bool.and_eq_true, beq_iff_eq]
          at h1 h2 ⊢
        rcases h1 with h1 | ⟨h1, h1'⟩
        · rcases h2 with h2 | ⟨h2, _⟩
          · exact Or.inl (by omega)
          · exact Or.inl (by omega)
        · rcases h2 with h2 | ⟨h2, h2'⟩
          · exact Or.inl (by omega)
          · exact Or.inr ⟨by omega, ih t r h1' h2'⟩

instance strLE_isTotal : IsTotal Bytes (fun a b => strLE a b = true) := ⟨strLE_total⟩

instance strLE_isTrans : IsTrans Bytes (fun a b => strLE a b = true) := ⟨strLE_trans⟩

theorem sortStrings_idem (keys : List Bytes) : sortStrings (sortStrings keys) = sortStrings keys :=
  List.Sorted.insertionSort_eq (List.sorted_insertionSort _ keys)

theorem Values.sorted_eq_nil (v : Values) : Values.sorted v = [] ↔ v = [] := by
  constructor
  · intro h
    have := congrArg List.length (congrArg (List.map Prod.fst) h)
    rw [Values.keys_sorted, (sortStrings_perm _).length_eq] at this
    simpa using this
  · rintro rfl
    rfl

theorem encodedPairs_sorted (v : Values) : encodedPairs (Values.sorted v) = encodedPairs v := by
  unfold encodedPairs
  rw [Values.keys_sorted, sortStrings_idem]
  simp only [Values.lookup_sorted]

/-- `Encode` does not depend on the order of the entries of the map. -/
theorem Values.Encode_sorted (v : Values) : Values.Encode (Values.sorted v) = Values.Encode v := by
  rw [Values.Encode_eq_joinAmp, Values.Encode_eq_joinAmp, encodedPairs_sorted]

theorem Values.Del_of_not_mem (v : Values) (key : Bytes) (h : key ∉ v.map Prod.fst) :
    Values.Del v key = v := by
  unfold Values.Del
  rw [List.filter_eq_self]
  intro e he
  have : e.1 ≠ key := fun e' => h (List.mem_map.2 ⟨e, he, e'⟩)
  simpa using this

theorem Values.foldl_Del_of_not_mem (keys : List Bytes) (v : Values)
    (h : ∀ k ∈ keys, k ∉ v.map Prod.fst) : keys.foldl Values.Del v = v := by
  induction keys with
  | nil => rfl
  | cons a t ih =>
    rw [List.foldl_cons, Values.Del_of_not_mem v a (h a (by simp))]
    exact ih fun k hk => h k (by simp [hk])

theorem Values.not_mem_foldl_Del (keys : List Bytes) (v : Values) (k : Bytes) (hk : k ∈ keys) :
    k ∉ (keys.foldl Values.Del v).map Prod.fst := by
  rw [← Values.lookup_eq_none, Values.lookup_foldl_Del]
  simp [hk]

/-- Filtering, encoding, parsing and filtering again changes nothing: the
encoded filtered query is a fixed point of the query step of `ProcessURL`. -/
theorem Encode_filter_idempotent (v : Values) (hv : Values.WF v) :
    Values.Encode (trackingParams.foldl Values.Del
        (ParseQuery (Values.Encode (trackingParams.foldl Values.Del v)))) =
      Values.Encode (trackingParams.foldl Values.Del v) := by
  have hF := Values.WF_foldl_Del trackingParams v hv
  rw [ParseQuery_Encode _ hF]
  rw [Values.foldl_Del_of_not_mem]
  · exact Values.Encode_sorted _
  · intro k hk
    rw [Values.keys_sorted, mem_sortStrings]
    exact Values.not_mem_foldl_Del trackingParams v k hk

/-! ## `getScheme` -/

theorem drop_length_succ_append (pre : Bytes) (c : Nat) (t : Bytes) :
    (pre ++ c :: t).drop (pre.length + 1) = t := by
  induction pre with
  | nil => rfl
  | cons a p ih => simp

theorem take_length_append (pre s : Bytes) : (pre ++ s).take pre.length = pre := by
  induction pre with
  | nil => simp
  | cons a p ih => simp

theorem schemeShape_nil : SchemeShape [] := ⟨by simp, by simp⟩

theorem SchemeShape.snoc {pre : Bytes} (h : SchemeShape pre) (c : Nat)
    (hc : isSchemeByte c = true) (hl : pre = [] → isLetter c = true) :
    SchemeShape (pre ++ [c]) := by
  constructor
  · intro x hx
    rcases List.mem_append.1 hx with hx | hx
    · exact h.1 x hx
    · simp at hx
      exact hx ▸ hc
  · intro x hx
    cases pre with
    | nil =>
      simp at hx
      exact hx ▸ hl rfl
    | cons a t =>
      simp at hx
      exact h.2 x (by simp [hx])

theorem isLetter_isSchemeByte (c : Nat) (h : isLetter c = true) : isSchemeByte c = true := by
  simp [isLetter, isSchemeByte, isAlnum] at h ⊢
  omega

/-- What `getScheme` returns: no scheme and the whole text, or a non-empty
scheme of scheme bytes starting with a letter, and the text after its colon. -/
theorem getSchemeLoop_inv (pre s scheme rest : Bytes) (hpre : SchemeShape pre)
    (h : getSchemeLoop (pre ++ s) pre.length s = some (scheme, rest)) :
    (scheme = [] ∧ rest = pre ++ s) ∨
      (scheme ≠ [] ∧ SchemeShape scheme ∧ pre ++ s = scheme ++ 58 :: rest) := by
  induction s generalizing pre with
  | nil =>
    simp only [getSchemeLoop, Option.some.injEq, Prod.mk.injEq] at h
    obtain ⟨h1, h2⟩ := h
    exact Or.inl ⟨h1.symm, h2.symm⟩
  | cons c t ih =>
    have hraw : pre ++ c :: t = (pre ++ [c]) ++ t := by simp
    have hlen : pre.length + 1 = (pre ++ [c]).length := by simp
    rw [getSchemeLoop] at h
    split_ifs at h with h1 h2 h3 h4 h5
    · rw [hraw, hlen] at h
      have hc : isLetter c = true := by simp [isLetter]; omega
      have := ih (pre ++ [c]) (hpre.snoc c (isLetter_isSchemeByte c hc) fun _ => hc) h
      simpa using this
    · simp only [Option.some.injEq, Prod.mk.injEq] at h
      exact Or.inl ⟨h.1.symm, h.2.symm⟩
    · rw [hraw, hlen] at h
      have hc : isSchemeByte c = true := by simp [isSchemeByte, isAlnum]; omega
      have hne : pre ≠ [] := fun e => h3 (by simp [e])
      have := ih (pre ++ [c]) (hpre.snoc c hc fun e => absurd e hne) h
      simpa using this
    · subst h4
      rw [take_length_append, drop_length_succ_append] at h
      simp only [Option.some.injEq, Prod.mk.injEq] at h
      have hne : pre ≠ [] := fun e => h5 (by simp [e])
      obtain ⟨e1, e2⟩ := h
      subst e1 e2
      exact Or.inr ⟨hne, hpre, rfl⟩
    · simp only [Option.some.injEq, Prod.mk.injEq] at h
      exact Or.inl ⟨h.1.symm, h.2.symm⟩

theorem getScheme_inv (raw scheme rest : Bytes) (h : getScheme raw = some (scheme, rest)) :
    (scheme = [] ∧ rest = raw) ∨
      (scheme ≠ [] ∧ SchemeShape scheme ∧ raw = scheme ++ 58 :: rest) := by
  have := getSchemeLoop_inv [] raw scheme rest schemeShape_nil (by simpa using h)
  simpa using this

theorem getSchemeLoop_scheme (pre mid t : Bytes) (hshape : SchemeShape (pre ++ mid))
    (hne : pre ++ mid ≠ []) :
    getSchemeLoop (pre ++ mid ++ 58 :: t) pre.length (mid ++ 58 :: t) = some (pre ++ mid, t) := by
  induction mid generalizing pre with
  | nil =>
    have hp : pre ≠ [] := by simpa using hne
    have hl : pre.length ≠ 0 := by simpa using hp
    simp [getSchemeLoop, hl]
  | cons c m ih =>
    have hc : isSchemeByte c = true := hshape.1 c (by simp)
    have e1 : pre ++ c :: m ++ 58 :: t = (pre ++ [c]) ++ m ++ 58 :: t := by simp
    have e2 : pre.length + 1 = (pre ++ [c]).length := by simp
    have e3 : pre ++ c :: m = (pre ++ [c]) ++ m := by simp
    have hrec := ih (pre ++ [c]) (by rw [← e3]; exact hshape) (by simp)
    rw [List.cons_append, getSchemeLoop]
    split_ifs with h1 h2 h3 h4 h5
    · rw [e1, e2, hrec, e3]
    · exfalso
      have hp : pre = [] := List.length_eq_zero.1 h3
      subst hp
      have := hshape.2 c (by simp)
      simp [isLetter] at this
      omega
    · rw [e1, e2, hrec, e3]
    · exfalso
      simp [isSchemeByte, isAlnum] at hc
      omega
    · exfalso
      simp [isSchemeByte, isAlnum] at hc
      omega
    · exfalso
      simp [isSchemeByte, isAlnum] at hc
      omega

/-- `getScheme` reads back a scheme written in front of a colon. -/
theorem getScheme_scheme (scheme t : Bytes) (hshape : SchemeShape scheme) (hne : scheme ≠ []) :
    getScheme (scheme ++ 58 :: t) = some (scheme, t) := by
  have := getSchemeLoop_scheme [] scheme t (by simpa using hshape) (by simpa using hne)
  simpa [getScheme] using this

theorem getSchemeLoop_none (raw : Bytes) (i : Nat) (s : Bytes) (h : NoSchemeTail s) :
    getSchemeLoop raw i s = some ([], raw) := by
  induction s generalizing i with
  | nil => simp [getSchemeLoop]
  | cons c t ih =>
    have htail : isSchemeByte c = true → NoSchemeTail t := by
      intro hc a b hab
      obtain ⟨x, hx, hx'⟩ := h (c :: a) b (by simp [hab])
      rcases List.mem_cons.1 hx with rfl | hx
      · rw [hc] at hx'
        cases hx'
      · exact ⟨x, hx, hx'⟩
    rw [getSchemeLoop]
    split_ifs with h1 h2 h3 h4 h5
    · exact ih _ (htail (by simp [isSchemeByte, isAlnum]; omega))
    · rfl
    · exact ih _ (htail (by simp [isSchemeByte, isAlnum]; omega))
    · exfalso
      subst h4
      obtain ⟨x, hx, _⟩ := h [] t rfl
      cases hx
    · exfalso
      subst h4
      obtain ⟨x, hx, _⟩ := h [] t rfl
      cases hx
    · rfl

/-- `getScheme` finds no scheme when a byte that no scheme holds comes before
every colon. -/
theorem getScheme_none (s : Bytes) (h : NoSchemeTail s) : getScheme s = some ([], s) :=
  getSchemeLoop_none s 0 s h

theorem noSchemeTail_append (seg tail : Bytes) (hseg : 58 ∉ seg)
    (htail : tail = [] ∨ ∃ x t, tail = x :: t ∧ isSchemeByte x = false ∧ x ≠ 58) :
    NoSchemeTail (seg ++ tail) := by
  intro a b hab
  rcases List.append_eq_append_iff.1 hab with ⟨a', rfl, ht⟩ | ⟨c', hs, ht⟩
  · rcases htail with rfl | ⟨x, t, rfl, hx, hx58⟩
    · simp at ht
    · cases a' with
      | nil =>
        simp at ht
        exact absurd ht.1 hx58
      | cons y a'' =>
        simp at ht
        exact ⟨x, by simp [ht.1], hx⟩
  · exfalso
    cases c' with
    | nil =>
      simp at ht
      rcases htail with rfl | ⟨x, t, rfl, hx, hx58⟩
      · cases ht
      · simp at ht
        exact hx58 ht.1.symm
    | cons y c'' =>
      simp at ht
      exact hseg (by rw [hs]; simp [ht.1])

/-! ## `Parse`: what it guarantees -/

theorem toLower_idem (s : Bytes) : toLower (toLower s) = toLower s := by
  simp only [toLower, List.map_map]
  apply List.map_congr_left
  intro c _
  simp only [Function.comp, lowerByte]
  split_ifs <;> omega

theorem SchemeShape.toLower {s : Bytes} (h : SchemeShape s) : SchemeShape (toLower s) := by
  constructor
  · intro c hc
    simp only [Byfood.toLower, List.mem_map] at hc
    obtain ⟨x, hx, rfl⟩ := hc
    have := h.1 x hx
    simp only [isSchemeByte, isAlnum, lowerByte] at this ⊢
    split_ifs <;> simp at this ⊢ <;> omega
  · intro c hc
    cases s with
    | nil => simp [Byfood.toLower] at hc
    | cons x t =>
      simp only [Byfood.toLower, List.map_cons, List.head?_cons, Option.some.injEq] at hc
      subst hc
      have := h.2 x rfl
      simp only [isLetter, lowerByte] at this ⊢
      split_ifs <;> simp at this ⊢ <;> omega

theorem toLower_eq_nil (s : Bytes) : toLower s = [] ↔ s = [] := by
  simp [toLower]

theorem parseHost_nil : parseHost [] = some [] := by decide

theorem unescape_head_slash (t p : Bytes) (h : unescape (47 :: t) encodePath = some p) :
    p.head? = some 47 := by
  rw [unescape_cons_ne 47 t _ (by norm_num)] at h
  simp at h
  obtain ⟨r, _, rfl⟩ := h
  rfl

theorem parseAuthority_host (auth : Bytes) (user : Option Userinfo) (host : Bytes)
    (h : parseAuthority auth = some (user, host)) :
    ∃ raw, (∀ b ∈ raw, b ∈ auth) ∧ parseHost raw = some host := by
  unfold parseAuthority at h
  cases hi : lastIndex auth [64] with
  | none =>
    simp only [hi] at h
    cases hh : parseHost auth with
    | none => simp [hh] at h
    | some hst =>
      simp only [hh, Option.some.injEq, Prod.mk.injEq] at h
      exact ⟨auth, fun _ hb => hb, h.2 ▸ hh⟩
  | some i =>
    simp only [hi] at h
    cases hh : parseHost (auth.drop (i + 1)) with
    | none => simp [hh] at h
    | some hst =>
      simp only [hh] at h
      refine ⟨auth.drop (i + 1), fun _ hb => List.mem_of_mem_drop hb, ?_⟩
      split_ifs at h
      · simp only [Option.map_eq_some'] at h
        obtain ⟨_, _, h⟩ := h
        simp only [Prod.mk.injEq] at h
        exact h.2 ▸ hh
      · simp only [Option.bind_eq_some, Option.map_eq_some'] at h
        obtain ⟨_, _, _, _, h⟩ := h
        simp only [Prod.mk.injEq] at h
        exact h.2 ▸ hh

theorem setPath_fields (u p : URL) (rest : Bytes) (h : URL.setPath u rest = some p) :
    p.Scheme = u.Scheme ∧ p.Host = u.Host ∧ p.RawQuery = u.RawQuery ∧
      unescape rest encodePath = some p.Path := by
  unfold URL.setPath at h
  simp only [Option.map_eq_some'] at h
  obtain ⟨path, hpath, rfl⟩ := h
  exact ⟨rfl, rfl, rfl, hpath⟩

theorem head_of_hasPrefix_slash (rest : Bytes) (h : hasPrefix rest [47] = true) :
    ∃ t, rest = 47 :: t := by
  have := (hasPrefix_single 47 rest).1 h
  cases rest with
  | nil => simp at this
  | cons a t =>
    simp at this
    exact ⟨t, by rw [this]⟩

theorem isBytes_nil : IsBytes [] := fun _ h => by cases h

theorem parseAfterQuery_ok (url p : URL) (rest : Bytes) (hrest : IsBytes rest)
    (hhost : url.Host = []) (hpath : url.Path = [])
    (h : parseAfterQuery url rest false = some p) :
    p.Scheme = url.Scheme ∧ p.RawQuery = url.RawQuery ∧
      (∃ raw, IsBytes raw ∧ parseHost raw = some p.Host) ∧ IsBytes p.Path ∧
      (p.Scheme ≠ [] ∨ p.Host ≠ [] → p.Path = [] ∨ p.Path.head? = some 47) := by
  unfold parseAfterQuery at h
  split_ifs at h with h1 h2 h3 h4 h5
  · -- opaque
    simp only [Option.some.injEq] at h
    subst h
    exact ⟨rfl, rfl, ⟨[], isBytes_nil, by rw [hhost]; exact parseHost_nil⟩,
      by simp only [hpath]; exact isBytes_nil, fun _ => Or.inl hpath⟩
  · -- authority
    cases hi : index (List.drop 2 rest) [47] with
    | none =>
      simp only [hi] at h
      cases hauth : parseAuthority (List.drop 2 rest) with
      | none => simp [hauth] at h
      | some uh =>
        obtain ⟨user, host⟩ := uh
        simp only [hauth] at h
        obtain ⟨e1, e2, e3, e4⟩ := setPath_fields _ _ _ h
        obtain ⟨raw, hraw, hparse⟩ := parseAuthority_host _ _ _ hauth
        refine ⟨e1, e3, ⟨raw, ?_, e2 ▸ hparse⟩, ?_, fun _ => ?_⟩
        · exact fun b hb => hrest b (List.mem_of_mem_drop (hraw b hb))
        · exact IsBytes.unescape isBytes_nil e4
        · simp only [unescape, Option.some.injEq] at e4
          exact Or.inl e4.symm
    | some i =>
      simp only [hi] at h
      cases hauth : parseAuthority (List.take i (List.drop 2 rest)) with
      | none => simp [hauth] at h
      | some uh =>
        obtain ⟨user, host⟩ := uh
        simp only [hauth] at h
        obtain ⟨e1, e2, e3, e4⟩ := setPath_fields _ _ _ h
        obtain ⟨raw, hraw, hparse⟩ := parseAuthority_host _ _ _ hauth
        refine ⟨e1, e3, ⟨raw, ?_, e2 ▸ hparse⟩, ?_, fun _ => ?_⟩
        · exact fun b hb =>
            hrest b (List.mem_of_mem_drop (List.mem_of_mem_take (hraw b hb)))
        · exact IsBytes.unescape ((hrest.drop 2).drop i) e4
        · obtain ⟨a, b, hab, _, hlen⟩ := index_single_some 47 _ i hi
          have : List.drop i (List.drop 2 rest) = 47 :: b := by
            rw [hab, ← hlen]
            simp
          rw [this] at e4
          exact Or.inr (unescape_head_slash _ _ e4)
  · -- empty authority omitted
    obtain ⟨e1, e2, e3, e4⟩ := setPath_fields _ _ _ h
    obtain ⟨t, ht⟩ := head_of_hasPrefix_slash rest h5.2
    refine ⟨e1, e3, ⟨[], isBytes_nil, by rw [e2, hhost]; exact parseHost_nil⟩,
      IsBytes.unescape hrest e4, fun _ => ?_⟩
    rw [ht] at e4
    exact Or.inr (unescape_head_slash _ _ e4)
  · -- a path only
    obtain ⟨e1, e2, e3, e4⟩ := setPath_fields _ _ _ h
    refine ⟨e1, e3, ⟨[], isBytes_nil, by rw [e2, hhost]; exact parseHost_nil⟩,
      IsBytes.unescape hrest e4, fun hor => ?_⟩
    exfalso
    rcases hor with hs | hh
    · rw [e1] at hs
      by_cases hp : hasPrefix rest [47] = true
      · exact h5 ⟨hs, hp⟩
      · exact h1 ⟨by simpa using hp, hs⟩
    · exact hh (by rw [e2, hhost])

theorem getScheme_rest_isBytes (raw scheme rest : Bytes) (hraw : IsBytes raw)
    (h : getScheme raw = some (scheme, rest)) : IsBytes rest := by
  rcases getScheme_inv raw scheme rest h with ⟨_, rfl⟩ | ⟨_, _, rfl⟩
  · exact hraw
  · exact fun b hb => hraw b (by simp [hb])

theorem parse_ok (raw : Bytes) (p : URL) (hraw : IsBytes raw) (h : parse raw false = some p) :
    ParsedOK p := by
  unfold parse at h
  split_ifs at h with h1 h2 h3
  · simp only [Option.some.injEq] at h
    subst h
    exact ⟨schemeShape_nil, rfl, isBytes_nil, ⟨[], isBytes_nil, parseHost_nil⟩,
      by intro b hb; simp at hb; omega, by simp⟩
  · cases hg : getScheme raw with
    | none => simp [hg] at h
    | some sr =>
      obtain ⟨scheme, rest0⟩ := sr
      simp only [hg] at h
      have hrest0 := getScheme_rest_isBytes raw scheme rest0 hraw hg
      have hshape : SchemeShape scheme := by
        rcases getScheme_inv raw scheme rest0 hg with ⟨rfl, _⟩ | ⟨_, hs, _⟩
        · exact schemeShape_nil
        · exact hs
      have hrest : IsBytes (if (hasSuffix rest0 [63] && rest0.count 63 == 1) = true
          then rest0.take (rest0.length - 1) else (cut rest0 [63]).1) := by
        split_ifs
        · exact hrest0.take _
        · exact hrest0.cut_fst _
      obtain ⟨e1, e2, e3, e4, e5⟩ := parseAfterQuery_ok _ p _ hrest rfl rfl h
      refine ⟨e1 ▸ hshape.toLower, by rw [e1]; exact toLower_idem scheme, ?_, e3, e4, e5⟩
      rw [e2]
      simp only []
      split_ifs
      · exact isBytes_nil
      · exact hrest0.cut_snd _

theorem setFragment_fields (u p : URL) (f : Bytes) (h : URL.setFragment u f = some p) :
    p.Scheme = u.Scheme ∧ p.Host = u.Host ∧ p.RawQuery = u.RawQuery ∧ p.Path = u.Path := by
  unfold URL.setFragment at h
  simp only [Option.map_eq_some'] at h
  obtain ⟨frag, _, rfl⟩ := h
  exact ⟨rfl, rfl, rfl, rfl⟩

/-- The fields of a parsed URL that `ProcessURL` reads are well-formed. -/
theorem Parse_ok (raw : Bytes) (p : URL) (hraw : IsBytes raw) (h : Parse raw = some p) :
    ParsedOK p := by
  unfold Parse at h
  cases hp : parse (cut raw [35]).1 false with
  | none => simp [hp] at h
  | some url =>
    simp only [hp] at h
    have hok := parse_ok _ url (hraw.cut_fst _) hp
    split_ifs at h
    · simp only [Option.some.injEq] at h
      exact h ▸ hok
    · obtain ⟨e1, e2, e3, e4⟩ := setFragment_fields _ _ _ h
      exact ⟨e1 ▸ hok.scheme, by rw [e1]; exact hok.lower, e3 ▸ hok.rawQuery,
        e2 ▸ hok.host, e4 ▸ hok.path, by rw [e1, e2, e4]; exact hok.rooted⟩

/-! ## JSON strings -/

theorem jsonStringLoop_nil (fuel : Nat) : jsonStringLoop fuel [] = [] := by
  cases fuel <;> rfl

theorem jsonStringLoop_ascii (s : Bytes) (fuel : Nat) (hf : s.length ≤ fuel)
    (h : ∀ b ∈ s, b < 128) : jsonStringLoop fuel s = s := by
  induction s generalizing fuel with
  | nil => exact jsonStringLoop_nil fuel
  | cons b t ih =>
    cases fuel with
    | zero => simp at hf
    | succ f =>
      have hb : b < 128 := h b (by simp)
      simp only [jsonStringLoop, hb, if_true]
      rw [ih f (by simpa using hf) (fun x hx => h x (by simp [hx]))]

/-- An ASCII string is written to a JSON document as itself. -/
theorem jsonString_ascii (s : Bytes) (h : ∀ b ∈ s, b < 128) : jsonString s = s :=
  jsonStringLoop_ascii s _ (le_refl _) h

theorem first_two (b : Nat) (h : 0xC2 ≤ b ∧ b ≤ 0xDF) : first b = 0x02 := by
  unfold first
  rw [if_neg (by omega), if_neg (by omega), if_pos (by omega)]

theorem first_three (b : Nat) (h : (0xE1 ≤ b ∧ b ≤ 0xEC) ∨ b = 0xEE ∨ b = 0xEF) :
    first b = 0x03 := by
  unfold first
  rcases h with h | h
  · rw [if_neg (by omega), if_neg (by omega), if_neg (by omega), if_neg (by omega),
      if_pos (by omega)]
  · rw [if_neg (by omega), if_neg (by omega), if_neg (by omega), if_neg (by omega),
      if_neg (by omega), if_neg (by omega), if_pos (by omega)]

theorem first_four (b : Nat) (h : 0xF1 ≤ b ∧ b ≤ 0xF3) : first b = 0x04 := by
  unfold first
  rw [if_neg (by omega), if_neg (by omega), if_neg (by omega), if_neg (by omega),
    if_neg (by omega), if_neg (by omega), if_neg (by omega), if_neg (by omega),
    if_pos (by omega)]

theorem DecodeRuneInString_two (b0 b1 : Nat) (t : Bytes) (h0 : 0xC2 ≤ b0 ∧ b0 ≤ 0xDF)
    (h1 : isCont b1 = true) :
    DecodeRuneInString (b0 :: b1 :: t) = (b0 % 32 * 64 + b1 % 64, 2) := by
  have hf := first_two b0 h0
  simp only [isCont, Bool.and_eq_true, decide_eq_true_eq] at h1
  simp only [DecodeRuneInString, hf, acceptRanges]
  simp only [List.length_cons, ge_iff_le, Nat.reduceLeDiff, if_false, Nat.reduceMod,
    Nat.reduceDiv, le_refl, if_true]
  rw [if_neg (by omega), if_neg (by omega)]

theorem DecodeRuneInString_three (b0 b1 b2 : Nat) (t : Bytes)
    (h : (b0 = 0xE0 ∧ 0xA0 ≤ b1 ∧ b1 ≤ 0xBF) ∨
      (((0xE1 ≤ b0 ∧ b0 ≤ 0xEC) ∨ b0 = 0xEE ∨ b0 = 0xEF) ∧ 0x80 ≤ b1 ∧ b1 ≤ 0xBF) ∨
      (b0 = 0xED ∧ 0x80 ≤ b1 ∧ b1 ≤ 0x9F))
    (h2 : isCont b2 = true) :
    DecodeRuneInString (b0 :: b1 :: b2 :: t) =
      (b0 % 16 * 4096 + b1 % 64 * 64 + b2 % 64, 3) := by
  simp only [isCont, Bool.and_eq_true, decide_eq_true_eq] at h2
  rcases h with ⟨h0, h1⟩ | ⟨h0, h1⟩ | ⟨h0, h1⟩
  · have hf : first b0 = 0x13 := by rw [h0]; rfl
    simp only [DecodeRuneInString, hf, acceptRanges]
    simp only [List.length_cons, ge_iff_le, Nat.reduceLeDiff, if_false, Nat.reduceMod,
      Nat.reduceDiv, le_refl, if_true]
    rw [if_neg (by omega), if_neg (by omega), if_neg (by omega)]
  · have hf := first_three b0 h0
    simp only [DecodeRuneInString, hf, acceptRanges]
    simp only [List.length_cons, ge_iff_le, Nat.reduceLeDiff, if_false, Nat.reduceMod,
      Nat.reduceDiv, le_refl, if_true]
    rw [if_neg (by omega), if_neg (by omega), if_neg (by omega)]
  · have hf : first b0 = 0x23 := by rw [h0]; rfl
    simp only [DecodeRuneInString, hf, acceptRanges]
    simp only [List.length_cons, ge_iff_le, Nat.reduceLeDiff, if_false, Nat.reduceMod,
      Nat.reduceDiv, le_refl, if_true]
    rw [if_neg (by omega), if_neg (by omega), if_neg (by omega)]

theorem DecodeRuneInString_four (b0 b1 b2 b3 : Nat) (t : Bytes)
    (h : (b0 = 0xF0 ∧ 0x90 ≤ b1 ∧ b1 ≤ 0xBF) ∨
      ((0xF1 ≤ b0 ∧ b0 ≤ 0xF3) ∧ 0x80 ≤ b1 ∧ b1 ≤ 0xBF) ∨
      (b0 = 0xF4 ∧ 0x80 ≤ b1 ∧ b1 ≤ 0x8F))
    (h2 : isCont b2 = true) (h3 : isCont b3 = true) :
    DecodeRuneInString (b0 :: b1 :: b2 :: b3 :: t) =
      (b0 % 8 * 262144 + b1 % 64 * 4096 + b2 % 64 * 64 + b3 % 64, 4) := by
  simp only [isCont, Bool.and_eq_true, decide_eq_true_eq] at h2 h3
  rcases h with ⟨h0, h1⟩ | ⟨h0, h1⟩ | ⟨h0, h1⟩
  · have hf : first b0 = 0x34 := by rw [h0]; rfl
    simp only [DecodeRuneInString, hf, acceptRanges]
    simp only [List.length_cons, ge_iff_le, Nat.reduceLeDiff, if_false, Nat.reduceMod,
      Nat.reduceDiv, le_refl, if_true]
    rw [if_neg (by omega), if_neg (by omega), if_neg (by omega), if_neg (by omega)]
  · have hf := first_four b0 h0
    simp only [DecodeRuneInString, hf, acceptRanges]
    simp only [List.length_cons, ge_iff_le, Nat.reduceLeDiff, if_false, Nat.reduceMod,
      Nat.reduceDiv, le_refl, if_true]
    rw [if_neg (by omega), if_neg (by omega), if_neg (by omega), if_neg (by omega)]
  · have hf : first b0 = 0x44 := by rw [h0]; rfl
    simp only [DecodeRuneInString, hf, acceptRanges]
    simp only [List.length_cons, ge_iff_le, Nat.reduceLeDiff, if_false, Nat.reduceMod,
      Nat.reduceDiv, le_refl, if_true]
    rw [if_neg (by omega), if_neg (by omega), if_neg (by omega), if_neg (by omega)]

/-- One round of the loop at a multi-byte sequence that decodes. -/
theorem jsonStringLoop_step (fuel : Nat) (b : Nat) (rest : Bytes) (c size : Nat)
    (hb : ¬ b < 128) (hd : DecodeRuneInString ((b :: rest).take 4) = (c, size))
    (hs : size ≠ 1) :
    jsonStringLoop (fuel + 1) (b :: rest) =
      (b :: rest).take size ++ jsonStringLoop fuel ((b :: rest).drop size) := by
  rw [jsonStringLoop]
  simp only [hb, if_false, hd]
  rw [if_neg (fun h => hs h.2)]

theorem validUTF8_cons_ascii (b0 : Nat) (t : Bytes) (hb : b0 < 128) :
    validUTF8 (b0 :: t) = validUTF8 t := by
  rw [validUTF8.eq_def]
  simp only [hb, if_true]

/-- The shape of a well-formed text that starts with a byte outside ASCII. -/
theorem validUTF8_inv (b0 : Nat) (t : Bytes) (hb : ¬ b0 < 128)
    (hv : validUTF8 (b0 :: t) = true) :
    (∃ b1 t1, t = b1 :: t1 ∧ (0xC2 ≤ b0 ∧ b0 ≤ 0xDF) ∧ isCont b1 = true ∧
      validUTF8 t1 = true) ∨
    (∃ b1 b2 t2, t = b1 :: b2 :: t2 ∧
      ((b0 = 0xE0 ∧ 0xA0 ≤ b1 ∧ b1 ≤ 0xBF) ∨
        (((0xE1 ≤ b0 ∧ b0 ≤ 0xEC) ∨ b0 = 0xEE ∨ b0 = 0xEF) ∧ 0x80 ≤ b1 ∧ b1 ≤ 0xBF) ∨
        (b0 = 0xED ∧ 0x80 ≤ b1 ∧ b1 ≤ 0x9F)) ∧
      isCont b2 = true ∧ validUTF8 t2 = true) ∨
    (∃ b1 b2 b3 t3, t = b1 :: b2 :: b3 :: t3 ∧
      ((b0 = 0xF0 ∧ 0x90 ≤ b1 ∧ b1 ≤ 0xBF) ∨
        ((0xF1 ≤ b0 ∧ b0 ≤ 0xF3) ∧ 0x80 ≤ b1 ∧ b1 ≤ 0xBF) ∨
        (b0 = 0xF4 ∧ 0x80 ≤ b1 ∧ b1 ≤ 0x8F)) ∧
      isCont b2 = true ∧ isCont b3 = true ∧ validUTF8 t3 = true) := by
  rw [validUTF8.eq_def] at hv
  simp only [hb, if_false] at hv
  cases t with
  | nil => simp at hv
  | cons b1 t1 =>
    simp only [] at hv
    by_cases h2 : 0xC2 ≤ b0 ∧ b0 ≤ 0xDF
    · simp only [h2, and_self, if_true, Bool.and_eq_true] at hv
      exact Or.inl ⟨b1, t1, rfl, h2, hv.1, hv.2⟩
    · simp only [h2, if_false] at hv
      right
      cases t1 with
      | nil => simp at hv
      | cons b2 t2 =>
        simp only [] at hv
        by_cases hE0 : b0 = 0xE0
        · simp only [hE0, if_true, Bool.and_eq_true, decide_eq_true_eq] at hv
          exact Or.inl ⟨b1, b2, t2, rfl, Or.inl ⟨hE0, hv.1.1.1, hv.1.1.2⟩, hv.1.2, hv.2⟩
        · simp only [hE0, if_false] at hv
          by_cases hE1 : (0xE1 ≤ b0 ∧ b0 ≤ 0xEC) ∨ b0 = 0xEE ∨ b0 = 0xEF
          · simp only [hE1, if_true, Bool.and_eq_true] at hv
            have h1 := hv.1.1
            simp only [isCont, Bool.and_eq_true, decide_eq_true_eq] at h1
            exact Or.inl ⟨b1, b2, t2, rfl, Or.inr (Or.inl ⟨hE1, h1.1, h1.2⟩), hv.1.2, hv.2⟩
          · simp only [hE1, if_false] at hv
            by_cases hED : b0 = 0xED
            · simp only [hED, if_true, Bool.and_eq_true, decide_eq_true_eq] at hv
              exact Or.inl ⟨b1, b2, t2, rfl, Or.inr (Or.inr ⟨hED, hv.1.1.1, hv.1.1.2⟩),
                hv.1.2, hv.2⟩
            · simp only [hED, if_false] at hv
              right
              cases t2 with
              | nil => simp at hv
              | cons b3 t3 =>
                simp only [] at hv
                by_cases hF0 : b0 = 0xF0
                · simp only [hF0, if_true, Bool.and_eq_true, decide_eq_true_eq] at hv
                  exact ⟨b1, b2, b3, t3, rfl, Or.inl ⟨hF0, hv.1.1.1.1, hv.1.1.1.2⟩,
                    hv.1.1.2, hv.1.2, hv.2⟩
                · simp only [hF0, if_false] at hv
                  by_cases hF1 : 0xF1 ≤ b0 ∧ b0 ≤ 0xF3
                  · simp only [hF1, and_self, if_true, Bool.and_eq_true] at hv
                    have h1 := hv.1.1.1
                    simp only [isCont, Bool.and_eq_true, decide_eq_true_eq] at h1
                    exact ⟨b1, b2, b3, t3, rfl, Or.inr (Or.inl ⟨hF1, h1.1, h1.2⟩),
                      hv.1.1.2, hv.1.2, hv.2⟩
                  · simp only [hF1, if_false] at hv
                    by_cases hF4 : b0 = 0xF4
                    · simp only [hF4, if_true, Bool.and_eq_true, decide_eq_true_eq] at hv
                      exact ⟨b1, b2, b3, t3, rfl, Or.inr (Or.inr ⟨hF4, hv.1.1.1.1, hv.1.1.1.2⟩),
                        hv.1.1.2, hv.1.2, hv.2⟩
                    · simp [hF4] at hv

theorem jsonStringLoop_valid (n : Nat) : ∀ (s : Bytes) (fuel : Nat), s.length ≤ n →
    s.length ≤ fuel → validUTF8 s = true → jsonStringLoop fuel s = s := by
  induction n with
  | zero =>
    intro s fuel hn _ _
    have : s = [] := List.length_eq_zero.1 (Nat.le_zero.1 hn)
    subst this
    exact jsonStringLoop_nil fuel
  | succ n ih =>
    intro s fuel hn hf hv
    cases s with
    | nil => exact jsonStringLoop_nil fuel
    | cons b0 t =>
      cases fuel with
      | zero => simp at hf
      | succ f =>
        simp only [List.length_cons, Nat.add_le_add_iff_right] at hn hf
        by_cases hb : b0 < 128
        · rw [validUTF8_cons_ascii b0 t hb] at hv
          simp only [jsonStringLoop, hb, if_true]
          rw [ih t f hn hf hv]
        · rcases validUTF8_inv b0 t hb hv with ⟨b1, t1, rfl, h0, h1, ht⟩ |
            ⟨b1, b2, t2, rfl, h0, h2, ht⟩ | ⟨b1, b2, b3, t3, rfl, h0, h2, h3, ht⟩
          · simp only [List.length_cons] at hn hf
            rw [jsonStringLoop_step f b0 (b1 :: t1) _ 2 hb
              (DecodeRuneInString_two b0 b1 (t1.take 2) h0 h1) (by decide)]
            simp only [List.take_succ_cons, List.take_zero, List.drop_succ_cons, List.drop_zero,
              List.cons_append, List.nil_append]
            rw [ih t1 f (by omega) (by omega) ht]
          · simp only [List.length_cons] at hn hf
            rw [jsonStringLoop_step f b0 (b1 :: b2 :: t2) _ 3 hb
              (DecodeRuneInString_three b0 b1 b2 (t2.take 1) h0 h2) (by decide)]
            simp only [List.take_succ_cons, List.take_zero, List.drop_succ_cons, List.drop_zero,
              List.cons_append, List.nil_append]
            rw [ih t2 f (by omega) (by omega) ht]
          · simp only [List.length_cons] at hn hf
            rw [jsonStringLoop_step f b0 (b1 :: b2 :: b3 :: t3) _ 4 hb
              (DecodeRuneInString_four b0 b1 b2 b3 [] h0 h2 h3) (by decide)]
            simp only [List.take_succ_cons, List.take_zero, List.drop_succ_cons, List.drop_zero,
              List.cons_append, List.nil_append]
            rw [ih t3 f (by omega) (by omega) ht]

/-- A string of valid UTF-8 is written to a JSON document as itself. -/
theorem jsonString_valid (s : Bytes) (h : validUTF8 s = true) : jsonString s = s :=
  jsonStringLoop_valid s.length s _ (le_refl _) (le_refl _) h

theorem first_invalid (b : Nat) (h : (0x80 ≤ b ∧ b < 0xC2) ∨ 0xF4 < b) : first b = 0xF1 := by
  unfold first
  rcases h with h | h
  · rw [if_neg (by omega), if_pos (by omega)]
  · rw [if_neg (by omega), if_neg (by omega), if_neg (by omega), if_neg (by omega),
      if_neg (by omega), if_neg (by omega), if_neg (by omega), if_neg (by omega),
      if_neg (by omega), if_neg (by omega)]

/-- A first byte outside ASCII that starts no well-formed sequence with the
bytes after it is decoded as `(RuneError, 1)`. -/
theorem DecodeRuneInString_invalid (b0 : Nat) (l : Bytes) (hb : ¬ b0 < 128)
    (h2 : ∀ b1 t, l = b1 :: t → ¬ ((0xC2 ≤ b0 ∧ b0 ≤ 0xDF) ∧ isCont b1 = true))
    (h3 : ∀ b1 b2 t, l = b1 :: b2 :: t →
      ¬ (((b0 = 0xE0 ∧ 0xA0 ≤ b1 ∧ b1 ≤ 0xBF) ∨
        (((0xE1 ≤ b0 ∧ b0 ≤ 0xEC) ∨ b0 = 0xEE ∨ b0 = 0xEF) ∧ 0x80 ≤ b1 ∧ b1 ≤ 0xBF) ∨
        (b0 = 0xED ∧ 0x80 ≤ b1 ∧ b1 ≤ 0x9F)) ∧ isCont b2 = true))
    (h4 : ∀ b1 b2 b3 t, l = b1 :: b2 :: b3 :: t →
      ¬ (((b0 = 0xF0 ∧ 0x90 ≤ b1 ∧ b1 ≤ 0xBF) ∨
        ((0xF1 ≤ b0 ∧ b0 ≤ 0xF3) ∧ 0x80 ≤ b1 ∧ b1 ≤ 0xBF) ∨
        (b0 = 0xF4 ∧ 0x80 ≤ b1 ∧ b1 ≤ 0x8F)) ∧ isCont b2 = true ∧ isCont b3 = true)) :
    DecodeRuneInString (b0 :: l) = (RuneError, 1) := by
  simp only [isCont, Bool.and_eq_true, decide_eq_true_eq] at h2 h3 h4
  by_cases hx : (0x80 ≤ b0 ∧ b0 < 0xC2) ∨ 0xF4 < b0
  · have hf := first_invalid b0 hx
    simp only [DecodeRuneInString, hf]
    rfl
  by_cases c2 : 0xC2 ≤ b0 ∧ b0 ≤ 0xDF
  · have hf := first_two b0 c2
    simp only [DecodeRuneInString, hf, acceptRanges]
    simp only [List.length_cons, ge_iff_le, Nat.reduceLeDiff, if_false, Nat.reduceMod,
      Nat.reduceDiv, le_refl, if_true]
    cases l with
    | nil => simp
    | cons b1 t =>
      have := h2 b1 t rfl
      simp only []
      split_ifs <;> first | rfl | (exfalso; omega)
  by_cases c3 : b0 = 0xE0 ∨ ((0xE1 ≤ b0 ∧ b0 ≤ 0xEC) ∨ b0 = 0xEE ∨ b0 = 0xEF) ∨ b0 = 0xED
  · have hf : first b0 = 0x13 ∧ b0 = 0xE0 ∨ first b0 = 0x03 ∧
        ((0xE1 ≤ b0 ∧ b0 ≤ 0xEC) ∨ b0 = 0xEE ∨ b0 = 0xEF) ∨ first b0 = 0x23 ∧ b0 = 0xED := by
      rcases c3 with c | c | c
      · exact Or.inl ⟨by rw [c]; rfl, c⟩
      · exact Or.inr (Or.inl ⟨first_three b0 c, c⟩)
      · exact Or.inr (Or.inr ⟨by rw [c]; rfl, c⟩)
    rcases hf with ⟨hf, c⟩ | ⟨hf, c⟩ | ⟨hf, c⟩ <;>
    · simp only [DecodeRuneInString, hf, acceptRanges]
      simp only [List.length_cons, ge_iff_le, Nat.reduceLeDiff, if_false, Nat.reduceMod,
        Nat.reduceDiv, le_refl, if_true]
      cases l with
      | nil => simp
      | cons b1 t =>
        cases t with
        | nil => simp
        | cons b2 t2 =>
          have := h3 b1 b2 t2 rfl
          simp only []
          split_ifs <;> first | rfl | (exfalso; omega)
  · have c4 : b0 = 0xF0 ∨ (0xF1 ≤ b0 ∧ b0 ≤ 0xF3) ∨ b0 = 0xF4 := by omega
    have hf : first b0 = 0x34 ∧ b0 = 0xF0 ∨ first b0 = 0x04 ∧ (0xF1 ≤ b0 ∧ b0 ≤ 0xF3) ∨
        first b0 = 0x44 ∧ b0 = 0xF4 := by
      rcases c4 with c | c | c
      · exact Or.inl ⟨by rw [c]; rfl, c⟩
      · exact Or.inr (Or.inl ⟨first_four b0 c, c⟩)
      · exact Or.inr (Or.inr ⟨by rw [c]; rfl, c⟩)
    rcases hf with ⟨hf, c⟩ | ⟨hf, c⟩ | ⟨hf, c⟩ <;>
    · simp only [DecodeRuneInString, hf, acceptRanges]
      simp only [List.length_cons, ge_iff_le, Nat.reduceLeDiff, if_false, Nat.reduceMod,
        Nat.reduceDiv, le_refl, if_true]
      cases l with
      | nil => simp
      | cons b1 t =>
        cases t with
        | nil => simp
        | cons b2 t2 =>
          cases t2 with
          | nil => simp
          | cons b3 t3 =>
            have := h4 b1 b2 b3 t3 rfl
            simp only []
            split_ifs <;> first | rfl | (exfalso; omega)

theorem validUTF8_two (b0 b1 : Nat) (t : Bytes) (h0 : 0xC2 ≤ b0 ∧ b0 ≤ 0xDF)
    (h1 : isCont b1 = true) : validUTF8 (b0 :: b1 :: t) = validUTF8 t := by
  rw [validUTF8.eq_def]
  have hb : ¬ b0 < 128 := by omega
  simp only [hb, if_false, h0, and_self, if_true, h1, Bool.true_and]

theorem validUTF8_three (b0 b1 b2 : Nat) (t : Bytes)
    (h : (b0 = 0xE0 ∧ 0xA0 ≤ b1 ∧ b1 ≤ 0xBF) ∨
      (((0xE1 ≤ b0 ∧ b0 ≤ 0xEC) ∨ b0 = 0xEE ∨ b0 = 0xEF) ∧ 0x80 ≤ b1 ∧ b1 ≤ 0xBF) ∨
      (b0 = 0xED ∧ 0x80 ≤ b1 ∧ b1 ≤ 0x9F))
    (h2 : isCont b2 = true) : validUTF8 (b0 :: b1 :: b2 :: t) = validUTF8 t := by
  rw [validUTF8.eq_def]
  have hb : ¬ b0 < 128 := by omega
  have hn2 : ¬ (0xC2 ≤ b0 ∧ b0 ≤ 0xDF) := by omega
  simp only [hb, if_false, hn2, h2, Bool.and_true, Bool.true_and]
  rcases h with ⟨h0, h1⟩ | ⟨h0, h1⟩ | ⟨h0, h1⟩
  · simp [h0, h1]
  · have hE0 : ¬ b0 = 0xE0 := by omega
    simp [hE0, h0, isCont, h1]
  · have hE0 : ¬ b0 = 0xE0 := by omega
    have hE1 : ¬ ((0xE1 ≤ b0 ∧ b0 ≤ 0xEC) ∨ b0 = 0xEE ∨ b0 = 0xEF) := by omega
    simp only [hE0, if_false, hE1, h0, if_true]
    simp [h1]

theorem validUTF8_four (b0 b1 b2 b3 : Nat) (t : Bytes)
    (h : (b0 = 0xF0 ∧ 0x90 ≤ b1 ∧ b1 ≤ 0xBF) ∨
      ((0xF1 ≤ b0 ∧ b0 ≤ 0xF3) ∧ 0x80 ≤ b1 ∧ b1 ≤ 0xBF) ∨
      (b0 = 0xF4 ∧ 0x80 ≤ b1 ∧ b1 ≤ 0x8F))
    (h2 : isCont b2 = true) (h3 : isCont b3 = true) :
    validUTF8 (b0 :: b1 :: b2 :: b3 :: t) = validUTF8 t := by
  rw [validUTF8.eq_def]
  have hb : ¬ b0 < 128 := by omega
  have hn2 : ¬ (0xC2 ≤ b0 ∧ b0 ≤ 0xDF) := by omega
  have hE0 : ¬ b0 = 0xE0 := by omega
  have hE1 : ¬ ((0xE1 ≤ b0 ∧ b0 ≤ 0xEC) ∨ b0 = 0xEE ∨ b0 = 0xEF) := by omega
  have hED : ¬ b0 = 0xED := by omega
  simp only [hb, if_false, hn2, hE0, hE1, hED, h2, h3, Bool.and_true, Bool.true_and]
  rcases h with ⟨h0, h1⟩ | ⟨h0, h1⟩ | ⟨h0, h1⟩
  · simp [h0, h1]
  · have hF0 : ¬ b0 = 0xF0 := by omega
    simp [hF0, h0, isCont, h1]
  · have hF0 : ¬ b0 = 0xF0 := by omega
    have hF1 : ¬ (0xF1 ≤ b0 ∧ b0 ≤ 0xF3) := by omega
    simp only [hF0, if_false, hF1, h0, if_true]
    simp [h1]

/-- One round of the loop at a byte that starts no well-formed sequence. -/
theorem jsonStringLoop_replace (fuel : Nat) (b : Nat) (rest : Bytes) (hb : ¬ b < 128)
    (hd : DecodeRuneInString ((b :: rest).take 4) = (RuneError, 1)) :
    jsonStringLoop (fuel + 1) (b :: rest) = 0xEF :: 0xBF :: 0xBD :: jsonStringLoop fuel rest := by
  rw [jsonStringLoop]
  simp only [hb, if_false, hd, and_self, if_true]

/-- What one round of the loop writes: an ASCII byte or a well-formed
sequence as it is, U+FFFD for any other byte. -/
theorem jsonStringLoop_cases (fuel : Nat) (b0 : Nat) (rest : Bytes) :
    (b0 < 128 ∧ jsonStringLoop (fuel + 1) (b0 :: rest) = b0 :: jsonStringLoop fuel rest) ∨
    (∃ b1 t, rest = b1 :: t ∧ (0xC2 ≤ b0 ∧ b0 ≤ 0xDF) ∧ isCont b1 = true ∧
      jsonStringLoop (fuel + 1) (b0 :: rest) = b0 :: b1 :: jsonStringLoop fuel t) ∨
    (∃ b1 b2 t, rest = b1 :: b2 :: t ∧
      ((b0 = 0xE0 ∧ 0xA0 ≤ b1 ∧ b1 ≤ 0xBF) ∨
        (((0xE1 ≤ b0 ∧ b0 ≤ 0xEC) ∨ b0 = 0xEE ∨ b0 = 0xEF) ∧ 0x80 ≤ b1 ∧ b1 ≤ 0xBF) ∨
        (b0 = 0xED ∧ 0x80 ≤ b1 ∧ b1 ≤ 0x9F)) ∧ isCont b2 = true ∧
      jsonStringLoop (fuel + 1) (b0 :: rest) = b0 :: b1 :: b2 :: jsonStringLoop fuel t) ∨
    (∃ b1 b2 b3 t, rest = b1 :: b2 :: b3 :: t ∧
      ((b0 = 0xF0 ∧ 0x90 ≤ b1 ∧ b1 ≤ 0xBF) ∨
        ((0xF1 ≤ b0 ∧ b0 ≤ 0xF3) ∧ 0x80 ≤ b1 ∧ b1 ≤ 0xBF) ∨
        (b0 = 0xF4 ∧ 0x80 ≤ b1 ∧ b1 ≤ 0x8F)) ∧ isCont b2 = true ∧ isCont b3 = true ∧
      jsonStringLoop (fuel + 1) (b0 :: rest) = b0 :: b1 :: b2 :: b3 :: jsonStringLoop fuel t) ∨
    (¬ b0 < 128 ∧ validUTF8 (b0 :: rest) = false ∧
      jsonStringLoop (fuel + 1) (b0 :: rest) =
        0xEF :: 0xBF :: 0xBD :: jsonStringLoop fuel rest) := by
  by_cases hb : b0 < 128
  · left
    refine ⟨hb, ?_⟩
    simp only [jsonStringLoop, hb, if_true]
  right
  by_cases hW2 : ∃ b1 t, rest = b1 :: t ∧ (0xC2 ≤ b0 ∧ b0 ≤ 0xDF) ∧ isCont b1 = true
  · left
    obtain ⟨b1, t, rfl, h0, h1⟩ := hW2
    refine ⟨b1, t, rfl, h0, h1, ?_⟩
    rw [jsonStringLoop_step fuel b0 (b1 :: t) _ 2 hb
      (DecodeRuneInString_two b0 b1 (t.take 2) h0 h1) (by decide)]
    rfl
  right
  by_cases hW3 : ∃ b1 b2 t, rest = b1 :: b2 :: t ∧
      ((b0 = 0xE0 ∧ 0xA0 ≤ b1 ∧ b1 ≤ 0xBF) ∨
        (((0xE1 ≤ b0 ∧ b0 ≤ 0xEC) ∨ b0 = 0xEE ∨ b0 = 0xEF) ∧ 0x80 ≤ b1 ∧ b1 ≤ 0xBF) ∨
        (b0 = 0xED ∧ 0x80 ≤ b1 ∧ b1 ≤ 0x9F)) ∧ isCont b2 = true
  · left
    obtain ⟨b1, b2, t, rfl, h0, h2⟩ := hW3
    refine ⟨b1, b2, t, rfl, h0, h2, ?_⟩
    rw [jsonStringLoop_step fuel b0 (b1 :: b2 :: t) _ 3 hb
      (DecodeRuneInString_three b0 b1 b2 (t.take 1) h0 h2) (by decide)]
    rfl
  right
  by_cases hW4 : ∃ b1 b2 b3 t, rest = b1 :: b2 :: b3 :: t ∧
      ((b0 = 0xF0 ∧ 0x90 ≤ b1 ∧ b1 ≤ 0xBF) ∨
        ((0xF1 ≤ b0 ∧ b0 ≤ 0xF3) ∧ 0x80 ≤ b1 ∧ b1 ≤ 0xBF) ∨
        (b0 = 0xF4 ∧ 0x80 ≤ b1 ∧ b1 ≤ 0x8F)) ∧ isCont b2 = true ∧ isCont b3 = true
  · left
    obtain ⟨b1, b2, b3, t, rfl, h0, h2, h3⟩ := hW4
    refine ⟨b1, b2, b3, t, rfl, h0, h2, h3, ?_⟩
    rw [jsonStringLoop_step fuel b0 (b1 :: b2 :: b3 :: t) _ 4 hb
      (DecodeRuneInString_four b0 b1 b2 b3 [] h0 h2 h3) (by decide)]
    rfl
  right
  refine ⟨hb, ?_, ?_⟩
  · by_contra hv
    simp only [Bool.not_eq_false] at hv
    rcases validUTF8_inv b0 rest hb hv with ⟨b1, t1, e, h0, h1, _⟩ |
      ⟨b1, b2, t2, e, h0, h2, _⟩ | ⟨b1, b2, b3, t3, e, h0, h2, h3, _⟩
    · exact hW2 ⟨b1, t1, e, h0, h1⟩
    · exact hW3 ⟨b1, b2, t2, e, h0, h2⟩
    · exact hW4 ⟨b1, b2, b3, t3, e, h0, h2, h3⟩
  · apply jsonStringLoop_replace fuel b0 rest hb
    rw [List.take_succ_cons]
    apply DecodeRuneInString_invalid b0 _ hb
    · intro b1 t e hw
      cases rest with
      | nil => simp at e
      | cons x r =>
        simp only [List.take_succ_cons, List.cons.injEq] at e
        exact hW2 ⟨b1, r, by rw [e.1], hw.1, hw.2⟩
    · intro b1 b2 t e hw
      cases rest with
      | nil => simp at e
      | cons x r =>
        cases r with
        | nil => simp at e
        | cons y r2 =>
          simp only [List.take_succ_cons, List.cons.injEq] at e
          exact hW3 ⟨b1, b2, r2, by rw [e.1, e.2.1], hw.1, hw.2⟩
    · intro b1 b2 b3 t e hw
      cases rest with
      | nil => simp at e
      | cons x r =>
        cases r with
        | nil => simp at e
        | cons y r2 =>
          cases r2 with
          | nil => simp at e
          | cons z r3 =>
            simp only [List.take_succ_cons, List.cons.injEq] at e
            exact hW4 ⟨b1, b2, b3, r3, by rw [e.1, e.2.1, e.2.2.1], hw.1, hw.2.1, hw.2.2⟩

/-- What the JSON encoder writes for a string is valid UTF-8. -/
theorem validUTF8_jsonStringLoop (fuel : Nat) : ∀ s : Bytes,
    validUTF8 (jsonStringLoop fuel s) = true := by
  induction fuel with
  | zero => intro s; rfl
  | succ f ih =>
    intro s
    cases s with
    | nil => rfl
    | cons b0 rest =>
      rcases jsonStringLoop_cases f b0 rest with ⟨hb, e⟩ | ⟨b1, t, _, h0, h1, e⟩ |
        ⟨b1, b2, t, _, h0, h2, e⟩ | ⟨b1, b2, b3, t, _, h0, h2, h3, e⟩ | ⟨_, _, e⟩
      · rw [e, validUTF8_cons_ascii _ _ hb, ih]
      · rw [e, validUTF8_two _ _ _ h0 h1, ih]
      · rw [e, validUTF8_three _ _ _ _ h0 h2, ih]
      · rw [e, validUTF8_four _ _ _ _ _ h0 h2 h3, ih]
      · rw [e, validUTF8_three 0xEF 0xBF 0xBD _ (by decide) (by decide), ih]

theorem validUTF8_jsonString (s : Bytes) : validUTF8 (jsonString s) = true :=
  validUTF8_jsonStringLoop _ s

/-- The JSON encoder writes a string as it is exactly when the string is valid
UTF-8. -/
theorem jsonString_eq_iff (s : Bytes) : jsonString s = s ↔ validUTF8 s = true :=
  ⟨fun h => h ▸ validUTF8_jsonString s, jsonString_valid s⟩

/-! ## The scheme of a parsed URL -/

theorem parseAfterQuery_scheme (url p : URL) (rest : Bytes)
    (h : parseAfterQuery url rest false = some p) : p.Scheme = url.Scheme := by
  unfold parseAfterQuery at h
  split_ifs at h with h1 h2 h3 h4 h5
  · simp only [Option.some.injEq] at h
    subst h
    rfl
  · cases hi : index (List.drop 2 rest) [47] with
    | none =>
      simp only [hi] at h
      cases hauth : parseAuthority (List.drop 2 rest) with
      | none => simp [hauth] at h
      | some uh =>
        obtain ⟨user, host⟩ := uh
        simp only [hauth] at h
        exact (setPath_fields _ _ _ h).1
    | some i =>
      simp only [hi] at h
      cases hauth : parseAuthority (List.take i (List.drop 2 rest)) with
      | none => simp [hauth] at h
      | some uh =>
        obtain ⟨user, host⟩ := uh
        simp only [hauth] at h
        exact (setPath_fields _ _ _ h).1
  · exact (setPath_fields _ _ _ h).1
  · exact (setPath_fields _ _ _ h).1

theorem parse_scheme (raw : Bytes) (p : URL) (h : parse raw false = some p) :
    SchemeShape p.Scheme := by
  unfold parse at h
  split_ifs at h with h1 h2 h3
  · simp only [Option.some.injEq] at h
    subst h
    exact schemeShape_nil
  · cases hg : getScheme raw with
    | none => simp [hg] at h
    | some sr =>
      obtain ⟨scheme, rest0⟩ := sr
      simp only [hg] at h
      have hshape : SchemeShape scheme := by
        rcases getScheme_inv raw scheme rest0 hg with ⟨rfl, _⟩ | ⟨_, hs, _⟩
        · exact schemeShape_nil
        · exact hs
      have e1 := parseAfterQuery_scheme _ p _ h
      exact e1 ▸ hshape.toLower

/-- The scheme of a parsed URL is made of scheme bytes, whatever the input. -/
theorem Parse_scheme (raw : Bytes) (p : URL) (h : Parse raw = some p) :
    SchemeShape p.Scheme := by
  unfold Parse at h
  cases hp : parse (cut raw [35]).1 false with
  | none => simp [hp] at h
  | some url =>
    simp only [hp] at h
    have hok := parse_scheme _ url hp
    split_ifs at h
    · simp only [Option.some.injEq] at h
      exact h ▸ hok
    · exact (setFragment_fields _ _ _ h).1 ▸ hok

/-! ## The parameters of a query text -/

theorem segments_of_not_mem (a : Bytes) (h : 38 ∉ a) : segments a = [a] := by
  induction a with
  | nil => rfl
  | cons c s ih =>
    have hc : c ≠ 38 := fun e => h (by simp [e])
    have hs : 38 ∉ s := fun e => h (by simp [e])
    simp only [segments, hc, if_false, ih hs]

theorem segments_append (a b : Bytes) (h : 38 ∉ a) :
    segments (a ++ 38 :: b) = a :: segments b := by
  induction a with
  | nil => simp [segments]
  | cons c s ih =>
    have hc : c ≠ 38 := fun e => h (by simp [e])
    have hs : 38 ∉ s := fun e => h (by simp [e])
    have := ih hs
    simp only [List.cons_append, segments, hc, if_false]
    rw [show s.append (38 :: b) = s ++ 38 :: b from rfl, this]

/-- The parameters of a query text are the parameter of its first segment,
if it is one, then those of the text after the first `&`. -/
theorem inputParams_cut (q : Bytes) :
    inputParams q =
      (segmentPair (cut q [38]).1).toList ++ inputParams (cut q [38]).2.1 ∧
      (q ≠ [] → (cut q [38]).2.1.length < q.length) := by
  by_cases hm : 38 ∈ q
  · obtain ⟨a, b, rfl, ha⟩ := List.eq_append_cons_of_mem hm
    rw [cut_append 38 a b ha]
    refine ⟨?_, fun _ => by simp; omega⟩
    simp only [inputParams, segments_append a b ha, List.filterMap_cons]
    cases segmentPair a <;> simp
  · rw [cut_of_not_mem 38 q hm]
    refine ⟨?_, fun h => by simpa using List.length_pos.2 h⟩
    simp only [inputParams, segments_of_not_mem q hm, List.filterMap_cons, List.filterMap_nil]
    have h0 : segmentPair [] = none := by simp [segmentPair]
    simp only [segments, List.filterMap_cons, h0, List.filterMap_nil]
    cases segmentPair q <;> simp

/-- The loop of `parseQuery` adds the parameters of the query text, in order. -/
theorem parseQueryLoop_eq (fuel : Nat) : ∀ (m : Values) (q : Bytes), q.length ≤ fuel →
    parseQueryLoop fuel m q =
      (inputParams q).foldl (fun m e => Values.add m e.1 e.2) m := by
  induction fuel with
  | zero =>
    intro m q hq
    have : q = [] := List.length_eq_zero.1 (Nat.le_zero.1 hq)
    subst this
    simp [parseQueryLoop, inputParams, segments, segmentPair]
  | succ f ih =>
    intro m q hq
    by_cases hq0 : q = []
    · subst hq0
      simp [parseQueryLoop, inputParams, segments, segmentPair]
    · obtain ⟨hcut, hlen⟩ := inputParams_cut q
      have hlt : (cut q [38]).2.1.length ≤ f := by
        have := hlen hq0
        omega
      rw [parseQueryLoop, if_neg hq0, hcut]
      simp only []
      by_cases h59 : contains (cut q [38]).1 [59] = true
      · have hm : 59 ∈ (cut q [38]).1 := (contains_single 59 _).1 h59
        have hn : segmentPair (cut q [38]).1 = none := by simp [segmentPair, hm]
        rw [if_pos h59, hn, ih m _ hlt]
        rfl
      · have hm : 59 ∉ (cut q [38]).1 := fun h => h59 ((contains_single 59 _).2 h)
        rw [if_neg h59]
        by_cases hk : (cut q [38]).1 = []
        · have hn : segmentPair (cut q [38]).1 = none := by simp [segmentPair, hk]
          rw [if_pos hk, hn, ih m _ hlt]
          rfl
        · rw [if_neg hk]
          cases h1 : QueryUnescape (cut (cut q [38]).1 [61]).1 with
          | none =>
            have hn : segmentPair (cut q [38]).1 = none := by simp [segmentPair, hk, hm, h1]
            simp only [hn, ih m _ hlt]
            rfl
          | some k =>
            cases h2 : QueryUnescape (cut (cut q [38]).1 [61]).2.1 with
            | none =>
              have hn : segmentPair (cut q [38]).1 = none := by
                simp [segmentPair, hk, hm, h1, h2]
              simp only [hn, ih m _ hlt]
              rfl
            | some v =>
              have hn : segmentPair (cut q [38]).1 = some (k, v) := by
                simp [segmentPair, hk, hm, h1, h2]
              simp only [hn, ih _ _ hlt]
              rfl

theorem Values.lookup_add (m : Values) (k' x k : Bytes) :
    (Values.lookup (Values.add m k' x) k).getD [] =
      (Values.lookup m k).getD [] ++ (if k' = k then [x] else []) := by
  induction m with
  | nil =>
    by_cases h : k' = k
    · simp [Values.add, Values.lookup, h]
    · simp [Values.add, Values.lookup, h]
  | cons e t ih =>
    obtain ⟨a, xs⟩ := e
    by_cases h1 : a = k'
    · by_cases h2 : a = k
      · have h3 : k' = k := h1 ▸ h2
        simp [Values.add, Values.lookup, h1, h3]
      · have h3 : ¬ k' = k := fun e => h2 (h1.trans e)
        simp [Values.add, Values.lookup, h1, h3]
    · by_cases h2 : a = k
      · have h3 : ¬ k' = k := fun e => h1 (h2.trans e.symm)
        have h4 : ¬ k = k' := fun e => h3 e.symm
        simp [Values.add, Values.lookup, h2, h3, h4]
      · simp only [Values.add, h1, if_false, Values.lookup, h2]
        exact ih

theorem Values.lookup_foldl_add (ps : List (Bytes × Bytes)) (m : Values) (k : Bytes) :
    (Values.lookup (ps.foldl (fun m e => Values.add m e.1 e.2) m) k).getD [] =
      (Values.lookup m k).getD [] ++ valuesOf k ps := by
  induction ps generalizing m with
  | nil => simp [valuesOf]
  | cons e t ih =>
    rw [List.foldl_cons, ih, Values.lookup_add]
    by_cases h : e.1 = k
    · simp [valuesOf, List.filter_cons, h]
    · simp [valuesOf, List.filter_cons, h]

/-- What `ParseQuery` holds for a name: the values of the parameters of the
query text with that name, in the order they are written. -/
theorem ParseQuery_values (q k : Bytes) :
    (Values.lookup (ParseQuery q) k).getD [] = valuesOf k (inputParams q) := by
  rw [ParseQuery, parseQueryLoop_eq _ _ _ (le_refl _), Values.lookup_foldl_add]
  simp [Values.lookup]

/-! ## `ProcessURL` -/

/-- The path that `ProcessURL` serialises: the parsed path, with one trailing
slash removed unless the path is the root. -/
theorem cleanedURL_eq (p : URL) :
    cleanedURL p =
      { Scheme := p.Scheme
        Host := p.Host
        Path := if p.Path ≠ [47] ∧ hasSuffix p.Path [47] = true then trimSuffix p.Path [47]
          else p.Path
        RawQuery := (filteredQuery p).Encode } := by
  unfold cleanedURL
  simp only []
  split_ifs <;> rfl

/-- The serialisation of a URL without opaque part, forced query or fragment:
the scheme, the authority, the path, then `?` and the query when there is
one. -/
theorem String_plain (u : URL) (ho : u.Opaque = []) (hf : u.ForceQuery = false)
    (hfr : u.Fragment = []) :
    u.String =
      u.writePath (u.writeAuthority (if u.Scheme ≠ [] then u.Scheme ++ [58] else [])) ++
        (if u.RawQuery ≠ [] then 63 :: u.RawQuery else []) := by
  unfold URL.String
  simp only [ho, hf, hfr, ne_eq, not_true_eq_false, if_false, Bool.false_eq_true, false_or]
  split_ifs
  · exact (List.append_nil _).symm
  · exact (List.append_nil _).symm
  · exact List.append_assoc _ _ _
  · exact List.append_assoc _ _ _

theorem mem_writeAuthority (u : URL) (buf : Bytes) (hu : u.User = none) (b : Nat)
    (hb : b ∈ u.writeAuthority buf) :
    b ∈ buf ∨ b = 47 ∨ b ∈ escape u.Host encodeHost := by
  unfold URL.writeAuthority at hb
  simp only [hu] at hb
  split_ifs at hb <;> (try simp only [List.mem_append, List.mem_cons, List.mem_singleton,
    List.not_mem_nil, or_false] at hb) <;> tauto

theorem mem_EscapedPath (u : URL) (hr : u.RawPath = []) (b : Nat) (hb : b ∈ u.EscapedPath) :
    b = 42 ∨ b ∈ escape u.Path encodePath := by
  unfold URL.EscapedPath at hb
  simp only [hr, ne_eq, not_true_eq_false, false_and, if_false] at hb
  split_ifs at hb
  · simp at hb
    exact Or.inl hb
  · exact Or.inr hb

theorem mem_writePath (u : URL) (buf : Bytes) (hr : u.RawPath = []) (b : Nat)
    (hb : b ∈ u.writePath buf) :
    b ∈ buf ∨ b = 47 ∨ b = 46 ∨ b = 42 ∨ b ∈ escape u.Path encodePath := by
  unfold URL.writePath at hb
  rcases List.mem_append.1 hb with hb | hb
  · split_ifs at hb <;> (try simp only [List.mem_append, List.mem_cons, List.mem_singleton,
      List.not_mem_nil, or_false] at hb) <;> tauto
  · rcases mem_EscapedPath u hr b hb with h | h
    · exact Or.inr (Or.inr (Or.inr (Or.inl h)))
    · exact Or.inr (Or.inr (Or.inr (Or.inr h)))

theorem schemeByte_printable (c : Nat) (h : isSchemeByte c = true) :
    33 ≤ c ∧ c ≤ 126 ∧ c ≠ 35 ∧ c ≠ 63 ∧ c ≠ 47 ∧ c ≠ 58 := by
  simp [isSchemeByte, isAlnum] at h
  omega

/-- Every byte of the cleaned URL before its query is printable ASCII other
than `#` and `?`. -/
theorem cleaned_base_bytes (p : URL) (hs : SchemeShape p.Scheme) (b : Nat)
    (hb : b ∈ (cleanedURL p).writePath ((cleanedURL p).writeAuthority
      (if (cleanedURL p).Scheme ≠ [] then (cleanedURL p).Scheme ++ [58] else []))) :
    33 ≤ b ∧ b ≤ 126 ∧ b ≠ 35 ∧ b ≠ 63 := by
  have hr : (cleanedURL p).RawPath = [] := by rw [cleanedURL_eq]
  have hu : (cleanedURL p).User = none := by rw [cleanedURL_eq]
  have hsc : (cleanedURL p).Scheme = p.Scheme := by rw [cleanedURL_eq]
  rcases mem_writePath _ _ hr b hb with h | h | h | h | h
  · rcases mem_writeAuthority _ _ hu b h with h | h | h
    · rw [hsc] at h
      split_ifs at h
      · rcases List.mem_append.1 h with h | h
        · have := schemeByte_printable b (hs.1 b h)
          omega
        · simp at h
          omega
      · cases h
    · omega
    · have := escape_printable b _ _ h
      have := not_mem_escape_host b (cleanedURL p).Host
      by_cases h63 : b = 63
      · exact absurd h (this (Or.inl h63))
      · omega
  · omega
  · omega
  · omega
  · have := escape_printable b _ _ h
    have := not_mem_escape_path b (cleanedURL p).Path
    by_cases h63 : b = 63
    · exact absurd h (this (Or.inl h63))
    · omega

theorem mem_joinAmp (b : Nat) (l : List Bytes) (h : b ∈ joinAmp l) : b = 38 ∨ ∃ s ∈ l, b ∈ s := by
  induction l with
  | nil => simp [joinAmp] at h
  | cons a t ih =>
    cases t with
    | nil =>
      simp [joinAmp] at h
      exact Or.inr ⟨a, by simp, h⟩
    | cons c t' =>
      simp only [joinAmp, List.mem_append, List.mem_cons] at h
      rcases h with h | h | h
      · exact Or.inr ⟨a, by simp, h⟩
      · exact Or.inl h
      · rcases ih h with h | ⟨s, hs, hbs⟩
        · exact Or.inl h
        · exact Or.inr ⟨s, List.mem_cons_of_mem _ hs, hbs⟩

/-- The encoded query is printable ASCII without `#`, `?`, `/`, `:`, `;`. -/
theorem mem_Encode (b : Nat) (v : Values) (h : b ∈ Values.Encode v) :
    33 ≤ b ∧ b ≤ 126 ∧ b ≠ 35 ∧ b ≠ 63 ∧ b ≠ 47 ∧ b ≠ 58 ∧ b ≠ 59 := by
  rw [Values.Encode_eq_joinAmp] at h
  rcases mem_joinAmp b _ h with h | ⟨s, hs, hbs⟩
  · omega
  · simp only [List.mem_map] at hs
    obtain ⟨pr, _, rfl⟩ := hs
    simp only [pairText, List.mem_append, List.mem_cons] at hbs
    have key : ∀ t : Bytes, b ∈ escape t encodeQueryComponent →
        33 ≤ b ∧ b ≤ 126 ∧ b ≠ 35 ∧ b ≠ 63 ∧ b ≠ 47 ∧ b ≠ 58 ∧ b ≠ 59 := by
      intro t ht
      have h1 := escape_printable b _ _ ht
      have h2 : ¬ (b = 38 ∨ b = 61 ∨ b = 59 ∨ b = 63 ∨ b = 35 ∨ b = 47 ∨ b = 58) :=
        fun hb => not_mem_escape_query b t hb ht
      omega
    rcases hbs with h | h | h
    · exact key _ h
    · omega
    · exact key _ h

/-- The cleaned URL is its part before the query, then `?` and the encoded
filtered query when that is not empty; the first part holds neither `#` nor
`?`. -/
theorem cleaned_String_decomp (p : URL) (hs : SchemeShape p.Scheme) :
    ∃ base : Bytes, (∀ b ∈ base, 33 ≤ b ∧ b ≤ 126 ∧ b ≠ 35 ∧ b ≠ 63) ∧
      (cleanedURL p).String =
        base ++ (if (filteredQuery p).Encode ≠ [] then 63 :: (filteredQuery p).Encode else []) := by
  refine ⟨_, cleaned_base_bytes p hs, ?_⟩
  rw [String_plain (cleanedURL p) (by rw [cleanedURL_eq]) (by rw [cleanedURL_eq])
    (by rw [cleanedURL_eq])]
  have : (cleanedURL p).RawQuery = (filteredQuery p).Encode := by rw [cleanedURL_eq]
  rw [this]

theorem cleaned_String_bytes (p : URL) (hs : SchemeShape p.Scheme) (b : Nat)
    (hb : b ∈ (cleanedURL p).String) : 33 ≤ b ∧ b ≤ 126 ∧ b ≠ 35 := by
  obtain ⟨base, hbase, hstr⟩ := cleaned_String_decomp p hs
  rw [hstr] at hb
  rcases List.mem_append.1 hb with h | h
  · have := hbase b h
    omega
  · split_ifs at h
    · rcases List.mem_cons.1 h with h | h
      · omega
      · have := mem_Encode b _ h
        omega
    · cases h

/-- The cleaned URL and the encoded query are ASCII: the JSON encoder writes
them as they are. -/
theorem jsonString_cleaned (p : URL) (hs : SchemeShape p.Scheme) :
    jsonString (cleanedURL p).String = (cleanedURL p).String :=
  jsonString_ascii _ fun b hb => by
    have := cleaned_String_bytes p hs b hb
    omega

theorem jsonString_Encode (v : Values) : jsonString (Values.Encode v) = Values.Encode v :=
  jsonString_ascii _ fun b hb => by
    have := mem_Encode b v hb
    omega

theorem ProcessURL_ok (u : Bytes) (p : URL) (hu : u ≠ []) (hp : Parse u = some p) :
    ProcessURL (some ⟨u⟩) =
      .json 200
        { OriginalURL := jsonString u
          CleanedURL := (cleanedURL p).String
          Domain := jsonString p.Host
          Path := jsonString p.Path
          Query := (filteredQuery p).Encode } := by
  simp only [ProcessURL, hu, if_false, hp, URLProcessResponse.Encode,
    jsonString_cleaned p (Parse_scheme u p hp), jsonString_Encode]

theorem cleanedOf_eq (u : Bytes) (p : URL) (hu : u ≠ []) (hp : Parse u = some p) :
    cleanedOf u = some (cleanedURL p).String := by
  simp [cleanedOf, ProcessURL_ok u p hu hp]

theorem cleanedOf_some (u c : Bytes) (h : cleanedOf u = some c) :
    u ≠ [] ∧ ∃ p, Parse u = some p ∧ c = (cleanedURL p).String := by
  by_cases hu : u = []
  · subst hu
    rw [show cleanedOf [] = none from rfl] at h
    cases h
  · refine ⟨hu, ?_⟩
    cases hp : Parse u with
    | none =>
      simp [cleanedOf, ProcessURL, hu, hp] at h
    | some p =>
      rw [cleanedOf_eq u p hu hp] at h
      exact ⟨p, rfl, (Option.some.inj h).symm⟩

/-- C10 fails as stated: for the accepted input `http://h/%FF/` the parsed path
is the three bytes `/`, `FF`, `/`, while the `path` of the response is `/`,
U+FFFD, `/`, the JSON encoder having replaced the byte that is not UTF-8; in
the same way the parsed host of `http://%FF/` is the byte `FF` and the
`domain` of the response is U+FFFD. -/
theorem C10_fields_not_parsed_values :
    (Parse (bytes "http://h/%FF/") =
        some { Scheme := bytes "http", Host := bytes "h", Path := [47, 0xFF, 47] } ∧
      ProcessURL (some ⟨bytes "http://h/%FF/"⟩) =
        .json 200
          { OriginalURL := bytes "http://h/%FF/", CleanedURL := bytes "http://h/%FF",
            Domain := bytes "h", Path := [47, 0xEF, 0xBF, 0xBD, 47], Query := [] } ∧
      ¬ (∀ p r, Parse (bytes "http://h/%FF/") = some p →
        ProcessURL (some ⟨bytes "http://h/%FF/"⟩) = .json 200 r → r.Path = p.Path)) ∧
    (Parse (bytes "http://%FF/") =
        some { Scheme := bytes "http", Host := [0xFF], Path := bytes "/" } ∧
      ProcessURL (some ⟨bytes "http://%FF/"⟩) =
        .json 200
          { OriginalURL := bytes "http://%FF/", CleanedURL := bytes "http://%FF/",
            Domain := [0xEF, 0xBF, 0xBD], Path := bytes "/", Query := [] } ∧
      ¬ (∀ p r, Parse (bytes "http://%FF/") = some p →
        ProcessURL (some ⟨bytes "http://%FF/"⟩) = .json 200 r → r.Domain = p.Host)) :=
  ⟨⟨by decide, by decide, fun h =>
      absurd (h { Scheme := bytes "http", Host := bytes "h", Path := [47, 0xFF, 47] }
        { OriginalURL := bytes "http://h/%FF/", CleanedURL := bytes "http://h/%FF",
          Domain := bytes "h", Path := [47, 0xEF, 0xBF, 0xBD, 47], Query := [] }
        (by decide) (by decide)) (by decide)⟩,
    ⟨by decide, by decide, fun h =>
      absurd (h { Scheme := bytes "http", Host := [0xFF], Path := bytes "/" }
        { OriginalURL := bytes "http://%FF/", CleanedURL := bytes "http://%FF/",
          Domain := [0xEF, 0xBF, 0xBD], Path := bytes "/", Query := [] }
        (by decide) (by decide)) (by decide)⟩⟩

/-- C10 (amended): `ProcessURL` answers 400 exactly when the url field is empty
or `url.Parse` fails; otherwise it answers 200 with a result whose
`original_url`, `domain` and `path` are the input, the parsed host and the
parsed path before any trimming, as the JSON encoder writes a string: each of
the three is unchanged exactly when it is valid UTF-8, and what is written is
valid UTF-8 in every case, U+FFFD standing for the invalid bytes. -/
theorem C10_processURL_status_json (req : URLProcessRequest) :
    ((ProcessURL (some req)).status = 400 ↔ (req.URL = [] ∨ Parse req.URL = none)) ∧
    (∀ p, req.URL ≠ [] → Parse req.URL = some p →
      ∃ r, ProcessURL (some req) = .json 200 r ∧
        r.OriginalURL = jsonString req.URL ∧ r.Domain = jsonString p.Host ∧
        r.Path = jsonString p.Path ∧
        (r.OriginalURL = req.URL ↔ validUTF8 req.URL = true) ∧
        (r.Domain = p.Host ↔ validUTF8 p.Host = true) ∧
        (r.Path = p.Path ↔ validUTF8 p.Path = true) ∧
        validUTF8 r.OriginalURL = true ∧ validUTF8 r.Domain = true ∧
        validUTF8 r.Path = true) := by
  constructor
  · unfold ProcessURL
    by_cases hu : req.URL = []
    · simp [hu, Response.status]
    · cases hp : Parse req.URL with
      | none => simp [hu, hp, Response.status]
      | some p => simp [hu, hp, Response.status]
  · intro p hu hp
    exact ⟨_, ProcessURL_ok req.URL p hu hp, rfl, rfl, rfl, jsonString_eq_iff _,
      jsonString_eq_iff _, jsonString_eq_iff _, validUTF8_jsonString _,
      validUTF8_jsonString _, validUTF8_jsonString _⟩

/-- Witness for C10 (amended): an accepted input with a path that is valid
UTF-8, and two rejected inputs. -/
theorem C10_processURL_status_json_witness :
    (∃ r, ProcessURL (some ⟨bytes "http://h/é/"⟩) = .json 200 r ∧
        r.OriginalURL = bytes "http://h/é/" ∧ r.Domain = bytes "h" ∧ r.Path = bytes "/é/") ∧
      (ProcessURL (some ⟨bytes ":b"⟩)).status = 400 ∧
      (ProcessURL (some ⟨[]⟩)).status = 400 :=
  have h := (C10_processURL_status_json ⟨bytes "http://h/é/"⟩).2
    { Scheme := bytes "http", Host := bytes "h", Path := bytes "/é/", RawPath := bytes "/é/" }
    (by decide) (by decide)
  ⟨h.imp fun _ hr => ⟨hr.1, hr.2.2.2.2.1.2 (by decide), hr.2.2.2.2.2.1.2 (by decide),
      hr.2.2.2.2.2.2.1.2 (by decide)⟩,
    ((C10_processURL_status_json ⟨bytes ":b"⟩).1).2 (Or.inr (by decide)),
    ((C10_processURL_status_json ⟨[]⟩).1).2 (Or.inl rfl)⟩

/-- C4: for an accepted input with parsed path `P`, the cleaned URL is the
serialisation of a URL whose path is `P` without exactly one trailing `/` when
`P` is not `/` and ends with `/`, and is `P` itself otherwise; that path is
written, escaped, after the authority.  `https://example.com/` is returned
unchanged. -/
theorem C4_trailing_slash (u : Bytes) (p : URL) (hu : u ≠ []) (hp : Parse u = some p) :
    cleanedOf u = some (cleanedURL p).String ∧
    (p.Path ≠ [47] ∧ hasSuffix p.Path [47] = true → (cleanedURL p).Path ++ [47] = p.Path) ∧
    (p.Path = [47] ∨ hasSuffix p.Path [47] = false → (cleanedURL p).Path = p.Path) ∧
    (cleanedURL p).String =
      (cleanedURL p).writePath ((cleanedURL p).writeAuthority
        (if (cleanedURL p).Scheme ≠ [] then (cleanedURL p).Scheme ++ [58] else [])) ++
      (if (cleanedURL p).RawQuery ≠ [] then 63 :: (cleanedURL p).RawQuery else []) ∧
    cleanedOf (bytes "https://example.com/") = some (bytes "https://example.com/") := by
  refine ⟨cleanedOf_eq u p hu hp, ?_, ?_, ?_, by decide⟩
  · rintro ⟨h1, h2⟩
    obtain ⟨t, ht⟩ := (hasSuffix_single 47 _).1 h2
    rw [cleanedURL_eq]
    simp only [h1, h2, ne_eq, not_false_eq_true, and_self, if_true]
    rw [ht, trimSuffix_single_append]
  · intro h
    rw [cleanedURL_eq]
    rcases h with h | h
    · simp [h]
    · simp [h]
  · exact String_plain _ (by rw [cleanedURL_eq]) (by rw [cleanedURL_eq]) (by rw [cleanedURL_eq])

/-- Witness for C4: `/a//` loses one slash only, `/a/` its slash. -/
theorem C4_trailing_slash_witness :
    cleanedOf (bytes "https://example.com/a//") = some (bytes "https://example.com/a/") ∧
      cleanedOf (bytes "https://example.com/a/") = some (bytes "https://example.com/a") :=
  ⟨by decide,
    (C4_trailing_slash (bytes "https://example.com/a/")
      { Scheme := bytes "https", Host := bytes "example.com", Path := bytes "/a/" }
      (by decide) (by decide)).1.trans (by decide)⟩

/-- C5: for an accepted input, the cleaned URL is the serialisation of a URL
holding only the parsed scheme, the parsed host, the trimmed path and the
encoded filtered query (no user, no opaque part, no fragment); it contains no
`#`, it contains no `?` when the filtered query is empty, and otherwise it is a
`?`-free text followed by `?` and the filtered query.  The input
`https://example.com/page/?utm_source=x&ref=y&keep=1` yields
`https://example.com/page?keep=1`. -/
theorem C5_cleaned_serialization (u : Bytes) (p : URL) (hb : IsBytes u) (hu : u ≠ [])
    (hp : Parse u = some p) :
    cleanedOf u = some (cleanedURL p).String ∧
    cleanedURL p =
      { Scheme := p.Scheme, Host := p.Host, Path := (cleanedURL p).Path,
        RawQuery := (filteredQuery p).Encode } ∧
    35 ∉ (cleanedURL p).String ∧
    ((filteredQuery p).Encode = [] → 63 ∉ (cleanedURL p).String) ∧
    ((filteredQuery p).Encode ≠ [] →
      ∃ base, 63 ∉ base ∧ (cleanedURL p).String = base ++ 63 :: (filteredQuery p).Encode) ∧
    cleanedOf (bytes "https://example.com/page/?utm_source=x&ref=y&keep=1") =
      some (bytes "https://example.com/page?keep=1") := by
  have hok := Parse_ok u p hb hp
  obtain ⟨base, hbase, hs⟩ := cleaned_String_decomp p hok.scheme
  refine ⟨cleanedOf_eq u p hu hp, ?_, ?_, ?_, ?_, by decide⟩
  · conv_lhs => rw [cleanedURL_eq]
    rw [cleanedURL_eq]
  · intro h
    have := cleaned_String_bytes p hok.scheme 35 h
    omega
  · intro hq h
    rw [hs, hq] at h
    simp only [ne_eq, not_true_eq_false, if_false, List.append_nil] at h
    have := hbase 63 h
    omega
  · intro hq
    refine ⟨base, fun h => ?_, ?_⟩
    · have := hbase 63 h
      omega
    · rw [hs]
      simp [hq]

/-- Witness for C5: the fragment of the input is dropped. -/
theorem C5_cleaned_serialization_witness :
    cleanedOf (bytes "https://example.com/page#frag") = some (bytes "https://example.com/page") ∧
      35 ∉ bytes "https://example.com/page" :=
  have h := C5_cleaned_serialization (bytes "https://example.com/page#frag")
    { Scheme := bytes "https", Host := bytes "example.com", Path := bytes "/page",
      Fragment := bytes "frag" }
    (by decide) (by decide) (by decide)
  ⟨h.1.trans (by decide), by decide⟩

/-- C2 fails as stated: `url.Query` drops a pair that holds an invalid
percent-escape or a `;`.  The input `http://h/p?c=%zz&keep=1` has a parameter
named `c`, which is no tracking name, and the filtered query `keep=1` and the
cleaned URL `http://h/p?keep=1` returned for it have no parameter `c`; the
same happens to `a` and `b` of `http://h/p?a=1;b=2&keep=1`. -/
theorem C2_malformed_pair_lost :
    (ProcessURL (some ⟨bytes "http://h/p?c=%zz&keep=1"⟩) =
        .json 200
          { OriginalURL := bytes "http://h/p?c=%zz&keep=1"
            CleanedURL := bytes "http://h/p?keep=1"
            Domain := bytes "h", Path := bytes "/p", Query := bytes "keep=1" } ∧
      segments (bytes "c=%zz&keep=1") = [bytes "c=%zz", bytes "keep=1"] ∧
      (cut (bytes "c=%zz") [61]).1 = bytes "c" ∧
      bytes "c" ∉ [bytes "utm_source", bytes "utm_medium", bytes "utm_campaign",
        bytes "utm_term", bytes "utm_content", bytes "fbclid", bytes "gclid", bytes "ref",
        bytes "source", bytes "campaign_id"] ∧
      Values.lookup (ParseQuery (bytes "keep=1")) (bytes "c") = none) ∧
    (ProcessURL (some ⟨bytes "http://h/p?a=1;b=2&keep=1"⟩) =
        .json 200
          { OriginalURL := bytes "http://h/p?a=1;b=2&keep=1"
            CleanedURL := bytes "http://h/p?keep=1"
            Domain := bytes "h", Path := bytes "/p", Query := bytes "keep=1" } ∧
      segments (bytes "a=1;b=2&keep=1") = [bytes "a=1;b=2", bytes "keep=1"] ∧
      bytes "a" ∉ [bytes "utm_source", bytes "utm_medium", bytes "utm_campaign",
        bytes "utm_term", bytes "utm_content", bytes "fbclid", bytes "gclid", bytes "ref",
        bytes "source", bytes "campaign_id"] ∧
      Values.lookup (ParseQuery (bytes "keep=1")) (bytes "a") = none) := by
  decide

/-- C2 (amended): for an accepted input, the query text returned, which is
also the query of the cleaned URL (the text after its only `?`), holds no
parameter named `utm_source`, `utm_medium`, `utm_campaign`, `utm_term`,
`utm_content`, `fbclid`, `gclid`, `ref`, `source` or `campaign_id`; and for
every other name, `UTM_Source` included, it holds exactly the values that the
well-formed parameters of the input give to that name, in their order.  The
parameters of a query text are its segments between `&` that are not empty,
hold no `;` and percent-decode without error; `url.Query` reads exactly
those. -/
theorem C2_tracking_removed_wellformed (u : Bytes) (p : URL) (r : URLProcessResponse)
    (hb : IsBytes u) (hp : Parse u = some p) (hr : ProcessURL (some ⟨u⟩) = .json 200 r) :
    r.Query = (filteredQuery p).Encode ∧ (cleanedURL p).RawQuery = r.Query ∧
    (cut r.CleanedURL [63]).2.1 = r.Query ∧
    (∀ k ∈ [bytes "utm_source", bytes "utm_medium", bytes "utm_campaign",
        bytes "utm_term", bytes "utm_content", bytes "fbclid", bytes "gclid", bytes "ref",
        bytes "source", bytes "campaign_id"],
      Values.lookup (filteredQuery p) k = none ∧ Values.lookup (ParseQuery r.Query) k = none ∧
        valuesOf k (inputParams r.Query) = []) ∧
    (∀ k, k ∉ [bytes "utm_source", bytes "utm_medium", bytes "utm_campaign",
        bytes "utm_term", bytes "utm_content", bytes "fbclid", bytes "gclid", bytes "ref",
        bytes "source", bytes "campaign_id"] →
      Values.lookup (filteredQuery p) k = Values.lookup p.Query k ∧
        Values.lookup (ParseQuery r.Query) k = Values.lookup p.Query k ∧
        valuesOf k (inputParams r.Query) = valuesOf k (inputParams p.RawQuery)) ∧
    (∀ k, (Values.lookup p.Query k).getD [] = valuesOf k (inputParams p.RawQuery)) ∧
    bytes "UTM_Source" ∉ [bytes "utm_source", bytes "utm_medium", bytes "utm_campaign",
        bytes "utm_term", bytes "utm_content", bytes "fbclid", bytes "gclid", bytes "ref",
        bytes "source", bytes "campaign_id"] := by
  have hok := Parse_ok u p hb hp
  have hu : u ≠ [] := by
    rintro rfl
    simp [ProcessURL] at hr
  rw [ProcessURL_ok u p hu hp] at hr
  simp only [Response.json.injEq, true_and] at hr
  have hrq : r.Query = (filteredQuery p).Encode := by rw [← hr]
  have hrc : r.CleanedURL = (cleanedURL p).String := by rw [← hr]
  rw [hrq, hrc]
  have hwf : Values.WF (filteredQuery p) :=
    Values.WF_foldl_Del _ _ (ParseQuery_WF _ hok.rawQuery)
  have hlook : ∀ k, Values.lookup (ParseQuery (filteredQuery p).Encode) k =
      Values.lookup (filteredQuery p) k := by
    intro k
    rw [ParseQuery_Encode _ hwf, Values.lookup_sorted]
  have hfil : ∀ k, Values.lookup (filteredQuery p) k =
      if k ∈ trackingParams then none else Values.lookup p.Query k :=
    fun k => Values.lookup_foldl_Del trackingParams _ k
  have hten : trackingParams = [bytes "utm_source", bytes "utm_medium", bytes "utm_campaign",
        bytes "utm_term", bytes "utm_content", bytes "fbclid", bytes "gclid", bytes "ref",
        bytes "source", bytes "campaign_id"] := rfl
  rw [← hten]
  refine ⟨rfl, by rw [cleanedURL_eq], ?_, ?_, ?_, fun k => ParseQuery_values _ k, by decide⟩
  · obtain ⟨base, hbase, hs⟩ := cleaned_String_decomp p hok.scheme
    have h63 : 63 ∉ base := fun h => by
      have := hbase 63 h
      omega
    rw [hs]
    split_ifs with hq
    · rw [cut_append 63 base _ h63]
    · rw [List.append_nil, cut_of_not_mem 63 base h63]
      simpa using hq
  · intro k hk
    have h1 : Values.lookup (filteredQuery p) k = none := by
      rw [hfil]
      simp [hk]
    refine ⟨h1, by rw [hlook, h1], ?_⟩
    rw [← ParseQuery_values, hlook, h1]
    rfl
  · intro k hk
    have h1 : Values.lookup (filteredQuery p) k = Values.lookup p.Query k := by
      rw [hfil]
      simp [hk]
    refine ⟨h1, by rw [hlook, h1], ?_⟩
    rw [← ParseQuery_values, ← ParseQuery_values, hlook, h1]
    rfl

/-- Witness for C2 (amended): tracking parameters removed, a malformed pair
dropped, the others kept in order. -/
theorem C2_tracking_removed_wellformed_witness :
    valuesOf (bytes "a") (inputParams (bytes "Ref=q&a=1&a=0")) =
      [bytes "1", bytes "0"] :=
  ((C2_tracking_removed_wellformed
    (bytes "http://h/p?a=1&ref=9&c=%zz&Ref=q&a=0")
    { Scheme := bytes "http", Host := bytes "h", Path := bytes "/p",
      RawQuery := bytes "a=1&ref=9&c=%zz&Ref=q&a=0" }
    { OriginalURL := bytes "http://h/p?a=1&ref=9&c=%zz&Ref=q&a=0"
      CleanedURL := bytes "http://h/p?Ref=q&a=1&a=0"
      Domain := bytes "h", Path := bytes "/p", Query := bytes "Ref=q&a=1&a=0" }
    (by decide) (by decide) (by decide)).2.2.2.2.1 (bytes "a") (by decide)).2.2.trans
    (by decide)

/-! ## Hosts: parsing the escaped host again -/

theorem unescape_host_cons (c : Nat) (s : Bytes) (hc : c ≠ 37) :
    unescape (c :: s) encodeHost =
      if c < 128 ∧ shouldEscape c encodeHost = true then none
      else (unescape s encodeHost).map (c :: ·) := by
  rw [unescape_cons_ne c s _ hc]
  by_cases h43 : c = 43
  · subst h43
    have : shouldEscape 43 encodeHost = false := by decide
    simp [this]
  · simp [h43]

theorem unescape_zone_cons (c : Nat) (s : Bytes) (hc : c ≠ 37) :
    unescape (c :: s) encodeZone =
      if c < 128 ∧ shouldEscape c encodeHost = true then none
      else (unescape s encodeZone).map (c :: ·) := by
  rw [unescape_cons_ne c s _ hc]
  by_cases h43 : c = 43
  · subst h43
    have : shouldEscape 43 encodeHost = false := by decide
    simp [this]
  · simp [h43]

theorem unescape_host_pct (a b : Nat) (rest : Bytes) :
    unescape (37 :: a :: b :: rest) encodeHost =
      if ishex a = true ∧ ishex b = true ∧ (8 ≤ unhex a ∨ (a = 50 ∧ b = 53)) then
        (unescape rest encodeHost).map ((unhex a * 16 + unhex b) :: ·)
      else none := by
  rw [unescape_pct]
  by_cases ha : ishex a = true <;> by_cases hb : ishex b = true <;> simp [ha, hb]
  by_cases h8 : 8 ≤ unhex a
  · simp [h8, Nat.not_lt.2 h8]
  · simp only [h8, false_or]
    by_cases e : a = 50 ∧ b = 53
    · simp [e]
    · have : ¬ (a = 50 ∧ b = 53) := e
      simp only [this, if_false]
      rw [if_pos]
      exact ⟨by omega, fun h1 h2 => e ⟨h1, h2⟩⟩

theorem unescape_zone_pct (a b : Nat) (rest : Bytes) :
    unescape (37 :: a :: b :: rest) encodeZone =
      if ishex a = true ∧ ishex b = true ∧
          ((a = 50 ∧ b = 53) ∨ unhex a * 16 + unhex b = 32 ∨
            shouldEscape (unhex a * 16 + unhex b) encodeHost = false) then
        (unescape rest encodeZone).map ((unhex a * 16 + unhex b) :: ·)
      else none := by
  rw [unescape_pct]
  by_cases ha : ishex a = true <;> by_cases hb : ishex b = true <;> simp [ha, hb]
  by_cases e : a = 50 ∧ b = 53
  · simp [e]
  · by_cases e32 : unhex a * 16 + unhex b = 32
    · simp [e32]
    · cases hs : shouldEscape (unhex a * 16 + unhex b) encodeHost
      · simp [e, e32, hs]
      · simp only [e, e32, hs, or_self, if_false]
        rw [if_pos]
        · simp
        · exact ⟨fun h1 h2 => e ⟨h1, h2⟩, by simp, trivial⟩

/-- A byte that is decoded as itself between two parts of a host text: the
parts are decoded on their own. -/
theorem unescape_split (s : Nat) (hs37 : s ≠ 37) (hhex : ishex s = false)
    (hkeep : shouldEscape s encodeHost = false) (A B h : Bytes)
    (hu : unescape (A ++ s :: B) encodeHost = some h) :
    ∃ hA hB, unescape A encodeHost = some hA ∧ unescape B encodeHost = some hB ∧
      h = hA ++ s :: hB := by
  induction A using unescape_tokens_induction generalizing h with
  | hnil =>
    rw [List.nil_append, unescape_host_cons s B hs37] at hu
    simp only [hkeep, Bool.false_eq_true, and_false, if_false, Option.map_eq_some'] at hu
    obtain ⟨hB, hB', rfl⟩ := hu
    exact ⟨[], hB, rfl, hB', rfl⟩
  | hpct a b rest ih =>
    rw [List.cons_append, List.cons_append, List.cons_append, unescape_host_pct] at hu
    rw [unescape_host_pct]
    split_ifs at hu ⊢ with h1
    simp only [Option.map_eq_some'] at hu
    obtain ⟨r, hr, rfl⟩ := hu
    obtain ⟨hA, hB, e1, e2, rfl⟩ := ih r hr
    exact ⟨_ :: hA, hB, by simp [e1], e2, rfl⟩
  | hshort1 =>
    exfalso
    cases B with
    | nil => simp [unescape_short2] at hu
    | cons b B' =>
      simp only [List.cons_append, List.nil_append, unescape_host_pct, hhex] at hu
      simp at hu
  | hshort2 a =>
    exfalso
    simp only [List.cons_append, List.nil_append, unescape_host_pct, hhex] at hu
    simp at hu
  | hother c A' hc ih =>
    rw [List.cons_append, unescape_host_cons c _ hc] at hu
    rw [unescape_host_cons c _ hc]
    split_ifs at hu ⊢ with h1
    simp only [Option.map_eq_some'] at hu
    obtain ⟨r, hr, rfl⟩ := hu
    obtain ⟨hA, hB, e1, e2, rfl⟩ := ih r hr
    exact ⟨_ :: hA, hB, by simp [e1], e2, rfl⟩

/-- What host-mode decoding yields: kept bytes, non-ASCII bytes and `%`. -/
theorem unescape_host_bytes (raw h : Bytes) (hraw : IsBytes raw)
    (hu : unescape raw encodeHost = some h) : HostBytes h := by
  induction raw using unescape_tokens_induction generalizing h with
  | hnil =>
    simp only [unescape, Option.some.injEq] at hu
    subst hu
    intro x hx
    cases hx
  | hpct a b rest ih =>
    rw [unescape_host_pct] at hu
    split_ifs at hu with h1
    simp only [Option.map_eq_some'] at hu
    obtain ⟨r, hr, rfl⟩ := hu
    have hrest : IsBytes rest := fun x hx => hraw x (by simp [hx])
    intro x hx
    rcases List.mem_cons.1 hx with rfl | hx
    · have ha := unhex_le a
      have hb := unhex_le b
      refine ⟨by omega, ?_⟩
      rcases h1.2.2 with h8 | ⟨rfl, rfl⟩
      · exact Or.inr (Or.inl (by omega))
      · exact Or.inr (Or.inr (by decide))
    · exact ih r hrest hr x hx
  | hshort1 => simp [unescape_short1] at hu
  | hshort2 a => simp [unescape_short2] at hu
  | hother c s hc ih =>
    rw [unescape_host_cons c s hc] at hu
    have hs' : IsBytes s := fun x hx => hraw x (by simp [hx])
    have hc256 : c < 256 := hraw c (by simp)
    split_ifs at hu with h1
    simp only [Option.map_eq_some'] at hu
    obtain ⟨r, hr, rfl⟩ := hu
    intro x hx
    rcases List.mem_cons.1 hx with rfl | hx
    · refine ⟨hc256, ?_⟩
      by_cases h128 : x < 128
      · left
        cases hse : shouldEscape x encodeHost
        · rfl
        · exact absurd ⟨h128, hse⟩ h1
      · exact Or.inr (Or.inl (by omega))
    · exact ih r hs' hr x hx

/-- What zone-mode decoding yields: kept bytes, `%`, spaces and non-ASCII
bytes. -/
theorem unescape_zone_bytes (raw z : Bytes) (hu : unescape raw encodeZone = some z) :
    ∀ x ∈ z, shouldEscape x encodeHost = false ∨ x = 37 ∨ x = 32 ∨ 128 ≤ x := by
  induction raw using unescape_tokens_induction generalizing z with
  | hnil =>
    simp only [unescape, Option.some.injEq] at hu
    subst hu
    intro x hx
    cases hx
  | hpct a b rest ih =>
    rw [unescape_zone_pct] at hu
    split_ifs at hu with h1
    simp only [Option.map_eq_some'] at hu
    obtain ⟨r, hr, rfl⟩ := hu
    intro x hx
    rcases List.mem_cons.1 hx with rfl | hx
    · rcases h1.2.2 with ⟨rfl, rfl⟩ | h | h
      · exact Or.inr (Or.inl (by decide))
      · exact Or.inr (Or.inr (Or.inl h))
      · exact Or.inl h
    · exact ih r hr x hx
  | hshort1 => simp [unescape_short1] at hu
  | hshort2 a => simp [unescape_short2] at hu
  | hother c s hc ih =>
    rw [unescape_zone_cons c s hc] at hu
    split_ifs at hu with h1
    simp only [Option.map_eq_some'] at hu
    obtain ⟨r, hr, rfl⟩ := hu
    intro x hx
    rcases List.mem_cons.1 hx with rfl | hx
    · by_cases h128 : x < 128
      · left
        cases hse : shouldEscape x encodeHost
        · rfl
        · exact absurd ⟨h128, hse⟩ h1
      · exact Or.inr (Or.inr (Or.inr (by omega)))
    · exact ih r hr x hx

theorem escape_pct (x : Nat) (m : Encoding) (hx : shouldEscape x m = true)
    (h32 : ¬ (x = 32 ∧ m = encodeQueryComponent)) :
    escape [x] m = [37, upperhex (x / 16 % 16), upperhex (x % 16)] := by
  simp [escape, hx, h32]

/-- In host mode `unescape` undoes `escape` on a decoded host. -/
theorem unescape_escape_host (h : Bytes) (hh : HostBytes h) :
    unescape (escape h encodeHost) encodeHost = some h := by
  induction h with
  | nil => rfl
  | cons x t ih =>
    have ht : HostBytes t := fun b hb => hh b (by simp [hb])
    obtain ⟨hx256, hx⟩ := hh x (by simp)
    rw [escape_cons]
    cases hse : shouldEscape x encodeHost
    · rw [escape_single_keep x _ hse]
      have hp := shouldEscape_false_printable x _ hse
      rw [List.singleton_append, unescape_host_cons x _ hp.2.2.2]
      simp [hse, ih ht]
    · rw [escape_pct x _ hse (by simp)]
      have hdiv : x / 16 % 16 = x / 16 := Nat.mod_eq_of_lt (by omega)
      have e1 := unhex_upperhex (x / 16) (by omega)
      have e2 := unhex_upperhex (x % 16) (Nat.mod_lt _ (by norm_num))
      have i1 := ishex_upperhex (x / 16) (by omega)
      have i2 := ishex_upperhex (x % 16) (Nat.mod_lt _ (by norm_num))
      have hv : x / 16 * 16 + x % 16 = x := by omega
      rw [hdiv]
      simp only [List.cons_append, List.nil_append, unescape_host_pct, e1, e2, i1, i2, hv, ih ht,
        true_and]
      rw [if_pos]
      · rfl
      · rcases hx with hx | hx | hx
        · rw [hse] at hx
          cases hx
        · exact Or.inl (by omega)
        · subst hx
          exact Or.inr (by decide)

/-- In zone mode `unescape` undoes the host-mode `escape` on an ASCII zone. -/
theorem unescape_escape_zone (z : Bytes) (hz : ZoneBytes z) :
    unescape (escape z encodeHost) encodeZone = some z := by
  induction z with
  | nil => rfl
  | cons x t ih =>
    have ht : ZoneBytes t := fun b hb => hz b (by simp [hb])
    have hx := hz x (by simp)
    rw [escape_cons]
    cases hse : shouldEscape x encodeHost
    · rw [escape_single_keep x _ hse]
      have hp := shouldEscape_false_printable x _ hse
      rw [List.singleton_append, unescape_zone_cons x _ hp.2.2.2]
      simp [hse, ih ht]
    · rw [escape_pct x _ hse (by simp)]
      rcases hx with hx | hx | hx
      · rw [hse] at hx
        cases hx
      · subst hx
        have : unescape (escape t encodeHost) encodeZone = some t := ih ht
        simp [unescape_zone_pct, this, upperhex, ishex, unhex]
      · subst hx
        have : unescape (escape t encodeHost) encodeZone = some t := ih ht
        simp [unescape_zone_pct, this, upperhex, ishex, unhex]

theorem index_cons_none (c : Nat) (t sub : Bytes) (h : index (c :: t) sub = none) :
    index t sub = none ∧ sub.isPrefixOf (c :: t) = false := by
  rw [index] at h
  split_ifs at h with h1
  simp only [Option.map_eq_none'] at h
  exact ⟨h, Bool.eq_false_iff.2 h1⟩

/-- A host text without `%25` decodes to a host without `%`. -/
theorem unescape_host_no_pct (raw h : Bytes) (hi : index raw [37, 50, 53] = none)
    (hu : unescape raw encodeHost = some h) : 37 ∉ h := by
  induction raw using unescape_tokens_induction generalizing h with
  | hnil =>
    simp only [unescape, Option.some.injEq] at hu
    subst hu
    simp
  | hpct a b rest ih =>
    rw [unescape_host_pct] at hu
    split_ifs at hu with h1
    simp only [Option.map_eq_some'] at hu
    obtain ⟨r, hr, rfl⟩ := hu
    obtain ⟨hi1, hp⟩ := index_cons_none _ _ _ hi
    obtain ⟨hi2, _⟩ := index_cons_none _ _ _ hi1
    obtain ⟨hi3, _⟩ := index_cons_none _ _ _ hi2
    intro hm
    rcases List.mem_cons.1 hm with hm | hm
    · rcases h1.2.2 with h8 | ⟨rfl, rfl⟩
      · have := unhex_le b
        omega
      · simp [List.isPrefixOf] at hp
    · exact ih r hi3 hr hm
  | hshort1 => simp [unescape_short1] at hu
  | hshort2 a => simp [unescape_short2] at hu
  | hother c s hc ih =>
    rw [unescape_host_cons c s hc] at hu
    split_ifs at hu with h1
    simp only [Option.map_eq_some'] at hu
    obtain ⟨r, hr, rfl⟩ := hu
    obtain ⟨hi1, _⟩ := index_cons_none _ _ _ hi
    intro hm
    rcases List.mem_cons.1 hm with hm | hm
    · exact hc hm.symm
    · exact ih r hi1 hr hm

/-- An ASCII byte other than `%` that the host text lacks is not in the decoded
host. -/
theorem unescape_host_not_mem (s : Nat) (hs : s < 128) (hs37 : s ≠ 37) (raw h : Bytes)
    (hn : s ∉ raw) (hu : unescape raw encodeHost = some h) : s ∉ h := by
  induction raw using unescape_tokens_induction generalizing h with
  | hnil =>
    simp only [unescape, Option.some.injEq] at hu
    subst hu
    simp
  | hpct a b rest ih =>
    rw [unescape_host_pct] at hu
    split_ifs at hu with h1
    simp only [Option.map_eq_some'] at hu
    obtain ⟨r, hr, rfl⟩ := hu
    intro hm
    rcases List.mem_cons.1 hm with hm | hm
    · rcases h1.2.2 with h8 | ⟨rfl, rfl⟩
      · have := unhex_le b
        omega
      · exact hs37 (by rw [hm]; decide)
    · exact ih r (fun h' => hn (by simp [h'])) hr hm
  | hshort1 => simp [unescape_short1] at hu
  | hshort2 a => simp [unescape_short2] at hu
  | hother c t hc ih =>
    rw [unescape_host_cons c t hc] at hu
    split_ifs at hu with h1
    simp only [Option.map_eq_some'] at hu
    obtain ⟨r, hr, rfl⟩ := hu
    intro hm
    rcases List.mem_cons.1 hm with hm | hm
    · exact hn (by simp [hm])
    · exact ih r (fun h' => hn (by simp [h'])) hr hm

/-- The escaped text of a host without `%` does not contain `%25`, and a `%25`
written after it is the first one. -/
theorem index_pct25_escape (h rest : Bytes) (hh : HostBytes h) (h37 : 37 ∉ h) :
    index (escape h encodeHost) [37, 50, 53] = none ∧
      index (escape h encodeHost ++ 37 :: 50 :: 53 :: rest) [37, 50, 53] =
        some (escape h encodeHost).length := by
  induction h with
  | nil => simp [escape, index, List.isPrefixOf]
  | cons x t ih =>
    have ht : HostBytes t := fun b hb => hh b (by simp [hb])
    have ht37 : 37 ∉ t := fun hm => h37 (by simp [hm])
    have hx37 : x ≠ 37 := fun e => h37 (by simp [e])
    obtain ⟨hx256, hx⟩ := hh x (by simp)
    obtain ⟨ih1, ih2⟩ := ih ht ht37
    rw [escape_cons]
    cases hse : shouldEscape x encodeHost
    · rw [escape_single_keep x _ hse]
      simp only [List.singleton_append, List.cons_append, index, List.isPrefixOf, ih1, ih2]
      simp [hx37, Ne.symm hx37]
      exact ⟨ih1, ih2⟩
    · rw [escape_pct x _ hse (by simp)]
      have h128 : 128 ≤ x := by
        rcases hx with hx | hx | hx
        · rw [hse] at hx
          cases hx
        · exact hx
        · exact absurd hx hx37
      have hdiv : x / 16 % 16 = x / 16 := Nat.mod_eq_of_lt (by omega)
      have hu1 : upperhex (x / 16) ≠ 50 ∧ upperhex (x / 16) ≠ 37 := by
        unfold upperhex
        split_ifs <;> omega
      have hu2 : upperhex (x % 16) ≠ 37 := by
        unfold upperhex
        split_ifs <;> omega
      rw [hdiv]
      simp only [List.cons_append, List.nil_append, index, List.isPrefixOf, ih1, ih2]
      simp [hu1.1, hu1.2, hu2, Ne.symm hu1.1, Ne.symm hu1.2, Ne.symm hu2]
      exact ⟨ih1, ih2⟩

/-- The first `%25` of a text: it is there, and not before. -/
theorem index_some_take (s sub : Bytes) (z : Nat) (hsub : sub ≠ [])
    (h : index s sub = some z) :
    index (s.take z) sub = none ∧ sub.isPrefixOf (s.drop z) = true ∧ z ≤ s.length := by
  induction s generalizing z with
  | nil =>
    simp [index, hsub] at h
  | cons c t ih =>
    rw [index] at h
    split_ifs at h with h1
    · simp only [Option.some.injEq] at h
      subst h
      simp [index, hsub, h1]
    · simp only [Option.map_eq_some'] at h
      obtain ⟨z', hz', rfl⟩ := h
      obtain ⟨e1, e2, e3⟩ := ih z' hz'
      refine ⟨?_, by simpa using e2, by simp; omega⟩
      rw [List.take_succ_cons, index, e1]
      rw [if_neg]
      · rfl
      · intro hp
        apply h1
        rw [List.isPrefixOf_iff_prefix] at hp ⊢
        exact hp.trans ((List.prefix_cons_inj c).2 (List.take_prefix z' t))

/-- A text of bytes that a host keeps decodes to itself. -/
theorem unescape_keep_host (t : Bytes) (ht : ∀ c ∈ t, shouldEscape c encodeHost = false) :
    unescape t encodeHost = some t := by
  induction t with
  | nil => rfl
  | cons c s ih =>
    have hc := ht c (by simp)
    have hp := shouldEscape_false_printable c _ hc
    rw [unescape_host_cons c s hp.2.2.2, ih fun x hx => ht x (by simp [hx])]
    simp [hc]

theorem port_bytes (P : Bytes) (h : validOptionalPort P = true) :
    ∀ c ∈ P, c = 58 ∨ (48 ≤ c ∧ c ≤ 57) := by
  cases P with
  | nil => simp
  | cons a D =>
    simp only [validOptionalPort, Bool.and_eq_true, beq_iff_eq, List.all_eq_true,
      decide_eq_true_eq] at h
    intro c hc
    rcases List.mem_cons.1 hc with rfl | hc
    · exact Or.inl h.1
    · exact Or.inr (h.2 c hc)

theorem port_keep (P : Bytes) (h : validOptionalPort P = true) :
    ∀ c ∈ P, shouldEscape c encodeHost = false := by
  intro c hc
  rcases port_bytes P h c hc with rfl | h1
  · decide
  · simp [shouldEscape, isAlnum]
    omega

theorem port_no_bracket (P : Bytes) (h : validOptionalPort P = true) : 93 ∉ P := by
  intro hm
  have := port_bytes P h 93 hm
  omega

theorem cons_keep (s : Nat) (P : Bytes) (hs : shouldEscape s encodeHost = false)
    (hP : ∀ c ∈ P, shouldEscape c encodeHost = false) :
    ∀ c ∈ s :: P, shouldEscape c encodeHost = false := by
  intro c hc
  rcases List.mem_cons.1 hc with rfl | hc
  · exact hs
  · exact hP c hc

/-! ### What `parseHost` computes on each shape of host text -/

theorem parseHost_bracket (T P : Bytes) (hP : 93 ∉ P) :
    parseHost (91 :: T ++ 93 :: P) =
      if validOptionalPort P = true then
        match index (91 :: T) [37, 50, 53] with
        | some zone =>
          (unescape ((91 :: T).take zone) encodeHost).bind fun host1 =>
          (unescape ((91 :: T).drop zone) encodeZone).bind fun host2 =>
          (unescape (93 :: P) encodeHost).bind fun host3 =>
          some (host1 ++ host2 ++ host3)
        | none => unescape (91 :: T ++ 93 :: P) encodeHost
      else none := by
  have hl : lastIndex (91 :: T ++ 93 :: P) [93] = some (91 :: T).length :=
    lastIndex_single_append 93 (91 :: T) P hP
  have hpre : hasPrefix (91 :: T ++ 93 :: P) [91] = true := by
    simp [hasPrefix]
  have e1 : (91 :: T ++ 93 :: P).drop ((91 :: T).length + 1) = P :=
    drop_length_succ_append (91 :: T) 93 P
  have e2 : (91 :: T ++ 93 :: P).take (91 :: T).length = 91 :: T :=
    take_length_append (91 :: T) (93 :: P)
  have e3 : (91 :: T ++ 93 :: P).drop (91 :: T).length = 93 :: P := by
    rw [List.drop_left']
    rfl
  unfold parseHost
  rw [if_pos hpre]
  simp only [hl, e1, e2, e3]
  by_cases hv : validOptionalPort P = true
  · simp only [hv, Bool.not_true, Bool.false_eq_true, if_false, if_true]
    cases hz : index (91 :: T) [37, 50, 53] with
    | none => rfl
    | some zone =>
      simp only []
      have hzl : zone ≤ (91 :: T).length := (index_some_take _ _ _ (by simp) hz).2.2
      rw [List.take_append_of_le_length hzl]
  · simp [hv]

theorem parseHost_port (T D : Bytes) (hT : T.head? ≠ some 91) (hD : 58 ∉ D) :
    parseHost (T ++ 58 :: D) =
      if validOptionalPort (58 :: D) = true then unescape (T ++ 58 :: D) encodeHost else none := by
  have hl : lastIndex (T ++ 58 :: D) [58] = some T.length := lastIndex_single_append 58 T D hD
  have hpre : hasPrefix (T ++ 58 :: D) [91] = false := by
    rw [Bool.eq_false_iff, Ne, hasPrefix_single]
    cases T with
    | nil => simp
    | cons a t => simpa using hT
  have e3 : (T ++ 58 :: D).drop T.length = 58 :: D := by
    rw [List.drop_left']
    rfl
  unfold parseHost
  simp only [hpre, Bool.false_eq_true, if_false, hl, e3]
  by_cases hv : validOptionalPort (58 :: D) = true <;> simp [hv]

theorem parseHost_noport (T : Bytes) (hT : T.head? ≠ some 91) (h58 : 58 ∉ T) :
    parseHost T = unescape T encodeHost := by
  have hpre : hasPrefix T [91] = false := by
    rw [Bool.eq_false_iff, Ne, hasPrefix_single]
    exact hT
  unfold parseHost
  simp only [hpre, Bool.false_eq_true, if_false, lastIndex_single_of_not_mem 58 T h58]

theorem head_unescape_host (raw h : Bytes) (hu : unescape raw encodeHost = some h)
    (hr : raw.head? ≠ some 91) : h.head? ≠ some 91 := by
  rcases raw with _ | ⟨c, s⟩
  · simp only [unescape, Option.some.injEq] at hu
    subst hu
    simp
  · by_cases hc : c = 37
    · subst hc
      rcases s with _ | ⟨a, _ | ⟨b, rest⟩⟩
      · simp [unescape_short1] at hu
      · simp [unescape_short2] at hu
      · rw [unescape_host_pct] at hu
        split_ifs at hu with h1
        simp only [Option.map_eq_some'] at hu
        obtain ⟨r, _, rfl⟩ := hu
        simp only [List.head?_cons, ne_eq, Option.some.injEq]
        rcases h1.2.2 with h8 | ⟨rfl, rfl⟩
        · have := unhex_le b
          omega
        · decide
    · rw [unescape_host_cons c s hc] at hu
      split_ifs at hu with h1
      simp only [Option.map_eq_some'] at hu
      obtain ⟨r, _, rfl⟩ := hu
      simpa using hr

theorem head_escape_host (h : Bytes) (hh : h.head? ≠ some 91) :
    (escape h encodeHost).head? ≠ some 91 := by
  cases h with
  | nil => simp [escape]
  | cons x t =>
    rw [escape_cons]
    cases hse : shouldEscape x encodeHost
    · rw [escape_single_keep x _ hse]
      simpa using hh
    · rw [escape_pct x _ hse (by simp)]
      simp

theorem dropWhile_pct (h1 rest : Bytes) (h37 : 37 ∉ h1) :
    (h1 ++ 37 :: rest).dropWhile (fun x => x != 37) = 37 :: rest := by
  induction h1 with
  | nil => simp [List.dropWhile]
  | cons a t ih =>
    have ha : a ≠ 37 := fun e => h37 (by simp [e])
    have ht : 37 ∉ t := fun e => h37 (by simp [e])
    rw [List.cons_append, List.dropWhile_cons, if_pos (by simpa using ha)]
    exact ih ht

theorem not_mem_escape_of_not_mem (s : Nat) (h : Bytes) (hs : s = 58 ∨ s = 93) (hn : s ∉ h) :
    s ∉ escape h encodeHost := by
  intro hm
  rcases mem_escape s h _ hm with ⟨h1, _⟩ | h1 | ⟨h1, _⟩ | h1 | h1
  · exact hn h1
  all_goals omega

/-- The escaped text of a host that `parseHost` returned parses to the same
host, provided a zone, if there is one, is ASCII. -/
theorem parseHost_roundtrip (raw h : Bytes) (hraw : IsBytes raw) (hp : parseHost raw = some h)
    (hz : ZoneASCII h) : parseHost (escape h encodeHost) = some h := by
  have k93 : shouldEscape 93 encodeHost = false := by decide
  have k58 : shouldEscape 58 encodeHost = false := by decide
  have k91 : shouldEscape 91 encodeHost = false := by decide
  by_cases hb : hasPrefix raw [91] = true
  · -- an IP literal
    cases hl : lastIndex raw [93] with
    | none => simp [parseHost, hb, hl] at hp
    | some i =>
      obtain ⟨X, P, rfl, hP93, _⟩ := lastIndex_single_some 93 raw i hl
      obtain ⟨X', rfl⟩ : ∃ X', X = 91 :: X' := by
        cases X with
        | nil => simp [hasPrefix] at hb
        | cons a t =>
          simp [hasPrefix] at hb
          exact ⟨t, by rw [hb]⟩
      rw [parseHost_bracket X' P hP93] at hp
      split_ifs at hp with hv
      have hPkeep := port_keep P hv
      have h3 : unescape (93 :: P) encodeHost = some (93 :: P) :=
        unescape_keep_host _ (cons_keep 93 P k93 hPkeep)
      have e3 : escape (93 :: P) encodeHost = 93 :: P :=
        escape_keep _ _ (cons_keep 93 P k93 hPkeep)
      cases hzi : index (91 :: X') [37, 50, 53] with
      | none =>
        simp only [hzi] at hp
        obtain ⟨hX, hP', e1, e2, rfl⟩ := unescape_split 93 (by norm_num) (by decide) k93 _ _ _ hp
        have hPeq : P = hP' := by
          have := unescape_keep_host P hPkeep
          rw [e2] at this
          exact (Option.some.inj this).symm
        subst hPeq
        obtain ⟨hX', rfl⟩ : ∃ t, hX = 91 :: t := by
          rw [unescape_host_cons 91 X' (by norm_num)] at e1
          simp only [k91, Bool.false_eq_true, and_false, if_false, Option.map_eq_some'] at e1
          obtain ⟨t, _, rfl⟩ := e1
          exact ⟨t, rfl⟩
        have hXb : HostBytes (91 :: hX') :=
          unescape_host_bytes _ _ (fun b hb => hraw b (by
            simp only [List.cons_append, List.mem_cons, List.mem_append] at hb ⊢
            tauto)) e1
        have h37 : 37 ∉ (91 :: hX') := unescape_host_no_pct _ _ hzi e1
        have hidx := (index_pct25_escape (91 :: hX') [] hXb h37).1
        have hE : escape (91 :: hX' ++ 93 :: P) encodeHost =
            91 :: (escape hX' encodeHost) ++ 93 :: P := by
          rw [escape_append, e3, escape_cons, escape_single_keep 91 _ k91]
          rfl
        have hE' : escape (91 :: hX') encodeHost = 91 :: escape hX' encodeHost := by
          rw [escape_cons, escape_single_keep 91 _ k91]
          rfl
        rw [hE, parseHost_bracket _ P hP93, if_pos hv, ← hE', hidx]
        simp only []
        rw [hE', ← hE]
        refine unescape_escape_host _ ?_
        intro x hx
        rcases List.mem_append.1 hx with hx | hx
        · exact hXb x hx
        · have := cons_keep 93 P k93 hPkeep x hx
          have hp' := shouldEscape_false_printable x _ this
          exact ⟨by omega, Or.inl this⟩
      | some zone =>
        simp only [hzi, Option.bind_eq_some] at hp
        obtain ⟨h1, e1, h2, e2, h3', e3', hh⟩ := hp
        rw [h3] at e3'
        simp only [Option.some.injEq] at e3' hh
        subst e3'
        subst hh
        obtain ⟨hi1, hi2, hi3⟩ := index_some_take _ _ _ (by simp) hzi
        -- the zone starts with %25
        obtain ⟨Z, hZ⟩ : ∃ Z, (91 :: X').drop zone = 37 :: 50 :: 53 :: Z := by
          rw [List.isPrefixOf_iff_prefix] at hi2
          obtain ⟨Z, hZ⟩ := hi2
          exact ⟨Z, hZ.symm⟩
        obtain ⟨h2', rfl, e2'⟩ : ∃ t, h2 = 37 :: t ∧ unescape Z encodeZone = some t := by
          rw [hZ, unescape_zone_pct] at e2
          split_ifs at e2 with hc
          simp only [Option.map_eq_some'] at e2
          obtain ⟨t, ht, rfl⟩ := e2
          exact ⟨t, by rw [show unhex 50 * 16 + unhex 53 = 37 by decide], ht⟩
        -- the part before the zone starts with the bracket
        have hzpos : zone ≠ 0 := by
          rintro rfl
          simp at hZ
        obtain ⟨zone', rfl⟩ : ∃ z', zone = z' + 1 := ⟨zone - 1, by omega⟩
        rw [List.take_succ_cons, unescape_host_cons 91 _ (by norm_num)] at e1
        simp only [k91, Bool.false_eq_true, and_false, if_false, Option.map_eq_some'] at e1
        obtain ⟨h1', e1', rfl⟩ := e1
        have e1 : unescape (91 :: List.take zone' X') encodeHost = some (91 :: h1') := by
          rw [unescape_host_cons 91 _ (by norm_num)]
          simp [k91, e1']
        have hb1 : HostBytes (91 :: h1') :=
          unescape_host_bytes _ _ (fun b hb => hraw b (by
            have : b ∈ 91 :: X' := by
              rcases List.mem_cons.1 hb with hb | hb
              · simp [hb]
              · exact List.mem_cons_of_mem _ (List.mem_of_mem_take hb)
            simp only [List.cons_append, List.mem_cons, List.mem_append] at this ⊢
            tauto)) e1
        have h37 : 37 ∉ (91 :: h1') := by
          rw [List.take_succ_cons] at hi1
          exact unescape_host_no_pct _ _ hi1 e1
        have hzb : ZoneBytes (37 :: h2') := by
          have hall := unescape_zone_bytes _ _ e2
          have hasc : ∀ b ∈ 37 :: h2', b < 128 := by
            have := hz (by simp [hasPrefix])
            rw [show 91 :: h1' ++ 37 :: h2' ++ 93 :: P = (91 :: h1') ++ 37 :: (h2' ++ 93 :: P) by
              simp, dropWhile_pct _ _ h37] at this
            intro b hb
            exact this b (by
              simp only [List.mem_cons, List.mem_append] at hb ⊢
              tauto)
          intro x hx
          have h128 := hasc x hx
          rcases hall x hx with h | h | h | h
          · exact Or.inl h
          · exact Or.inr (Or.inl h)
          · exact Or.inr (Or.inr h)
          · omega
        have hE1 : escape (91 :: h1') encodeHost = 91 :: escape h1' encodeHost := by
          rw [escape_cons, escape_single_keep 91 _ k91]
          rfl
        have hE2 : escape (37 :: h2') encodeHost = 37 :: 50 :: 53 :: escape h2' encodeHost := by
          rw [escape_cons, escape_pct 37 _ (by decide) (by simp)]
          rfl
        have hE : escape (91 :: h1' ++ 37 :: h2' ++ 93 :: P) encodeHost =
            91 :: (escape h1' encodeHost ++ 37 :: 50 :: 53 :: escape h2' encodeHost) ++ 93 :: P := by
          rw [escape_append, escape_append, e3, hE1, hE2]
          simp
        have hidx := (index_pct25_escape (91 :: h1') (escape h2' encodeHost) hb1 h37).2
        rw [hE1] at hidx
        rw [hE, parseHost_bracket _ P hP93, if_pos hv]
        simp only [List.cons_append] at hidx
        simp only [hidx, List.length_cons]
        have t1 : List.take ((escape h1' encodeHost).length + 1)
            (91 :: (escape h1' encodeHost ++ 37 :: 50 :: 53 :: escape h2' encodeHost)) =
            escape (91 :: h1') encodeHost := by
          rw [hE1, List.take_succ_cons, take_length_append]
        have t2 : List.drop ((escape h1' encodeHost).length + 1)
            (91 :: (escape h1' encodeHost ++ 37 :: 50 :: 53 :: escape h2' encodeHost)) =
            escape (37 :: h2') encodeHost := by
          rw [hE2, List.drop_succ_cons, List.drop_left']
          rfl
        rw [t1, t2, unescape_escape_host _ hb1, unescape_escape_zone _ hzb, h3]
        rfl
  · -- a registered name or an IPv4 address
    have hb' : raw.head? ≠ some 91 := fun e => hb ((hasPrefix_single 91 raw).2 e)
    cases hl : lastIndex raw [58] with
    | none =>
      have h58 : 58 ∉ raw := lastIndex_single_eq_none 58 raw hl
      rw [parseHost_noport raw hb' h58] at hp
      have hh := head_unescape_host raw h hp hb'
      have hn := unescape_host_not_mem 58 (by norm_num) (by norm_num) raw h h58 hp
      rw [parseHost_noport _ (head_escape_host h hh)
        (not_mem_escape_of_not_mem 58 h (Or.inl rfl) hn)]
      exact unescape_escape_host h (unescape_host_bytes raw h hraw hp)
    | some i =>
      obtain ⟨X, D, rfl, hD, _⟩ := lastIndex_single_some 58 raw i hl
      have hX : X.head? ≠ some 91 := by
        cases X with
        | nil => simp
        | cons a t => simpa using hb'
      rw [parseHost_port X D hX hD] at hp
      split_ifs at hp with hv
      have hh := head_unescape_host _ h hp hb'
      have hhb := unescape_host_bytes _ h hraw hp
      obtain ⟨hX', hD', e1, e2, rfl⟩ := unescape_split 58 (by norm_num) (by decide) k58 _ _ _ hp
      have hDkeep : ∀ c ∈ D, shouldEscape c encodeHost = false :=
        fun c hc => port_keep (58 :: D) hv c (List.mem_cons_of_mem _ hc)
      have hDeq : D = hD' := by
        have := unescape_keep_host D hDkeep
        rw [e2] at this
        exact (Option.some.inj this).symm
      subst hDeq
      have hE : escape (hX' ++ 58 :: D) encodeHost = escape hX' encodeHost ++ 58 :: D := by
        rw [escape_append, escape_keep (58 :: D) _ (cons_keep 58 D k58 hDkeep)]
      have hXh : (escape hX' encodeHost).head? ≠ some 91 := by
        apply head_escape_host
        cases hX' with
        | nil => simp
        | cons a t => simpa using hh
      rw [hE, parseHost_port _ D hXh hD, if_pos hv, ← hE]
      exact unescape_escape_host _ hhb

/-! ## Parsing the cleaned URL again -/

theorem Parse_no_fragment (c : Bytes) (h35 : 35 ∉ c) : Parse c = parse c false := by
  unfold Parse
  rw [cut_of_not_mem 35 c h35]
  cases parse c false <;> simp

theorem no_CTL (c : Bytes) (hc : ∀ b ∈ c, 33 ≤ b ∧ b ≤ 126) : stringContainsCTLByte c = false := by
  unfold stringContainsCTLByte
  rw [Bool.eq_false_iff, Ne, List.any_eq_true]
  rintro ⟨b, hb, h⟩
  have := hc b hb
  simp at h
  omega

theorem hasSuffix_query_false (R q : Bytes) (hR : 63 ∉ R) (hq : 63 ∉ q) :
    hasSuffix (R ++ (if q ≠ [] then 63 :: q else [])) [63] = false := by
  rw [Bool.eq_false_iff, Ne, hasSuffix_single]
  rintro ⟨t, ht⟩
  have hmem : 63 ∈ R ++ (if q ≠ [] then 63 :: q else []) := by
    rw [ht]
    simp
  by_cases hqe : q = []
  · simp [hqe] at hmem
    exact hR hmem
  · rw [if_pos hqe] at ht
    rcases List.eq_nil_or_concat q with h | ⟨q', x, hx⟩
    · exact hqe h
    · rw [hx] at ht
      have e : (R ++ 63 :: q') ++ [x] = t ++ [63] := by
        rw [← ht]
        simp
      have := List.append_inj_right' e rfl
      simp only [List.cons.injEq, and_true] at this
      exact hq (by rw [hx, this]; simp)

theorem cut_query (R q : Bytes) (hR : 63 ∉ R) :
    (cut (R ++ (if q ≠ [] then 63 :: q else [])) [63]).1 = R ∧
      (cut (R ++ (if q ≠ [] then 63 :: q else [])) [63]).2.1 = q := by
  by_cases hqe : q = []
  · subst hqe
    simp [cut_of_not_mem 63 R hR]
  · rw [if_pos hqe, cut_append 63 R q hR]
    exact ⟨rfl, rfl⟩

/-- The first half of `parse` on a text whose scheme and query are known. -/
theorem parse_step (c sch R q : Bytes) (hctl : ∀ b ∈ c, 33 ≤ b ∧ b ≤ 126) (hstar : c ≠ [42])
    (hg : getScheme c = some (sch, R ++ (if q ≠ [] then 63 :: q else [])))
    (hR : 63 ∉ R) (hq : 63 ∉ q) :
    parse c false =
      parseAfterQuery { Scheme := toLower sch, ForceQuery := false, RawQuery := q } R false := by
  unfold parse
  rw [no_CTL c hctl]
  simp only [Bool.false_eq_true, if_false, and_false, hstar, hg]
  rw [hasSuffix_query_false R q hR hq]
  simp only [Bool.false_and, Bool.false_eq_true, if_false]
  rw [(cut_query R q hR).1, (cut_query R q hR).2]

theorem parseAuthority_host_only (E h : Bytes) (h64 : 64 ∉ E) (hh : parseHost E = some h) :
    parseAuthority E = some (none, h) := by
  unfold parseAuthority
  simp only [lastIndex_single_of_not_mem 64 E h64, hh]

theorem setPath_escape (u : URL) (path : Bytes) (hp : IsBytes path) :
    URL.setPath u (escape path encodePath) = some { u with Path := path, RawPath := [] } := by
  unfold URL.setPath
  rw [unescape_escape path _ (Or.inl rfl) hp]
  simp

theorem hasPrefix_cons (c : Nat) (t pre : Bytes) :
    hasPrefix (c :: t) (c :: pre) = hasPrefix t pre := by
  simp [hasPrefix, List.isPrefixOf]

/-- `parseAfterQuery` on `//` followed by a host text and a rooted path
text. -/
theorem parseAfterQuery_authority (url : URL) (E P h : Bytes) (hE47 : 47 ∉ E)
    (hauth : parseAuthority E = some (none, h)) (hP : P = [] ∨ ∃ P', P = 47 :: P')
    (hcond : url.Scheme ≠ [] ∨ E ≠ []) :
    parseAfterQuery url (47 :: 47 :: (E ++ P)) false =
      URL.setPath { url with User := none, Host := h } P := by
  have h1 : hasPrefix (47 :: 47 :: (E ++ P)) [47] = true := by simp [hasPrefix]
  have h2 : hasPrefix (47 :: 47 :: (E ++ P)) [47, 47] = true := by simp [hasPrefix]
  have h3 : url.Scheme ≠ [] ∨ hasPrefix (47 :: 47 :: (E ++ P)) [47, 47, 47] = false := by
    rcases hcond with hc | hc
    · exact Or.inl hc
    · right
      cases E with
      | nil => exact absurd rfl hc
      | cons e E' =>
        have : e ≠ 47 := fun e' => hE47 (by simp [e'])
        simp [hasPrefix, List.isPrefixOf, this, Ne.symm this]
  unfold parseAfterQuery
  simp only [h1, Bool.not_true, Bool.false_eq_true, false_and, if_false, h2, and_true,
    List.drop_succ_cons, List.drop_zero, true_and]
  rw [if_pos]
  · rcases hP with rfl | ⟨P', rfl⟩
    · simp only [List.append_nil, index_single_of_not_mem 47 E hE47, hauth]
    · have e1 : List.drop E.length (E ++ 47 :: P') = 47 :: P' := by
        rw [List.drop_left']
        rfl
      simp only [index_single_append 47 E P' hE47, take_length_append, e1, hauth]
  · rcases h3 with h3 | h3
    · exact Or.inl h3
    · exact Or.inr (by simp [h3])

theorem EscapedPath_plain (s h path q : Bytes) :
    (plainURL s h path q).EscapedPath = if path = [42] then [42] else escape path encodePath := by
  simp [URL.EscapedPath, plainURL]

theorem escape_rooted (path : Bytes) (m : Encoding) (hm : shouldEscape 47 m = false)
    (hp : path = [] ∨ path.head? = some 47) :
    escape path m = [] ∨ ∃ t, escape path m = 47 :: t := by
  rcases hp with rfl | hp
  · exact Or.inl rfl
  · cases path with
    | nil => simp at hp
    | cons a t =>
      simp only [List.head?_cons, Option.some.injEq] at hp
      subst hp
      right
      rw [escape_cons, escape_single_keep 47 m hm]
      exact ⟨_, rfl⟩

theorem escape_eq_nil (path : Bytes) (m : Encoding) : escape path m = [] ↔ path = [] := by
  constructor
  · intro h
    cases path with
    | nil => rfl
    | cons a t =>
      exfalso
      rw [escape_cons] at h
      have h1 := (List.append_eq_nil.1 h).1
      simp only [escape, List.flatMap_cons, List.flatMap_nil, List.append_nil] at h1
      split_ifs at h1
  · rintro rfl
    rfl

theorem writePath_rooted (u : URL) (buf : Bytes) (hbuf : buf ≠ [])
    (hEP : u.EscapedPath = [] ∨ ∃ t, u.EscapedPath = 47 :: t) :
    u.writePath buf = buf ++ u.EscapedPath := by
  have h1 : ¬ (u.EscapedPath ≠ [] ∧ u.EscapedPath.head? ≠ some 47 ∧ u.Host ≠ []) := by
    rintro ⟨h1, h2, _⟩
    rcases hEP with e | ⟨t, e⟩
    · exact h1 e
    · rw [e] at h2
      simp at h2
  unfold URL.writePath
  simp only []
  rw [if_neg h1, if_neg (fun hc => hbuf hc.1)]

/-- The cleaned URL when there is a scheme or a host: scheme, `//`, host,
path, query. -/
theorem String_with_authority (s h path q : Bytes) (hsh : s ≠ [] ∨ h ≠ [])
    (hroot : path = [] ∨ path.head? = some 47) :
    (plainURL s h path q).String =
      (if s ≠ [] then s ++ [58] else []) ++
        ((if h ≠ [] ∨ path ≠ [] then [47, 47] else []) ++ escape h encodeHost ++
          escape path encodePath) ++
        (if q ≠ [] then 63 :: q else []) := by
  rw [String_plain _ rfl rfl rfl]
  have hstar : path ≠ [42] := by
    rintro rfl
    simp at hroot
  have hEP : (plainURL s h path q).EscapedPath = escape path encodePath := by
    rw [EscapedPath_plain, if_neg hstar]
  have hEP' := escape_rooted path encodePath (by decide) hroot
  have hA : (plainURL s h path q).writeAuthority (if s ≠ [] then s ++ [58] else []) =
      (if s ≠ [] then s ++ [58] else []) ++
        ((if h ≠ [] ∨ path ≠ [] then [47, 47] else []) ++ escape h encodeHost) := by
    simp only [URL.writeAuthority, plainURL, Option.isSome_none, Bool.false_eq_true, or_false,
      Option.isNone_none, and_true, false_and, if_false]
    rw [if_pos hsh]
    by_cases hh : h = []
    · by_cases hp : path = [] <;> simp [hh, hp, escape]
    · simp [hh]
  have hAne : (plainURL s h path q).writeAuthority (if s ≠ [] then s ++ [58] else []) ≠ [] := by
    rw [hA]
    rcases hsh with hs | hh
    · simp [hs]
    · simp [hh]
  have hs' : (plainURL s h path q).Scheme = s := rfl
  have hq' : (plainURL s h path q).RawQuery = q := rfl
  rw [hs', hq', writePath_rooted _ _ hAne (by rw [hEP]; exact hEP'), hA, hEP]
  simp only [List.append_assoc]

/-- The cleaned URL when there is neither scheme nor host: the path, after
`./` when its first segment holds a colon, then the query. -/
theorem String_path_only (path q : Bytes) :
    (plainURL [] [] path q).String =
      (if contains (cut (plainURL [] [] path q).EscapedPath [47]).1 [58] = true then [46, 47]
        else []) ++ (plainURL [] [] path q).EscapedPath ++
        (if q ≠ [] then 63 :: q else []) := by
  rw [String_plain _ rfl rfl rfl]
  simp only [URL.writeAuthority, URL.writePath, plainURL, ne_eq, not_true_eq_false, if_false,
    Option.isSome_none, Bool.false_eq_true, or_self, and_false, true_and, List.nil_append]

theorem parseAfterQuery_opaque_nil (url : URL) (hs : url.Scheme ≠ []) :
    parseAfterQuery url [] false = some { url with Opaque := [] } := by
  unfold parseAfterQuery
  simp [hasPrefix, hs]

/-- Parsing the cleaned URL again, when it has a scheme or a host, gives back
the scheme, the host, the path and the query it was built from. -/
theorem reparse_with_authority (s h path q : Bytes) (hs : SchemeShape s) (hlow : toLower s = s)
    (hsh : s ≠ [] ∨ h ≠ []) (hh : parseHost (escape h encodeHost) = some h)
    (hpath : IsBytes path) (hroot : path = [] ∨ path.head? = some 47)
    (hq : ∀ b ∈ q, 33 ≤ b ∧ b ≤ 126 ∧ b ≠ 35 ∧ b ≠ 63) :
    ∃ p', Parse (plainURL s h path q).String = some p' ∧ p'.Scheme = s ∧ p'.Host = h ∧
      p'.RawQuery = q ∧ p'.Path = path := by
  have hc := String_with_authority s h path q hsh hroot
  have hEh : ∀ b ∈ escape h encodeHost, 33 ≤ b ∧ b ≤ 126 ∧ b ≠ 35 ∧ b ≠ 63 ∧ b ≠ 47 ∧ b ≠ 64 := by
    intro b hb
    have h1 := escape_printable b _ _ hb
    have h2 : ¬ (b = 63 ∨ b = 35 ∨ b = 47 ∨ b = 64) := fun hx => not_mem_escape_host b h hx hb
    omega
  have hEp : ∀ b ∈ escape path encodePath, 33 ≤ b ∧ b ≤ 126 ∧ b ≠ 35 ∧ b ≠ 63 := by
    intro b hb
    have h1 := escape_printable b _ _ hb
    have h2 : ¬ (b = 63 ∨ b = 35) := fun hx => not_mem_escape_path b path hx hb
    omega
  -- the text between scheme and query
  obtain ⟨R, hRdef⟩ : ∃ R, R = (if h ≠ [] ∨ path ≠ [] then [47, 47] else []) ++
      escape h encodeHost ++ escape path encodePath := ⟨_, rfl⟩
  rw [← hRdef] at hc
  have hR : ∀ b ∈ R, 33 ≤ b ∧ b ≤ 126 ∧ b ≠ 35 ∧ b ≠ 63 := by
    intro b hb
    rw [hRdef] at hb
    rcases List.mem_append.1 hb with hb | hb
    · rcases List.mem_append.1 hb with hb | hb
      · split_ifs at hb
        · simp at hb
          omega
        · cases hb
      · have := hEh b hb
        omega
    · exact hEp b hb
  have hQ : ∀ b ∈ (if q ≠ [] then 63 :: q else []), 33 ≤ b ∧ b ≤ 126 ∧ b ≠ 35 := by
    intro b hb
    split_ifs at hb
    · rcases List.mem_cons.1 hb with hb | hb
      · omega
      · have := hq b hb
        omega
    · cases hb
  have hS : ∀ b ∈ (if s ≠ [] then s ++ [58] else []), 33 ≤ b ∧ b ≤ 126 ∧ b ≠ 35 := by
    intro b hb
    split_ifs at hb
    · rcases List.mem_append.1 hb with hb | hb
      · have := schemeByte_printable b (hs.1 b hb)
        omega
      · simp at hb
        omega
    · cases hb
  have hall : ∀ b ∈ (plainURL s h path q).String, 33 ≤ b ∧ b ≤ 126 ∧ b ≠ 35 := by
    intro b hb
    rw [hc] at hb
    rcases List.mem_append.1 hb with hb | hb
    · rcases List.mem_append.1 hb with hb | hb
      · exact hS b hb
      · have := hR b hb
        omega
    · exact hQ b hb
  have h35 : 35 ∉ (plainURL s h path q).String := fun hm => (hall 35 hm).2.2 rfl
  have hR63 : 63 ∉ R := fun hm => (hR 63 hm).2.2.2 rfl
  have hq63 : 63 ∉ q := fun hm => (hq 63 hm).2.2.2 rfl
  -- the scheme is read back
  have hg : getScheme (plainURL s h path q).String =
      some (s, R ++ (if q ≠ [] then 63 :: q else [])) := by
    rw [hc]
    by_cases hse : s = []
    · subst hse
      have hhne : h ≠ [] := by
        rcases hsh with h1 | h1
        · exact absurd rfl h1
        · exact h1
      simp only [ne_eq, not_true_eq_false, if_false, List.nil_append]
      apply getScheme_none
      have : R ++ (if q ≠ [] then 63 :: q else []) =
          [] ++ (47 :: (47 :: (escape h encodeHost ++ escape path encodePath) ++
            (if q ≠ [] then 63 :: q else []))) := by
        rw [hRdef]
        simp [hhne]
      rw [this]
      exact noSchemeTail_append [] _ (by simp) (Or.inr ⟨47, _, rfl, by decide, by norm_num⟩)
    · rw [if_pos hse]
      have : s ++ [58] ++ R ++ (if q ≠ [] then 63 :: q else []) =
          s ++ 58 :: (R ++ (if q ≠ [] then 63 :: q else [])) := by simp
      rw [this]
      exact getScheme_scheme s _ hs hse
  have hstar : (plainURL s h path q).String ≠ [42] := by
    rw [hc]
    by_cases hse : s = []
    · subst hse
      have hhne : h ≠ [] := by
        rcases hsh with h1 | h1
        · exact absurd rfl h1
        · exact h1
      rw [hRdef]
      simp [hhne]
    · rw [if_pos hse]
      intro he
      have := congrArg List.length he
      simp at this
      have : s.length ≠ 0 := by simpa using hse
      omega
  rw [Parse_no_fragment _ h35,
    parse_step _ s R q (fun b hb => ⟨(hall b hb).1, (hall b hb).2.1⟩) hstar hg hR63 hq63, hlow]
  by_cases hemp : h = [] ∧ path = []
  · -- nothing after the scheme
    obtain ⟨rfl, rfl⟩ := hemp
    have hse : s ≠ [] := by
      rcases hsh with h1 | h1
      · exact h1
      · exact absurd rfl h1
    have : R = [] := by
      rw [hRdef]
      simp [escape]
    rw [this, parseAfterQuery_opaque_nil _ hse]
    exact ⟨_, rfl, rfl, rfl, rfl, rfl⟩
  · have hor : h ≠ [] ∨ path ≠ [] := by
      by_contra hn
      simp only [not_or, not_not] at hn
      exact hemp hn
    have hRe : R = 47 :: 47 :: (escape h encodeHost ++ escape path encodePath) := by
      rw [hRdef, if_pos hor]
      simp
    have hP := escape_rooted path encodePath (by decide) hroot
    have hcond : s ≠ [] ∨ escape h encodeHost ≠ [] := by
      rcases hsh with h1 | h1
      · exact Or.inl h1
      · exact Or.inr (fun e => h1 ((escape_eq_nil h _).1 e))
    rw [hRe, parseAfterQuery_authority _ _ _ h (fun hm => (hEh 47 hm).2.2.2.2.1 rfl)
      (parseAuthority_host_only _ h (fun hm => (hEh 64 hm).2.2.2.2.2 rfl) hh) hP hcond,
      setPath_escape _ path hpath]
    exact ⟨_, rfl, rfl, rfl, rfl, rfl⟩

/-- `parseAfterQuery` on a text that is only a path: no scheme, no colon in a
relative first segment, not two slashes in front. -/
theorem parseAfterQuery_path (url : URL) (R : Bytes) (hs : url.Scheme = [])
    (hcolon : hasPrefix R [47] = true ∨ contains (cut R [47]).1 [58] = false)
    (hslash : ¬ (hasPrefix R [47, 47] = true ∧ hasPrefix R [47, 47, 47] = false)) :
    parseAfterQuery url R false = URL.setPath url R := by
  unfold parseAfterQuery
  have h1 : ¬ ((!hasPrefix R [47]) = true ∧ url.Scheme ≠ []) := fun h => h.2 hs
  have h3 : ¬ ((!hasPrefix R [47]) = true ∧ contains (cut R [47]).1 [58] = true) := by
    rintro ⟨ha, hb⟩
    rcases hcolon with hc | hc
    · simp [hc] at ha
    · rw [hc] at hb
      cases hb
  have h4 : ¬ ((url.Scheme ≠ [] ∨ (false = false ∧ (!hasPrefix R [47, 47, 47]) = true)) ∧
      hasPrefix R [47, 47] = true) := by
    rintro ⟨ha, hb⟩
    rcases ha with ha | ha
    · exact ha hs
    · exact hslash ⟨hb, by simpa using ha.2⟩
  have h5 : ¬ (url.Scheme ≠ [] ∧ hasPrefix R [47] = true) := fun h => h.1 hs
  rw [if_neg h1, if_neg (by simp), if_neg h3, if_neg h4, if_neg h5]

theorem hasPrefix_escape_slashes (path pre : Bytes) (hpre : ∀ x ∈ pre, x = 47) :
    hasPrefix (escape path encodePath) pre = hasPrefix path pre := by
  induction pre generalizing path with
  | nil => simp [hasPrefix]
  | cons a pre ih =>
    have ha : a = 47 := hpre a (by simp)
    subst ha
    cases path with
    | nil => simp [hasPrefix, escape]
    | cons c t =>
      rw [escape_cons]
      by_cases hc : c = 47
      · subst hc
        rw [escape_single_keep 47 _ (by decide), List.singleton_append, hasPrefix_cons,
          hasPrefix_cons]
        exact ih t fun x hx => hpre x (by simp [hx])
      · have h1 : hasPrefix (c :: t) (47 :: pre) = false := by
          simp [hasPrefix, List.isPrefixOf, hc, Ne.symm hc]
        rw [h1]
        cases hse : shouldEscape c encodePath
        · rw [escape_single_keep c _ hse]
          simp [hasPrefix, List.isPrefixOf, hc, Ne.symm hc]
        · rw [escape_pct c _ hse (by simp)]
          simp [hasPrefix, List.isPrefixOf]

theorem cut_decomp (P : Bytes) :
    ∃ tail, P = (cut P [47]).1 ++ tail ∧ (tail = [] ∨ ∃ t, tail = 47 :: t) ∧
      47 ∉ (cut P [47]).1 := by
  by_cases h : 47 ∈ P
  · obtain ⟨a, b, rfl, ha⟩ := List.eq_append_cons_of_mem h
    rw [cut_append 47 a b ha]
    exact ⟨47 :: b, rfl, Or.inr ⟨b, rfl⟩, ha⟩
  · rw [cut_of_not_mem 47 P h]
    exact ⟨[], by simp, Or.inl rfl, h⟩

theorem not_mem_escape_path_star (path : Bytes) : 42 ∉ escape path encodePath := by
  intro hm
  rcases mem_escape 42 path _ hm with ⟨_, h1⟩ | h1 | ⟨h1, _⟩ | h1 | h1
  · revert h1
    decide
  all_goals omega

/-- Parsing the cleaned URL again, when it has neither scheme nor host, gives
back the path and the query it was built from; the path comes back behind `./`
when its first segment holds a colon. -/
theorem reparse_path_only (path q : Bytes) (hpath : IsBytes path)
    (hq : ∀ b ∈ q, 33 ≤ b ∧ b ≤ 126 ∧ b ≠ 35 ∧ b ≠ 63 ∧ b ≠ 58)
    (hne : (plainURL [] [] path q).String ≠ [])
    (h4 : ¬ (hasPrefix path [47, 47] = true ∧ hasPrefix path [47, 47, 47] = false)) :
    ∃ p', Parse (plainURL [] [] path q).String = some p' ∧ p'.Scheme = [] ∧ p'.Host = [] ∧
      p'.RawQuery = q ∧
      (p'.Path = path ∨
        (path ≠ [42] ∧ contains (cut (escape path encodePath) [47]).1 [58] = true ∧
          p'.Path = 46 :: 47 :: path)) := by
  have hc := String_path_only path q
  have hq63 : 63 ∉ q := fun hm => (hq 63 hm).2.2.2.1 rfl
  have hq58 : 58 ∉ q := fun hm => (hq 58 hm).2.2.2.2 rfl
  have hQ : ∀ b ∈ (if q ≠ [] then 63 :: q else []), 33 ≤ b ∧ b ≤ 126 ∧ b ≠ 35 ∧ b ≠ 58 := by
    intro b hb
    split_ifs at hb
    · rcases List.mem_cons.1 hb with hb | hb
      · omega
      · have := hq b hb
        omega
    · cases hb
  have hQtail : (if q ≠ [] then 63 :: q else []) = [] ∨
      ∃ x t, (if q ≠ [] then 63 :: q else []) = x :: t ∧ isSchemeByte x = false ∧ x ≠ 58 := by
    by_cases hqe : q = []
    · exact Or.inl (by simp [hqe])
    · exact Or.inr ⟨63, q, by simp [hqe], by decide, by norm_num⟩
  have hEp : ∀ b ∈ escape path encodePath, 33 ≤ b ∧ b ≤ 126 ∧ b ≠ 35 ∧ b ≠ 63 := by
    intro b hb
    have h1 := escape_printable b _ _ hb
    have h2 : ¬ (b = 63 ∨ b = 35) := fun hx => not_mem_escape_path b path hx hb
    omega
  by_cases hstar : path = [42]
  · -- the path `*`
    subst hstar
    have hEP : (plainURL [] [] [42] q).EscapedPath = [42] := by
      rw [EscapedPath_plain, if_pos rfl]
    rw [hEP] at hc
    have hc' : (plainURL [] [] [42] q).String = 42 :: (if q ≠ [] then 63 :: q else []) := by
      rw [hc]
      rfl
    by_cases hqe : q = []
    · subst hqe
      exact ⟨{ Path := [42] }, by rw [hc']; rfl, rfl, rfl, rfl, Or.inl rfl⟩
    · rw [if_pos hqe] at hc'
      have hall : ∀ b ∈ 42 :: 63 :: q, 33 ≤ b ∧ b ≤ 126 ∧ b ≠ 35 := by
        intro b hb
        simp only [List.mem_cons] at hb
        rcases hb with hb | hb | hb
        · omega
        · omega
        · have := hq b hb
          omega
      have hg : getScheme (42 :: 63 :: q) = some ([], [42] ++ (if q ≠ [] then 63 :: q else [])) := by
        rw [if_pos hqe]
        exact getScheme_none _
          (noSchemeTail_append [] _ (by simp) (Or.inr ⟨42, _, rfl, by decide, by norm_num⟩))
      rw [hc', Parse_no_fragment _ (fun hm => (hall 35 hm).2.2 rfl),
        parse_step _ [] [42] q (fun b hb => ⟨(hall b hb).1, (hall b hb).2.1⟩) (by simp) hg
          (by simp) hq63,
        parseAfterQuery_path _ [42] rfl (Or.inr (by decide)) (by decide)]
      exact ⟨_, rfl, rfl, rfl, rfl, Or.inl rfl⟩
  · have hEP : (plainURL [] [] path q).EscapedPath = escape path encodePath := by
      rw [EscapedPath_plain, if_neg hstar]
    rw [hEP] at hc
    by_cases hcol : contains (cut (escape path encodePath) [47]).1 [58] = true
    · -- a colon in the first segment: the text starts with ./
      rw [if_pos hcol] at hc
      have hc' : (plainURL [] [] path q).String =
          (46 :: 47 :: escape path encodePath) ++ (if q ≠ [] then 63 :: q else []) := by
        rw [hc]
        simp
      have hesc : escape (46 :: 47 :: path) encodePath = 46 :: 47 :: escape path encodePath := by
        rw [escape_cons, escape_single_keep 46 _ (by decide), escape_cons,
          escape_single_keep 47 _ (by decide)]
        rfl
      have hall : ∀ b ∈ (46 :: 47 :: escape path encodePath) ++ (if q ≠ [] then 63 :: q else []),
          33 ≤ b ∧ b ≤ 126 ∧ b ≠ 35 := by
        intro b hb
        rcases List.mem_append.1 hb with hb | hb
        · simp only [List.mem_cons] at hb
          rcases hb with hb | hb | hb
          · omega
          · omega
          · have := hEp b hb
            omega
        · have := hQ b hb
          omega
      have hR63 : 63 ∉ 46 :: 47 :: escape path encodePath := by
        intro hm
        simp only [List.mem_cons] at hm
        rcases hm with hm | hm | hm
        · omega
        · omega
        · exact (hEp 63 hm).2.2.2 rfl
      have hg : getScheme ((46 :: 47 :: escape path encodePath) ++
          (if q ≠ [] then 63 :: q else [])) =
          some ([], (46 :: 47 :: escape path encodePath) ++ (if q ≠ [] then 63 :: q else [])) :=
        getScheme_none _
          (noSchemeTail_append [46] _ (by simp) (Or.inr ⟨47, _, rfl, by decide, by norm_num⟩))
      have hcut : cut (46 :: 47 :: escape path encodePath) [47] =
          ([46], escape path encodePath, true) := cut_append 47 [46] _ (by simp)
      rw [hc', Parse_no_fragment _ (fun hm => (hall 35 hm).2.2 rfl),
        parse_step _ [] _ q (fun b hb => ⟨(hall b hb).1, (hall b hb).2.1⟩)
          (by
            intro he
            have := congrArg List.length he
            simp at this) hg hR63 hq63,
        parseAfterQuery_path _ _ rfl (Or.inr (by rw [hcut]; rfl))
          (by simp [hasPrefix, List.isPrefixOf]),
        ← hesc, setPath_escape _ _ (by
          intro b hb
          simp only [List.mem_cons] at hb
          rcases hb with hb | hb | hb
          · omega
          · omega
          · exact hpath b hb)]
      exact ⟨_, rfl, rfl, rfl, rfl, Or.inr ⟨hstar, hcol, rfl⟩⟩
    · -- the path as it is
      rw [if_neg hcol] at hc
      have hcol' : contains (cut (escape path encodePath) [47]).1 [58] = false := by
        simpa using hcol
      have hc' : (plainURL [] [] path q).String =
          escape path encodePath ++ (if q ≠ [] then 63 :: q else []) := by
        rw [hc]
        simp
      have hall : ∀ b ∈ escape path encodePath ++ (if q ≠ [] then 63 :: q else []),
          33 ≤ b ∧ b ≤ 126 ∧ b ≠ 35 := by
        intro b hb
        rcases List.mem_append.1 hb with hb | hb
        · have := hEp b hb
          omega
        · have := hQ b hb
          omega
      obtain ⟨tail, htail, htail', _⟩ := cut_decomp (escape path encodePath)
      have hseg : 58 ∉ (cut (escape path encodePath) [47]).1 := (contains_single_false 58 _).1 hcol'
      have hns : NoSchemeTail (escape path encodePath ++ (if q ≠ [] then 63 :: q else [])) := by
        have e : escape path encodePath ++ (if q ≠ [] then 63 :: q else []) =
            (cut (escape path encodePath) [47]).1 ++ (tail ++ (if q ≠ [] then 63 :: q else [])) := by
          rw [← List.append_assoc, ← htail]
        rw [e]
        apply noSchemeTail_append _ _ hseg
        rcases htail' with rfl | ⟨t, rfl⟩
        · simpa using hQtail
        · exact Or.inr ⟨47, _, rfl, by decide, by norm_num⟩
      have hstar' : escape path encodePath ++ (if q ≠ [] then 63 :: q else []) ≠ [42] := by
        intro he
        cases hP : escape path encodePath with
        | nil =>
          rw [hP] at he
          by_cases hqe : q = []
          · simp [hqe] at he
          · simp [hqe] at he
        | cons a t =>
          rw [hP] at he
          simp only [List.cons_append, List.cons.injEq] at he
          have : 42 ∈ escape path encodePath := by
            rw [hP, he.1]
            simp
          exact not_mem_escape_path_star path this
      have hR63 : 63 ∉ escape path encodePath := fun hm => (hEp 63 hm).2.2.2 rfl
      rw [hc', Parse_no_fragment _ (fun hm => (hall 35 hm).2.2 rfl),
        parse_step _ [] _ q (fun b hb => ⟨(hall b hb).1, (hall b hb).2.1⟩) hstar'
          (getScheme_none _ hns) hR63 hq63,
        parseAfterQuery_path _ _ rfl (Or.inr hcol')
          (by
            rw [hasPrefix_escape_slashes path [47, 47] (by simp),
              hasPrefix_escape_slashes path [47, 47, 47] (by simp)]
            exact h4),
        setPath_escape _ _ hpath]
      exact ⟨_, rfl, rfl, rfl, rfl, Or.inl rfl⟩

theorem cleanedURL_plain (p : URL) :
    cleanedURL p =
      plainURL p.Scheme p.Host (cleanedURL p).Path (Values.Encode (filteredQuery p)) := by
  conv_lhs => rw [cleanedURL_eq]
  rw [cleanedURL_eq]
  rfl

theorem cleaned_path_isBytes (p : URL) (hp : IsBytes p.Path) : IsBytes (cleanedURL p).Path := by
  rw [cleanedURL_eq]
  simp only []
  split_ifs
  · unfold trimSuffix
    split_ifs
    · exact hp.take _
    · exact hp
  · exact hp

theorem cleaned_path_rooted (p : URL) (hp : p.Path = [] ∨ p.Path.head? = some 47) :
    (cleanedURL p).Path = [] ∨ (cleanedURL p).Path.head? = some 47 := by
  rw [cleanedURL_eq]
  simp only []
  split_ifs with h
  · obtain ⟨t, ht⟩ := (hasSuffix_single 47 _).1 h.2
    rw [ht, trimSuffix_single_append]
    cases t with
    | nil => exact Or.inl rfl
    | cons a t' =>
      right
      rcases hp with hp | hp
      · rw [ht] at hp
        simp at hp
      · rw [ht] at hp
        simpa using hp
  · exact hp

/-- The cleaned URL depends on the parsed URL only through its scheme, host,
path and query. -/
theorem cleanedURL_congr (p p' : URL) (h1 : p'.Scheme = p.Scheme) (h2 : p'.Host = p.Host)
    (h3 : p'.Path = p.Path) (h4 : p'.RawQuery = p.RawQuery) : cleanedURL p' = cleanedURL p := by
  rw [cleanedURL_eq, cleanedURL_eq, h1, h2, h3]
  simp only [filteredQuery, URL.Query, h4]

theorem cleanedURL_of_plain (s h path q : Bytes) (p' : URL) (h1 : p'.Scheme = s)
    (h2 : p'.Host = h) (h3 : p'.Path = path) (h4 : p'.RawQuery = q) :
    cleanedURL p' = cleanedURL (plainURL s h path q) :=
  cleanedURL_congr (plainURL s h path q) p' h1 h2 h3 h4

/-- The cleaned form of an already cleaned plain URL is itself: the path needs
no trimming and the query is a fixed point of the filter. -/
theorem cleanedURL_fixed (s h path q : Bytes)
    (hpath : path = [47] ∨ hasSuffix path [47] = false)
    (hq : Values.Encode (trackingParams.foldl Values.Del (ParseQuery q)) = q) :
    cleanedURL (plainURL s h path q) = plainURL s h path q := by
  rw [cleanedURL_eq]
  have : ¬ ((plainURL s h path q).Path ≠ [47] ∧ hasSuffix (plainURL s h path q).Path [47] = true) := by
    rintro ⟨h1, h2⟩
    rcases hpath with hx | hx
    · exact h1 hx
    · rw [show (plainURL s h path q).Path = path from rfl, hx] at h2
      cases h2
  rw [if_neg this]
  simp only [filteredQuery, URL.Query, show (plainURL s h path q).RawQuery = q from rfl, hq]
  rfl

theorem hasSuffix_cons_of_ne_nil (c : Nat) (t : Bytes) (ht : t ≠ []) :
    hasSuffix (c :: t) [47] = hasSuffix t [47] := by
  rw [Bool.eq_iff_iff, hasSuffix_single, hasSuffix_single]
  constructor
  · rintro ⟨r, hr⟩
    cases r with
    | nil =>
      simp only [List.nil_append, List.cons.injEq] at hr
      exact absurd hr.2 ht
    | cons a r' =>
      simp only [List.cons_append, List.cons.injEq] at hr
      exact ⟨r', hr.2⟩
  · rintro ⟨r, hr⟩
    exact ⟨c :: r, by rw [hr]; rfl⟩

/-- Idempotence of the cleaning on the inputs that the amended C1 describes. -/
theorem cleaned_fixed_point (p : URL) (hok : ParsedOK p)
    (h1 : (cleanedURL p).String ≠ [])
    (h2 : (cleanedURL p).Path = [47] ∨ hasSuffix (cleanedURL p).Path [47] = false)
    (h3 : ZoneASCII p.Host)
    (h4 : ¬ (p.Scheme = [] ∧ p.Host = [] ∧ hasPrefix (cleanedURL p).Path [47, 47] = true ∧
      hasPrefix (cleanedURL p).Path [47, 47, 47] = false)) :
    cleanedOf (cleanedURL p).String = some (cleanedURL p).String := by
  obtain ⟨raw, hraw, hparse⟩ := hok.host
  have hh := parseHost_roundtrip raw p.Host hraw hparse h3
  have hqb : ∀ b ∈ Values.Encode (filteredQuery p),
      33 ≤ b ∧ b ≤ 126 ∧ b ≠ 35 ∧ b ≠ 63 ∧ b ≠ 58 := by
    intro b hb
    have := mem_Encode b _ hb
    omega
  have hqfix : Values.Encode (trackingParams.foldl Values.Del
      (ParseQuery (Values.Encode (filteredQuery p)))) = Values.Encode (filteredQuery p) :=
    Encode_filter_idempotent p.Query (ParseQuery_WF _ hok.rawQuery)
  have hpb := cleaned_path_isBytes p hok.path
  have hplain := cleanedURL_plain p
  rw [hplain] at h1 ⊢
  by_cases hsh : p.Scheme ≠ [] ∨ p.Host ≠ []
  · obtain ⟨p', hp', e1, e2, e3, e4⟩ := reparse_with_authority p.Scheme p.Host
      (cleanedURL p).Path (Values.Encode (filteredQuery p)) hok.scheme hok.lower hsh hh hpb
      (cleaned_path_rooted p (hok.rooted hsh))
      (fun b hb => by
        have := hqb b hb
        omega)
    rw [cleanedOf_eq _ p' h1 hp', cleanedURL_of_plain _ _ _ _ p' e1 e2 e4 e3,
      cleanedURL_fixed _ _ _ _ h2 hqfix]
  · simp only [not_or, not_not] at hsh
    obtain ⟨hs, hhe⟩ := hsh
    rw [hs, hhe] at h1 ⊢
    obtain ⟨p', hp', e1, e2, e3, e4⟩ := reparse_path_only (cleanedURL p).Path
      (Values.Encode (filteredQuery p)) hpb hqb h1 (fun hc => h4 ⟨hs, hhe, hc.1, hc.2⟩)
    rw [cleanedOf_eq _ p' h1 hp']
    rcases e4 with e4 | ⟨hstar, hcol, e4⟩
    · rw [cleanedURL_of_plain _ _ _ _ p' e1 e2 e4 e3, cleanedURL_fixed _ _ _ _ h2 hqfix]
    · -- the path came back behind ./
      have hne : (cleanedURL p).Path ≠ [] := by
        intro he
        rw [he] at hcol
        revert hcol
        decide
      have hns : hasSuffix (cleanedURL p).Path [47] = false := by
        rcases h2 with h2 | h2
        · exfalso
          rw [h2] at hcol
          revert hcol
          decide
        · exact h2
      have hsuf : hasSuffix (46 :: 47 :: (cleanedURL p).Path) [47] = false := by
        rw [hasSuffix_cons_of_ne_nil 46 _ (by simp), hasSuffix_cons_of_ne_nil 47 _ hne]
        exact hns
      have hne42 : 46 :: 47 :: (cleanedURL p).Path ≠ [42] := by simp
      rw [cleanedURL_of_plain _ _ _ _ p' e1 e2 e4 e3,
        cleanedURL_fixed _ _ _ _ (Or.inr hsuf) hqfix,
        String_path_only, String_path_only]
      have hesc : escape (46 :: 47 :: (cleanedURL p).Path) encodePath =
          46 :: 47 :: escape (cleanedURL p).Path encodePath := by
        rw [escape_cons, escape_single_keep 46 _ (by decide), escape_cons,
          escape_single_keep 47 _ (by decide)]
        rfl
      have hcut : cut (46 :: 47 :: escape (cleanedURL p).Path encodePath) [47] =
          ([46], escape (cleanedURL p).Path encodePath, true) := cut_append 47 [46] _ (by simp)
      have hnc : ¬ (contains [46] [58] = true) := by decide
      simp only [EscapedPath_plain, if_neg hstar, if_neg hne42, hesc, hcut, if_pos hcol,
        if_neg hnc]
      simp

/-- C1 fails as stated: the cleaned URL of an accepted input need not be a
fixed point. `https://example.com/a//` is cleaned to `https://example.com/a/`,
which is cleaned further to `https://example.com/a` (one slash is removed per
call); `?ref=1` is cleaned to the empty string, which is rejected; the cleaned
URL of `http://[::1%25é]/` and the cleaned URL `//%20x` of `/%2F%20x` are both
rejected when submitted again. -/
theorem C1_not_idempotent :
    (cleanedOf (bytes "https://example.com/a//") = some (bytes "https://example.com/a/") ∧
      cleanedOf (bytes "https://example.com/a/") = some (bytes "https://example.com/a") ∧
      bytes "https://example.com/a/" ≠ bytes "https://example.com/a") ∧
    (cleanedOf (bytes "?ref=1") = some [] ∧ cleanedOf [] = none) ∧
    (cleanedOf (bytes "http://[::1%25é]/") = some (bytes "http://[::1%25%C3%A9]/") ∧
      cleanedOf (bytes "http://[::1%25%C3%A9]/") = none) ∧
    (cleanedOf (bytes "/%2F%20x") = some (bytes "//%20x") ∧
      cleanedOf (bytes "//%20x") = none) := by
  decide

/-- C1 (amended): let `u` be an input that `ProcessURL` accepts, parsed as `p`
and cleaned to `c`. If `c` is not empty, the path kept in the cleaned URL is
`/` or does not end in `/`, the host holds no non-ASCII byte in an IPv6 zone,
and `u` is not a URL without scheme and host whose cleaned path starts with
exactly two slashes, then `ProcessURL` accepts `c` and returns `c` again as
its cleaned URL. -/
theorem C1_idempotent_amended (u c : Bytes) (p : URL) (hb : IsBytes u)
    (hp : Parse u = some p) (hc : cleanedOf u = some c) (h1 : c ≠ [])
    (h2 : (cleanedURL p).Path = [47] ∨ hasSuffix (cleanedURL p).Path [47] = false)
    (h3 : ZoneASCII p.Host)
    (h4 : ¬ (p.Scheme = [] ∧ p.Host = [] ∧ hasPrefix (cleanedURL p).Path [47, 47] = true ∧
      hasPrefix (cleanedURL p).Path [47, 47, 47] = false)) :
    cleanedOf c = some c := by
  have hu : u ≠ [] := by
    rintro rfl
    rw [show cleanedOf [] = none from rfl] at hc
    cases hc
  rw [cleanedOf_eq u p hu hp] at hc
  cases hc
  exact cleaned_fixed_point p (Parse_ok u p hb hp) h1 h2 h3 h4

/-- Witness for C1 (amended): the cleaned URL of an input with tracking
parameters and a trailing slash is returned unchanged by a second call. -/
theorem C1_idempotent_amended_witness :
    cleanedOf (bytes "https://example.com/page/?utm_source=x&ref=y&keep=1") =
        some (bytes "https://example.com/page?keep=1") ∧
      cleanedOf (bytes "https://example.com/page?keep=1") =
        some (bytes "https://example.com/page?keep=1") :=
  ⟨by decide,
    C1_idempotent_amended (bytes "https://example.com/page/?utm_source=x&ref=y&keep=1")
      (bytes "https://example.com/page?keep=1")
      { Scheme := bytes "https", Host := bytes "example.com", Path := bytes "/page/",
        RawQuery := bytes "utm_source=x&ref=y&keep=1" }
      (by decide) (by decide) (by decide) (by decide) (by decide) (by decide) (by decide)⟩

end Byfood
